import Mathlib

/-!
# Torque3D TorqueScript compiler back end (`console/torquescript/compiler.cpp`)

A shallow embedding of the constant pools, the identifier table, the
per-function variable scope, the local-variable table, the literal-to-number
conversion and the chunked code stream of `compiler.cpp`, followed by theorems
about them.

Conventions of the embedding

* `U32` values are natural numbers; the `U32` arithmetic of the source whose
  wrap-around can change a result (lengths, counts, sizes, the byte count of
  the flattened stream) is written with an explicit `% U32_MOD`.
* A C string (`const char *`) is the list of its characters before the
  terminating NUL.
* The singly linked lists of the source (`list`/`next`) are Lean lists in link
  order; a pointer that always designates the last cell (`*walk` after a full
  traversal, `mCodeHead`) is the last element of the list.
* A call that ends in a fatal assert does not return; the `FuncVars`
  operations, which can end that way, return an `Outcome`.
* An access outside a buffer or a vector is undefined in the source; the
  operations that can make one return an `Option`, `none` standing for it.
-/

namespace Torque

/-! ## Machine integers and C strings -/

/-- The number of values of a `U32`. -/
def U32_MOD : Nat := 4294967296

/-- The characters of a NUL-terminated C string, the terminator excluded. -/
abbrev CStr := List Char

/-- Modelled from the spec: `dStrlen` (platform string functions, not part of
`compiler.cpp`), the number of characters before the terminating NUL. -/
def dStrlen (s : CStr) : Nat := s.length

/-- Modelled from the spec: `String::compare` on two C strings, the byte-exact
comparison (`strcmp`): `0` exactly when the strings are equal, otherwise the
sign of the first difference. -/
def strCompare : CStr → CStr → Int
  | [], [] => 0
  | [], _ :: _ => -1
  | _ :: _, [] => 1
  | a :: as, b :: bs =>
    if a = b then strCompare as bs else (a.toNat : Int) - (b.toNat : Int)

/-- Modelled from the spec: `dStricmp`, the locale-independent case-folding
comparison: both strings are folded to lower case and compared byte by byte. -/
def dStricmp (a b : CStr) : Int :=
  strCompare (a.map Char.toLower) (b.map Char.toLower)

/-- Modelled from the spec: `dStrcpy(dst, src, dstSize)`, the bounded copy of
the platform layer: at most `dstSize - 1` characters of `src` are stored and
the result is NUL-terminated.  The value is the string left in `dst`. -/
def dStrcpy (src : CStr) (dstSize : Nat) : CStr := src.take (dstSize - 1)

/-- A copy of `bytes` to offset `off` of the buffer `buf`; only the part
that lies inside the buffer is stored. -/
def writeBytes (buf : List Nat) (off : Nat) (bytes : List Nat) : List Nat :=
  buf.take off ++ bytes.take (buf.length - off) ++ buf.drop (off + bytes.length)

/-! ## CompilerStringTable -/

/-- Source type `CompilerStringTable::Entry` (without the `next` link). -/
structure StringEntry where
  string : CStr
  start : Nat
  len : Nat
  tag : Bool
  deriving DecidableEq, Repr

/-- Source type `CompilerStringTable`: the entry list in link order and `totalLen`.
`hashTable` is written by `add` and read by no function of the file; it is keyed
by the address of the argument and is not part of the modelled state. -/
structure CompilerStringTable where
  list : List StringEntry
  totalLen : Nat
  deriving DecidableEq, Repr

namespace CompilerStringTable

/-- The search loop of `CompilerStringTable::add`: the first entry with the
requested tag whose string compares equal in the requested comparison mode. -/
def walk (str : CStr) (caseSens tag : Bool) : List StringEntry → Option StringEntry
  | [] => none
  | e :: rest =>
    if e.tag != tag then walk str caseSens tag rest
    else if caseSens then
      (if strCompare e.string str = 0 then some e else walk str caseSens tag rest)
    else
      (if dStricmp e.string str = 0 then some e else walk str caseSens tag rest)

/-- Source function `CompilerStringTable::add(str, caseSens, tag)`: the table after the call and
the offset returned. -/
def add (t : CompilerStringTable) (str : CStr) (caseSens tag : Bool) :
    CompilerStringTable × Nat :=
  match walk str caseSens tag t.list with
  | some e => (t, e.start)
  | none =>
    let len0 := (dStrlen str + 1) % U32_MOD
    let len := if tag && decide (len0 < 7) then 7 else len0
    let newStr : StringEntry :=
      { string := dStrcpy str len, start := t.totalLen, len := len, tag := tag }
    ({ list := t.list ++ [newStr], totalLen := (t.totalLen + len) % U32_MOD }, newStr.start)

/-- Source function `CompilerStringTable::reset()`. -/
def reset (_t : CompilerStringTable) : CompilerStringTable :=
  { list := [], totalLen := 0 }

/-- The bytes of the characters of a C string, the terminator excluded. -/
def cBytes (s : CStr) : List Nat := s.map Char.toNat

/-- The NUL-terminated string found at offset `off` of a byte buffer: the bytes
from `off` up to the first zero byte. -/
def cstrAt (buf : List Nat) (off : Nat) : List Nat :=
  (buf.drop off).takeWhile (fun b => decide (b ≠ 0))

/-- The bytes `dStrcpy(dst, src, dstSize)` stores at `dst`: the characters kept
and the terminator, nothing when `dstSize` is 0. -/
def dStrcpyBytes (src : CStr) (dstSize : Nat) : List Nat :=
  if dstSize = 0 then [] else cBytes (dStrcpy src dstSize) ++ [0]

/-- Source function `CompilerStringTable::build()`: the bytes of the buffer
returned, `totalLen` zero bytes into which every entry is copied at its start,
the copy bounded by the `U32` difference `totalLen - walk->start`. -/
def build (t : CompilerStringTable) : List Nat :=
  t.list.foldl
    (fun ret walk => writeBytes ret walk.start
      (dStrcpyBytes walk.string ((t.totalLen + (U32_MOD - walk.start % U32_MOD)) % U32_MOD)))
    (List.replicate t.totalLen 0)

/-- The bytes a list of entries occupies when each entry takes `len` bytes: its
characters followed by zero bytes. -/
def layout (l : List StringEntry) : List Nat :=
  l.flatMap (fun e => cBytes e.string ++ List.replicate (e.len - e.string.length) 0)

/-- The entries of a pool are laid out one after the other from offset 0, each
holds its string with room for the terminator, no string contains a NUL, and
`totalLen` is the sum of the lengths. -/
def Packed (t : CompilerStringTable) : Prop :=
  (∀ (k : Nat) (e : StringEntry), t.list[k]? = some e →
    e.start = ((t.list.take k).map StringEntry.len).sum) ∧
  t.totalLen = (t.list.map StringEntry.len).sum ∧
  ∀ e ∈ t.list, e.string.length + 1 ≤ e.len ∧ ∀ ch ∈ e.string, ch.toNat ≠ 0

/-- Modelled from the spec: a freshly constructed string pool (the declaration
is in `compiler.h`): no entry and a total length of zero. -/
def fresh : CompilerStringTable := { list := [], totalLen := 0 }

/-- The arguments of one `add` call. -/
structure AddCall where
  str : CStr
  caseSens : Bool
  tag : Bool
  deriving DecidableEq, Repr

/-- A sequence of `add` calls, in order: the table after the calls and the
offsets the calls returned. -/
def addAll : CompilerStringTable → List AddCall → CompilerStringTable × List Nat
  | t, [] => (t, [])
  | t, c :: rest =>
    ((addAll (t.add c.str c.caseSens c.tag).1 rest).1,
     (t.add c.str c.caseSens c.tag).2 :: (addAll (t.add c.str c.caseSens c.tag).1 rest).2)

end CompilerStringTable

/-! ## CompilerFloatTable -/

/-- An `F64`, given by its IEEE-754 binary64 bit pattern. -/
structure F64 where
  bits : Nat
  deriving DecidableEq, Repr

namespace F64

/-- The 11 exponent bits. -/
def exponent (x : F64) : Nat := (x.bits / 2 ^ 52) % 2 ^ 11

/-- The 52 fraction bits. -/
def fraction (x : F64) : Nat := x.bits % 2 ^ 52

/-- A NaN has all exponent bits set and a non-zero fraction. -/
def isNaN (x : F64) : Bool := x.exponent == 2047 && x.fraction != 0

/-- Positive or negative zero: every bit but the sign bit is clear. -/
def isZero (x : F64) : Bool := x.bits % 2 ^ 63 == 0

/-- The C++ `==` on two doubles: false when either operand is a NaN, true on
two zeros of any sign, otherwise equality of the bit patterns. -/
def eq (a b : F64) : Bool :=
  !a.isNaN && !b.isNaN && ((a.isZero && b.isZero) || a.bits % 2 ^ 64 == b.bits % 2 ^ 64)

/-- A quiet NaN. -/
def qNaN : F64 := ⟨0x7FF8000000000000⟩

end F64

/-- Source type `CompilerFloatTable`: the entry list in link order and `count`. -/
structure CompilerFloatTable where
  list : List F64
  count : Nat
  deriving DecidableEq, Repr

namespace CompilerFloatTable

/-- The search loop of `CompilerFloatTable::add`, started at index `i`: the
index of the first entry that is `==` to `value`. -/
def walk (value : F64) : List F64 → Nat → Option Nat
  | [], _ => none
  | e :: rest, i => if F64.eq value e then some i else walk value rest ((i + 1) % U32_MOD)

/-- Source function `CompilerFloatTable::add(value)`: the table after the call and the index
returned. -/
def add (t : CompilerFloatTable) (value : F64) : CompilerFloatTable × Nat :=
  match walk value t.list 0 with
  | some i => (t, i)
  | none =>
    let count := (t.count + 1) % U32_MOD
    ({ list := t.list ++ [value], count := count }, (count + (U32_MOD - 1)) % U32_MOD)

/-- Source function `CompilerFloatTable::reset()`. -/
def reset (_t : CompilerFloatTable) : CompilerFloatTable :=
  { list := [], count := 0 }

/-- The table reached from a reset table by adding the values of `vs` in order. -/
def addAll (t : CompilerFloatTable) (vs : List F64) : CompilerFloatTable :=
  vs.foldl (fun acc v => (acc.add v).1) t

/-- Modelled from the spec: a freshly constructed float pool (the declaration
is in `compiler.h`): no entry and a count of zero. -/
def fresh : CompilerFloatTable := { list := [], count := 0 }

/-- A sequence of `add` calls, in order: the table after the calls and the
indices the calls returned. -/
def addAllIndices : CompilerFloatTable → List F64 → CompilerFloatTable × List Nat
  | t, [] => (t, [])
  | t, v :: rest =>
    ((addAllIndices (t.add v).1 rest).1, (t.add v).2 :: (addAllIndices (t.add v).1 rest).2)

end CompilerFloatTable

/-! ## CompilerIdentTable -/

/-- One cell of the `list` chain of `CompilerIdentTable` together with its
`nextIdent` chain: `offset` and `ip` are the fields of the cell, `nextIdent`
holds the `ip` fields of the cells reached through `nextIdent`, in chain order
(every chained cell carries the same `offset`). -/
structure IdentEntry where
  offset : Nat
  ip : Nat
  nextIdent : List Nat
  deriving DecidableEq, Repr

/-- Source type `CompilerIdentTable`: the `list` chain, in `next` order. -/
structure CompilerIdentTable where
  list : List IdentEntry
  deriving DecidableEq, Repr

namespace IdentEntry

/-- The addresses `CompilerIdentTable::write` emits for an entry: it walks
`el = walk; el; el = el->nextIdent` and writes `el->ip`. -/
def addresses (e : IdentEntry) : List Nat := e.ip :: e.nextIdent

end IdentEntry

namespace CompilerIdentTable

/-- Source function `CompilerIdentTable::reset()`. -/
def reset (_t : CompilerIdentTable) : CompilerIdentTable := { list := [] }

/-- The loop of `CompilerIdentTable::add`: the new cell is linked right behind
the first cell whose offset is `index`; `none` when the loop finds no such
cell. -/
def link (index ip : Nat) : List IdentEntry → Option (List IdentEntry)
  | [] => none
  | w :: rest =>
    if w.offset = index then some ({ w with nextIdent := ip :: w.nextIdent } :: rest)
    else (link index ip rest).map (fun l => w :: l)

/-- The part of `CompilerIdentTable::add` that follows the computation of
`index`. -/
def record (index ip : Nat) (t : CompilerIdentTable) : CompilerIdentTable :=
  match link index ip t.list with
  | some l => { list := l }
  | none => { list := { offset := index, ip := ip, nextIdent := [] } :: t.list }

/-- Source function `CompilerIdentTable::add(ste, ip)`, on the global string table `gst` and
the identifier table: `index` is `gGlobalStringTable.add(ste, false)`.  The
third argument of that call is the default of the declaration in `compiler.h`,
taken here as the parameter `tagDefault`. -/
def add (tagDefault : Bool) (gst : CompilerStringTable) (t : CompilerIdentTable)
    (ste : CStr) (ip : Nat) : CompilerStringTable × CompilerIdentTable :=
  ((gst.add ste false tagDefault).1, record (gst.add ste false tagDefault).2 ip t)

/-- A sequence of `add(ste, ip)` calls: the two tables after the calls and, for
every call in order, the string offset it computed with the `ip` it recorded. -/
def addAll (tagDefault : Bool) :
    CompilerStringTable → CompilerIdentTable → List (CStr × Nat) →
      CompilerStringTable × CompilerIdentTable × List (Nat × Nat)
  | gst, t, [] => (gst, t, [])
  | gst, t, (ste, ip) :: calls =>
    let r := addAll tagDefault (add tagDefault gst t ste ip).1 (add tagDefault gst t ste ip).2 calls
    (r.1, r.2.1, ((gst.add ste false tagDefault).2, ip) :: r.2.2)

/-- Source function `CompilerIdentTable::write(st)`: the `U32` values written to the stream. -/
def write (t : CompilerIdentTable) : List Nat :=
  t.list.length % U32_MOD ::
    t.list.flatMap (fun w => w.offset :: w.addresses.length % U32_MOD :: w.addresses)

/-- The `ip`s recorded for the offset `o` by a trace of calls, in call order. -/
def recorded (o : Nat) (trace : List (Nat × Nat)) : List Nat :=
  (trace.filter (fun p => decide (p.1 = o))).map Prod.snd

/-- The order in which the `nextIdent` chain holds a list of `ip`s recorded in
the order `ips`: the first one, then the others from the last recorded to the
second. -/
def chainOrder : List Nat → List Nat
  | [] => []
  | a :: rest => a :: rest.reverse

end CompilerIdentTable

/-! ## FuncVars -/

/-- A `StringTableEntry`: the handle of an interned string.  Two handles are
equal exactly when they designate the same interned string. -/
abbrev StringTableEntry := String

/-- Modelled from the spec: the type classes of `TypeReq`, an enum declared in
the AST header and not in `compiler.cpp`; `TypeReqNone` is the unconstrained
class. -/
inductive TypeReq
  | TypeReqNone
  | TypeReqUInt
  | TypeReqFloat
  | TypeReqString
  deriving DecidableEq, Repr

/-- The `find` on a `std::unordered_map`, the map being an association list with
at most one pair per key. -/
def mapFind {κ β : Type} [DecidableEq κ] (k : κ) : List (κ × β) → Option β
  | [] => none
  | (k', v) :: rest => if k' = k then some v else mapFind k rest

/-- The assignment `m[k] = v` on a `std::unordered_map`: the value of an
existing key is replaced, a new key is added. -/
def mapSet {κ β : Type} [DecidableEq κ] (k : κ) (v : β) : List (κ × β) → List (κ × β)
  | [] => [(k, v)]
  | (k', v') :: rest => if k' = k then (k, v) :: rest else (k', v') :: mapSet k v rest

/-- Source type `FuncVars::Var`. -/
structure Var where
  reg : Int
  currentType : TypeReq
  name : StringTableEntry
  isConstant : Bool
  deriving DecidableEq, Repr

/-- Source type `FuncVars`: the variables of one function scope.  `counter` is an `S32`;
its increment is not wrapped, an `S32` overflow being undefined in the source. -/
structure FuncVars where
  vars : List (StringTableEntry × Var)
  variableNameMap : List (Int × StringTableEntry)
  counter : Int
  deriving DecidableEq, Repr

/-- The text handed to `scriptErrorHandler`, by the format string that builds
it; the current file name, read from the parser, is left out. -/
inductive ScriptMessage
  | reassignConstant (var : StringTableEntry) (lineNumber : Int)
  | referencedBeforeUsed (var : StringTableEntry) (lineNumber : Int)
  deriving DecidableEq, Repr

/-- Source function `Compiler::scriptErrorHandler(str)`: with `Con::scriptWarningsAsAsserts`
set the `AssertISV(false, str)` ends the run (`none`), otherwise the message is
sent to the console as a warning. -/
def scriptErrorHandler (scriptWarningsAsAsserts : Bool) (str : ScriptMessage) :
    Option (List ScriptMessage) :=
  if scriptWarningsAsAsserts then none else some [str]

/-- What a call on a `FuncVars` does: it returns a value, leaving a scope and
the warnings it sent to the console, or it ends in the fatal assert. -/
inductive Outcome (α : Type)
  | returned (value : α) (scope : FuncVars) (warnings : List ScriptMessage)
  | aborted (message : ScriptMessage)
  deriving DecidableEq, Repr

namespace FuncVars

/-- Source function `FuncVars::assign(var, currentType, lineNumber, isConstant)`. -/
def assign (scriptWarningsAsAsserts : Bool) (fv : FuncVars) (var : StringTableEntry)
    (currentType : TypeReq) (lineNumber : Int) (isConstant : Bool) : Outcome Int :=
  match mapFind var fv.vars with
  | some found =>
    let found1 : Var :=
      if currentType ≠ found.currentType ∧ found.currentType ≠ TypeReq.TypeReqNone then
        { found with currentType := TypeReq.TypeReqNone }
      else found
    let fv1 : FuncVars := { fv with vars := mapSet var found1 fv.vars }
    if found1.isConstant then
      match scriptErrorHandler scriptWarningsAsAsserts
          (ScriptMessage.reassignConstant var lineNumber) with
      | none => Outcome.aborted (ScriptMessage.reassignConstant var lineNumber)
      | some ws => Outcome.returned found1.reg fv1 ws
    else Outcome.returned found1.reg fv1 []
  | none =>
    let id := fv.counter
    Outcome.returned id
      { vars := mapSet var { reg := id, currentType := currentType, name := var,
                             isConstant := isConstant } fv.vars,
        variableNameMap := mapSet id var fv.variableNameMap,
        counter := fv.counter + 1 } []

/-- Source function `FuncVars::lookup(var, lineNumber)`. -/
def lookup (scriptWarningsAsAsserts : Bool) (fv : FuncVars) (var : StringTableEntry)
    (lineNumber : Int) : Outcome Int :=
  match mapFind var fv.vars with
  | none =>
    match scriptErrorHandler scriptWarningsAsAsserts
        (ScriptMessage.referencedBeforeUsed var lineNumber) with
    | none => Outcome.aborted (ScriptMessage.referencedBeforeUsed var lineNumber)
    | some ws =>
      match assign scriptWarningsAsAsserts fv var TypeReq.TypeReqString lineNumber false with
      | Outcome.aborted m => Outcome.aborted m
      | Outcome.returned id fv1 ws1 => Outcome.returned id fv1 (ws ++ ws1)
  | some found => Outcome.returned found.reg fv []

/-- Source function `FuncVars::lookupType(var, lineNumber)`.  The final `vars.find(var)` of the
miss path is dereferenced without a test; the model returns the type of the
entry `assign` has just stored. -/
def lookupType (scriptWarningsAsAsserts : Bool) (fv : FuncVars) (var : StringTableEntry)
    (lineNumber : Int) : Outcome TypeReq :=
  match mapFind var fv.vars with
  | none =>
    match scriptErrorHandler scriptWarningsAsAsserts
        (ScriptMessage.referencedBeforeUsed var lineNumber) with
    | none => Outcome.aborted (ScriptMessage.referencedBeforeUsed var lineNumber)
    | some ws =>
      match assign scriptWarningsAsAsserts fv var TypeReq.TypeReqString lineNumber false with
      | Outcome.aborted m => Outcome.aborted m
      | Outcome.returned _ fv1 ws1 =>
        match mapFind var fv1.vars with
        | some found => Outcome.returned found.currentType fv1 (ws ++ ws1)
        | none => Outcome.returned TypeReq.TypeReqString fv1 (ws ++ ws1)
  | some found => Outcome.returned found.currentType fv []

/-- Source function `FuncVars::clear()`. -/
def clear (_fv : FuncVars) : FuncVars :=
  { vars := [], variableNameMap := [], counter := 0 }

/-- The arguments of one `assign` call. -/
structure AssignCall where
  var : StringTableEntry
  currentType : TypeReq
  lineNumber : Int
  isConstant : Bool
  deriving DecidableEq, Repr

/-- A sequence of `assign` calls made one after the other on a scope: the
register ids returned, the scope left and the warnings sent, or the fatal
assert of the first call that ends in one. -/
def assignAll (scriptWarningsAsAsserts : Bool) : FuncVars → List AssignCall → Outcome (List Int)
  | fv, [] => Outcome.returned [] fv []
  | fv, c :: cs =>
    match assign scriptWarningsAsAsserts fv c.var c.currentType c.lineNumber c.isConstant with
    | Outcome.aborted m => Outcome.aborted m
    | Outcome.returned id fv1 ws =>
      match assignAll scriptWarningsAsAsserts fv1 cs with
      | Outcome.aborted m => Outcome.aborted m
      | Outcome.returned ids fv2 ws2 => Outcome.returned (id :: ids) fv2 (ws ++ ws2)

/-- One call on a scope: `assign`, `lookup` or `lookupType` with its
arguments. -/
inductive Call
  | assign (var : StringTableEntry) (currentType : TypeReq) (lineNumber : Int)
      (isConstant : Bool)
  | lookup (var : StringTableEntry) (lineNumber : Int)
  | lookupType (var : StringTableEntry) (lineNumber : Int)
  deriving DecidableEq, Repr

/-- The name a call refers to. -/
def Call.var : Call → StringTableEntry
  | Call.assign v _ _ _ => v
  | Call.lookup v _ => v
  | Call.lookupType v _ => v

/-- The scope one call leaves, `none` when the call ends in the fatal assert. -/
def step (scriptWarningsAsAsserts : Bool) (fv : FuncVars) : Call → Option FuncVars
  | Call.assign v t l c =>
    match assign scriptWarningsAsAsserts fv v t l c with
    | Outcome.returned _ fv1 _ => some fv1
    | Outcome.aborted _ => none
  | Call.lookup v l =>
    match lookup scriptWarningsAsAsserts fv v l with
    | Outcome.returned _ fv1 _ => some fv1
    | Outcome.aborted _ => none
  | Call.lookupType v l =>
    match lookupType scriptWarningsAsAsserts fv v l with
    | Outcome.returned _ fv1 _ => some fv1
    | Outcome.aborted _ => none

/-- The scope a sequence of calls leaves, `none` when a call ends in the fatal
assert. -/
def run (scriptWarningsAsAsserts : Bool) : FuncVars → List Call → Option FuncVars
  | fv, [] => some fv
  | fv, c :: cs =>
    match step scriptWarningsAsAsserts fv c with
    | some fv1 => run scriptWarningsAsAsserts fv1 cs
    | none => none

/-- The names of `seen` followed by the names of `refs` not referenced before,
in the order of their first reference. -/
def firstSeen (seen : List StringTableEntry) : List StringTableEntry → List StringTableEntry
  | [] => seen
  | x :: rest => if x ∈ seen then firstSeen seen rest else firstSeen (seen ++ [x]) rest

/-- The scope holds exactly the names of `names`, the name at position `k` in
register `k` and under the id `k` of the id-to-name map, and the counter is the
number of names. -/
def Numbered (fv : FuncVars) (names : List StringTableEntry) : Prop :=
  fv.vars.map Prod.fst = names ∧ names.Nodup ∧ fv.counter = (names.length : Int) ∧
  ∀ (k : Nat) (name : StringTableEntry), names[k]? = some name →
    (∃ v, mapFind name fv.vars = some v ∧ v.reg = (k : Int)) ∧
    mapFind (k : Int) fv.variableNameMap = some name

/-- The type class stored for `var`, if `var` is in the scope. -/
def storedType (fv : FuncVars) (var : StringTableEntry) : Option TypeReq :=
  (mapFind var fv.vars).map Var.currentType

/-- The type class `assign` leaves for a name whose stored class was `o`
(`none` for an unseen name) when the class `ty` is requested. -/
def degrade (o : Option TypeReq) (ty : TypeReq) : TypeReq :=
  match o with
  | none => ty
  | some s => if ty ≠ s ∧ s ≠ TypeReq.TypeReqNone then TypeReq.TypeReqNone else s

/-- The entry `assign` leaves for a name found with the entry `found` when the
class `ty` is requested: the register, the name and the constant flag are kept
and the class is degraded. -/
def retyped (found : Var) (ty : TypeReq) : Var :=
  { found with currentType := degrade (some found.currentType) ty }

/-- The scope `assign` leaves for an unseen name. -/
def declare (fv : FuncVars) (var : StringTableEntry) (ty : TypeReq) (isConstant : Bool) :
    FuncVars :=
  { vars := (mapSet var { reg := fv.counter, currentType := ty, name := var,
                          isConstant := isConstant } fv.vars),
    variableNameMap := (mapSet fv.counter var fv.variableNameMap),
    counter := fv.counter + 1 }

/-- The stored class of a name after a run of requests, from the class `o`
stored before. -/
def typeAfter (o : Option TypeReq) (tys : List TypeReq) : Option TypeReq :=
  tys.foldl (fun acc ty => some (degrade acc ty)) o

/-- The classes requested for `x` by a sequence of calls, in call order. -/
def requests (x : StringTableEntry) (calls : List AssignCall) : List TypeReq :=
  (calls.filter (fun c => decide (c.var = x))).map AssignCall.currentType

end FuncVars

/-! ## Console diagnostics, consoleStringToNumber and the local-variable table -/

/-- A line sent to the console by `Con::warnf` or `Con::errorf`, by the format
string that builds it. -/
inductive ConsoleLine
  | alwaysZero (file : StringTableEntry) (line : Nat)
  | localVariableNotFound (varName funcLookupTableName : StringTableEntry)
  deriving DecidableEq, Repr

/-- What a call that writes to the console does: it returns a value, having
sent some lines, or it ends in a fatal assert. -/
inductive Run (α : Type)
  | returned (value : α) (console : List ConsoleLine)
  | aborted (message : ConsoleLine)
  deriving DecidableEq, Repr

/-- Source function `Compiler::consoleStringToNumber(str, file, line)`.  `dAtof`
is the platform conversion of a string to an `F64`; the first Boolean is the
value of `Con::scriptWarningsAsAsserts` at the call, which the function does
not read; `file` is `none` for a null pointer. -/
def consoleStringToNumber (dAtof : CStr → F64) (_scriptWarningsAsAsserts : Bool)
    (str : CStr) (file : Option StringTableEntry) (line : Nat) : Run F64 :=
  if !(F64.eq (dAtof str) ⟨0⟩) then Run.returned (dAtof str) []
  else if dStricmp str ['t', 'r', 'u', 'e'] = 0 then Run.returned ⟨0x3FF0000000000000⟩ []
  else if dStricmp str ['f', 'a', 'l', 's', 'e'] = 0 then Run.returned ⟨0⟩ []
  else
    match file with
    | some f => Run.returned ⟨0⟩ [ConsoleLine.alwaysZero f line]
    | none => Run.returned ⟨0⟩ []

/-- The access `m[k]` on a map: the map after the access and the value; a key
that is absent is added with the default value. -/
def mapIndex {κ β : Type} [DecidableEq κ] (k : κ) (dflt : β) (m : List (κ × β)) :
    List (κ × β) × β :=
  match mapFind k m with
  | some v => (m, v)
  | none => (m ++ [(k, dflt)], dflt)

/-- The conversion of a non-negative distance to an `S32`. -/
def toS32 (n : Nat) : Int := (((n + 2147483648) % U32_MOD : Nat) : Int) - 2147483648

/-- Source type `CompilerLocalVariableToRegisterMappingTable`: the map from a
function key to the ordered list `varList` of its variable names. -/
structure CompilerLocalVariableToRegisterMappingTable where
  localVarToRegister : List (StringTableEntry × List StringTableEntry)
  deriving DecidableEq, Repr

namespace CompilerLocalVariableToRegisterMappingTable

/-- Modelled from the spec: the key `namespace_name::function_name` that
`StringTable->insert(avar("%s::%s", namespaceName, functionName))` interns. -/
def funcLookupTableName (namespaceName functionName : StringTableEntry) : StringTableEntry :=
  namespaceName ++ "::" ++ functionName

/-- Source function `CompilerLocalVariableToRegisterMappingTable::reset()`. -/
def reset (_t : CompilerLocalVariableToRegisterMappingTable) :
    CompilerLocalVariableToRegisterMappingTable :=
  { localVarToRegister := [] }

/-- Source function `add(functionName, namespaceName, varName)`. -/
def add (t : CompilerLocalVariableToRegisterMappingTable)
    (functionName namespaceName varName : StringTableEntry) :
    CompilerLocalVariableToRegisterMappingTable :=
  { localVarToRegister :=
      (mapSet (funcLookupTableName namespaceName functionName)
        ((mapIndex (funcLookupTableName namespaceName functionName) []
            t.localVarToRegister).2 ++ [varName])
        (mapIndex (funcLookupTableName namespaceName functionName) []
            t.localVarToRegister).1) }

/-- The `std::find` of `lookup` with the `std::distance` to the match: the
position of the first element equal to `varName`. -/
def position (varName : StringTableEntry) : List StringTableEntry → Option Nat
  | [] => none
  | v :: rest => if v = varName then some 0 else (position varName rest).map (fun i => i + 1)

/-- Source function `lookup(namespaceName, functionName, varName)`: the table
after the call and what the call does.  The first Boolean is the value of
`Con::scriptWarningsAsAsserts` at the call, which the function does not read. -/
def lookup (_scriptWarningsAsAsserts : Bool) (t : CompilerLocalVariableToRegisterMappingTable)
    (namespaceName functionName varName : StringTableEntry) :
    CompilerLocalVariableToRegisterMappingTable × Run Int :=
  match mapFind (funcLookupTableName namespaceName functionName) t.localVarToRegister with
  | some _ =>
    match position varName
        (mapIndex (funcLookupTableName namespaceName functionName) []
          t.localVarToRegister).2 with
    | some i =>
      ({ localVarToRegister :=
          (mapIndex (funcLookupTableName namespaceName functionName) []
            t.localVarToRegister).1 },
       Run.returned (toS32 i) [])
    | none =>
      ({ localVarToRegister :=
          (mapIndex (funcLookupTableName namespaceName functionName) []
            t.localVarToRegister).1 },
       Run.returned (-1)
         [ConsoleLine.localVariableNotFound varName
            (funcLookupTableName namespaceName functionName)])
  | none =>
    (t, Run.returned (-1)
      [ConsoleLine.localVariableNotFound varName
        (funcLookupTableName namespaceName functionName)])

/-- The arguments of one `add` call. -/
structure AddCall where
  functionName : StringTableEntry
  namespaceName : StringTableEntry
  varName : StringTableEntry
  deriving DecidableEq, Repr

/-- A sequence of `add` calls, in order. -/
def addAll (t : CompilerLocalVariableToRegisterMappingTable) (calls : List AddCall) :
    CompilerLocalVariableToRegisterMappingTable :=
  calls.foldl (fun acc c => add acc c.functionName c.namespaceName c.varName) t

/-- The names a sequence of `add` calls records under the key `key`, in call
order. -/
def namesFor (key : StringTableEntry) (calls : List AddCall) : List StringTableEntry :=
  (calls.filter
    (fun c => decide (funcLookupTableName c.namespaceName c.functionName = key))).map
    AddCall.varName

end CompilerLocalVariableToRegisterMappingTable

/-! ## CodeStream -/

/-- The four bytes of a `U32` in memory, least significant first (the layout of
the x86-64 and ARM64 targets the file names). -/
def u32Bytes (v : Nat) : List Nat :=
  [v % 256, v / 256 % 256, v / 65536 % 256, v / 16777216 % 256]

/-- The `U32` read at element `i` of a byte buffer. -/
def readU32 (buf : List Nat) (i : Nat) : Nat :=
  buf.getD (4 * i) 0 + 256 * buf.getD (4 * i + 1) 0 + 65536 * buf.getD (4 * i + 2) 0
    + 16777216 * buf.getD (4 * i + 3) 0

/-- Source type `CodeStream::CodeData` (without the `next` link): the bytes of the
`BlockSize`-byte buffer `data` and the number `size` of bytes used. -/
structure CodeData where
  data : List Nat
  size : Nat
  deriving DecidableEq, Repr

/-- Source type `CodeStream::PatchEntry`. -/
structure PatchEntry where
  addr : Nat
  value : Nat
  deriving DecidableEq, Repr

/-- Source type `CodeStream`.  `mCode` is the chain of blocks from `mCode` in `next` order
and `mCodeHead` is its last block.  The vectors are lists, `push_back` adding
at the end. -/
structure CodeStream where
  mCode : List CodeData
  mCodePos : Nat
  mFixList : List Nat
  mFixStack : List Nat
  mFixLoopStack : List Bool
  mPatchList : List PatchEntry
  mBreakLines : List Nat
  deriving DecidableEq, Repr

/-- A `U8 *` into the chain: the position of the block and the byte offset in
its buffer. -/
structure CodePtr where
  block : Nat
  offset : Nat
  deriving DecidableEq, Repr

/-- What `emitCodeStream` hands back: `*size`, the bytes of the array `*stream`
and the element offset of `*lineBreaks` in it. -/
structure Emitted where
  size : Nat
  stream : List Nat
  lineBreaks : Nat
  deriving DecidableEq, Repr

/-- Modelled from the spec: the kinds of `CodeStream::FixType`, an enum of
`compiler.h`, numbered in the order loop-block start, break, continue. -/
def FIXTYPE_LOOPBLOCKSTART : Nat := 0

/-- Modelled from the spec: the break kind of `CodeStream::FixType`. -/
def FIXTYPE_BREAK : Nat := 1

/-- Modelled from the spec: the continue kind of `CodeStream::FixType`. -/
def FIXTYPE_CONTINUE : Nat := 2

/-- The function `f` applied to element `n` of a list. -/
def modifyAt {α : Type} (f : α → α) : Nat → List α → List α
  | _, [] => []
  | 0, x :: xs => f x :: xs
  | n + 1, x :: xs => x :: modifyAt f n xs

namespace CodeStream

/-- A stream as its constructor leaves it. -/
def fresh : CodeStream :=
  { mCode := [], mCodePos := 0, mFixList := [], mFixStack := [], mFixLoopStack := [],
    mPatchList := [], mBreakLines := [] }

/-- The block `allocCode` creates: a `dMalloc(BlockSize)` buffer, whose
indeterminate bytes are taken as 0, with `size = sz`. -/
def newBlock (BlockSize sz : Nat) : CodeData :=
  { data := List.replicate BlockSize 0, size := sz }

/-- Source function `CodeStream::allocCode(sz)`: the stream after the call and the pointer
returned.  `BlockSize` is a constant of `compiler.h`. -/
def allocCode (BlockSize : Nat) (s : CodeStream) (sz : Nat) : CodeStream × CodePtr :=
  match s.mCode.getLast? with
  | some head =>
    let bytesLeft := (BlockSize + (U32_MOD - head.size % U32_MOD)) % U32_MOD
    if bytesLeft > sz then
      ({ s with mCode := s.mCode.dropLast ++ [{ head with size := (head.size + sz) % U32_MOD }] },
       { block := s.mCode.length - 1, offset := head.size })
    else
      ({ s with mCode := s.mCode ++ [newBlock BlockSize sz] },
       { block := s.mCode.length, offset := 0 })
  | none =>
    ({ s with mCode := s.mCode ++ [newBlock BlockSize sz] },
     { block := s.mCode.length, offset := 0 })

/-- The caller of `allocCode` filling the region it was given: `bytes` are
stored through the pointer `p`. -/
def store (s : CodeStream) (p : CodePtr) (bytes : List Nat) : CodeStream :=
  { s with mCode :=
      (modifyAt (fun c => { c with data := writeBytes c.data p.offset bytes }) p.block s.mCode) }

/-- One write: `allocCode(sz)` for `sz` the number of bytes, and the region
filled with the bytes. -/
def writeCode (BlockSize : Nat) (s : CodeStream) (bytes : List Nat) : CodeStream :=
  store (allocCode BlockSize s bytes.length).1 (allocCode BlockSize s bytes.length).2 bytes

/-- A sequence of writes, in order. -/
def writeAll (BlockSize : Nat) (s : CodeStream) (writes : List (List Nat)) : CodeStream :=
  writes.foldl (writeCode BlockSize) s

/-- Modelled from the spec: `patch(addr, value)`, an inline function of
`compiler.h`, records a deferred patch at the end of the patch list. -/
def patch (s : CodeStream) (addr value : Nat) : CodeStream :=
  { s with mPatchList := s.mPatchList ++ [{ addr := addr, value := value }] }

/-- The body of the loop of `fixLoop` for one pair of `mFixList`, on the patch
list. -/
def fixOne (loopBlockStart breakPoint continuePoint : Nat) (addr type : Nat)
    (patches : List PatchEntry) : List PatchEntry :=
  if type = FIXTYPE_LOOPBLOCKSTART then patches ++ [{ addr := addr, value := loopBlockStart }]
  else if type = FIXTYPE_BREAK then patches ++ [{ addr := addr, value := breakPoint }]
  else if type = FIXTYPE_CONTINUE then patches ++ [{ addr := addr, value := continuePoint }]
  else patches

/-- The loop of `fixLoop` over the elements of `mFixList` from `fixStart` on,
two at a time; `none` when `mFixList[i + 1]` is read past the end. -/
def fixFrom (loopBlockStart breakPoint continuePoint : Nat) :
    List Nat → List PatchEntry → Option (List PatchEntry)
  | [], patches => some patches
  | [_], _ => none
  | addr :: type :: rest, patches =>
    fixFrom loopBlockStart breakPoint continuePoint rest
      (fixOne loopBlockStart breakPoint continuePoint addr type patches)

/-- Source function `CodeStream::fixLoop(loopBlockStart, breakPoint, continuePoint)`; `none`
when the fix stack is empty (the `AssertFatal`) or the vector is read past its
end. -/
def fixLoop (s : CodeStream) (loopBlockStart breakPoint continuePoint : Nat) :
    Option CodeStream :=
  match s.mFixStack.getLast? with
  | none => none
  | some fixStart =>
    match fixFrom loopBlockStart breakPoint continuePoint (s.mFixList.drop fixStart)
        s.mPatchList with
    | none => none
    | some patches => some { s with mPatchList := patches }

/-- Modelled from the spec: `getNumLineBreaks()`, an inline function of
`compiler.h`: the number of (line, ip) pairs of the line-break list. -/
def getNumLineBreaks (s : CodeStream) : Nat := s.mBreakLines.length / 2

/-- The chunk loop of `emitCodeStream`: every block's used bytes, cut to the
`outBytes` still expected, are copied to `outPtr`; `none` when a copy reads
past a block's buffer or writes past the output buffer. -/
def copyChunks : List CodeData → List Nat → Nat → Nat → Option (List Nat)
  | [], buf, _, _ => some buf
  | itr :: rest, buf, outPtr, outBytes =>
    let bytesToCopy := if itr.size > outBytes then outBytes else itr.size
    if bytesToCopy ≤ itr.data.length ∧ outPtr + bytesToCopy ≤ buf.length then
      copyChunks rest (writeBytes buf outPtr (itr.data.take bytesToCopy))
        (outPtr + bytesToCopy) (outBytes - bytesToCopy)
    else none

/-- The patch loop of `emitCodeStream`; `none` when a patch addresses an element
outside the array. -/
def applyPatches : List PatchEntry → List Nat → Option (List Nat)
  | [], buf => some buf
  | e :: rest, buf =>
    if 4 * e.addr + 4 ≤ buf.length then
      applyPatches rest (writeBytes buf (4 * e.addr) (u32Bytes e.value))
    else none

/-- Source function `CodeStream::emitCodeStream(size, stream, lineBreaks)`.  The array has
`mCodePos + numLineBreaks * 2` elements; the `dMemset` clears a prefix of it and
the other bytes, indeterminate in the source, are taken as 0 too.  `none` when
a copy or a patch leaves its buffer. -/
def emitCodeStream (s : CodeStream) : Option Emitted :=
  let numLineBreaks := getNumLineBreaks s
  let elements := (s.mCodePos + numLineBreaks * 2) % U32_MOD
  let outBytes := (s.mCodePos * 4) % U32_MOD
  match copyChunks s.mCode (List.replicate (4 * elements) 0) 0 outBytes with
  | none => none
  | some buf =>
    if 4 * s.mCodePos + 4 * s.mBreakLines.length ≤ buf.length then
      match applyPatches s.mPatchList
          (writeBytes buf (4 * s.mCodePos) (s.mBreakLines.flatMap u32Bytes)) with
      | none => none
      | some out => some { size := s.mCodePos, stream := out, lineBreaks := s.mCodePos }
    else none

/-- Source function `CodeStream::reset()`. -/
def reset (s : CodeStream) : CodeStream :=
  { mCodePos := 0
    mFixStack := []
    mFixLoopStack := []
    mFixList := []
    mBreakLines := []
    mPatchList := s.mPatchList
    mCode :=
      match s.mCode with
      | [] => []
      | first :: _ => [{ first with size := 0 }] }

/-- The elements a list of (address, kind) pairs occupies in `mFixList`. -/
def flatPairs (pairs : List (Nat × Nat)) : List Nat :=
  pairs.flatMap (fun p => [p.1, p.2])

/-- The patch `fixLoop` owes an (address, kind) pair: the address patched to the
target of its kind, nothing for another kind. -/
def resolve (loopBlockStart breakPoint continuePoint : Nat) (p : Nat × Nat) :
    Option PatchEntry :=
  if p.2 = FIXTYPE_LOOPBLOCKSTART then some { addr := p.1, value := loopBlockStart }
  else if p.2 = FIXTYPE_BREAK then some { addr := p.1, value := breakPoint }
  else if p.2 = FIXTYPE_CONTINUE then some { addr := p.1, value := continuePoint }
  else none

/-- A region handed out by `allocCode`: the pointer returned and the size asked
for, the bytes `[ptr, ptr + sz)`. -/
structure Region where
  ptr : CodePtr
  sz : Nat
  deriving DecidableEq, Repr

/-- Two regions share no byte: they lie in different blocks or one ends where
the other has not begun. -/
def Region.Disjoint (r1 r2 : Region) : Prop :=
  r1.ptr.block ≠ r2.ptr.block ∨ r1.ptr.offset + r1.sz ≤ r2.ptr.offset ∨
    r2.ptr.offset + r2.sz ≤ r1.ptr.offset

/-- A sequence of `allocCode` calls, in order: the stream after the calls and
the regions the calls returned. -/
def allocAll (BlockSize : Nat) : CodeStream → List Nat → CodeStream × List Region
  | s, [] => (s, [])
  | s, sz :: rest =>
    ((allocAll BlockSize (allocCode BlockSize s sz).1 rest).1,
     { ptr := (allocCode BlockSize s sz).2, sz := sz }
       :: (allocAll BlockSize (allocCode BlockSize s sz).1 rest).2)

/-- The regions of `regions` lie in blocks of the chain and inside the used
part of their block. -/
def Placed (l : List CodeData) (regions : List Region) : Prop :=
  ∀ r ∈ regions, ∃ c, l[r.ptr.block]? = some c ∧ r.ptr.offset + r.sz ≤ c.size

/-- The bytes in use of a chain of blocks, in chain order. -/
def content (l : List CodeData) : List Nat :=
  l.flatMap (fun c => c.data.take c.size)

/-- Every block of the stream is a `BlockSize`-byte buffer, as `allocCode`
allocates them. -/
def Blocks (BlockSize : Nat) (s : CodeStream) : Prop :=
  ∀ c ∈ s.mCode, c.data.length = BlockSize

/-- The streams on which `emitCodeStream` stays inside its buffers: no block is
used past its buffer, the line-break list holds (line, ip) pairs, the element
count of the array does not wrap, and every patch addresses an element of the
array. -/
def EmitSafe (s : CodeStream) : Prop :=
  (∀ c ∈ s.mCode, c.size ≤ c.data.length) ∧
  s.mBreakLines.length % 2 = 0 ∧
  s.mCodePos + s.mBreakLines.length < U32_MOD ∧
  ∀ q ∈ s.mPatchList, q.addr < s.mCodePos + s.mBreakLines.length

instance (s : CodeStream) : Decidable (EmitSafe s) := by
  unfold EmitSafe
  infer_instance

/-- The array of `emitCodeStream` before the patches are applied: the copied
block bytes, then the line-break table. -/
def unpatched (s : CodeStream) : List Nat :=
  writeBytes
    (writeBytes (List.replicate (4 * (s.mCodePos + s.mBreakLines.length)) 0) 0
      ((content s.mCode).take ((s.mCodePos * 4) % U32_MOD)))
    (4 * s.mCodePos) (s.mBreakLines.flatMap u32Bytes)

/-- The patches of a list applied to an array, in list order. -/
def patched (ps : List PatchEntry) (buf : List Nat) : List Nat :=
  ps.foldl (fun b e => writeBytes b (4 * e.addr) (u32Bytes e.value)) buf

/-- A stream with two nested fix scopes open: one word written for each of two
break placeholders, the one at address 0 in the outer scope (mark 0), the one
at address 1 in the inner scope (mark 2). -/
def twoScopes : CodeStream :=
  { mCode := [{ data := u32Bytes FIXTYPE_BREAK ++ u32Bytes FIXTYPE_BREAK ++ List.replicate 8 0,
                size := 8 }]
    mCodePos := 2
    mFixList := [0, FIXTYPE_BREAK, 1, FIXTYPE_BREAK]
    mFixStack := [0, 2]
    mFixLoopStack := [true, true]
    mPatchList := []
    mBreakLines := [] }

/-- A stream inside a loop nested in an outer scope: three words written, a
break placeholder of the outer scope at address 0 (mark 0) and a break and a
continue placeholder of the inner scope at addresses 1 and 2 (mark 2). -/
def loopScopes : CodeStream :=
  { mCode := [{ data := u32Bytes FIXTYPE_BREAK ++ u32Bytes FIXTYPE_BREAK
                  ++ u32Bytes FIXTYPE_CONTINUE ++ List.replicate 4 0,
                size := 12 }]
    mCodePos := 3
    mFixList := [0, FIXTYPE_BREAK, 1, FIXTYPE_BREAK, 2, FIXTYPE_CONTINUE]
    mFixStack := [0, 2]
    mFixLoopStack := [false, true]
    mPatchList := []
    mBreakLines := [] }

/-- A stream after one compile: one word written at address 0 and patched to
the value 7. -/
def patchedOnce : CodeStream :=
  { mCode := [{ data := u32Bytes 1 ++ List.replicate 12 0, size := 4 }]
    mCodePos := 1
    mFixList := []
    mFixStack := []
    mFixLoopStack := []
    mPatchList := [{ addr := 0, value := 7 }]
    mBreakLines := [] }

end CodeStream

/-! ## Theorems: constant pools -/

theorem strCompare_self (s : CStr) : strCompare s s = 0 := by
  induction s with
  | nil => rfl
  | cons a as ih => simp [strCompare, ih]

theorem dStricmp_self (s : CStr) : dStricmp s s = 0 := strCompare_self _

theorem dStrcpy_full (s : CStr) (n : Nat) (h : s.length < n) : dStrcpy s n = s := by
  unfold dStrcpy
  exact List.take_of_length_le (by omega)

namespace CompilerStringTable

theorem string_walk_append (str : CStr) (caseSens tag : Bool) (l : List StringEntry)
    (e : StringEntry) (h : walk str caseSens tag l = none) :
    walk str caseSens tag (l ++ [e]) = walk str caseSens tag [e] := by
  generalize hr : walk str caseSens tag [e] = r
  induction l with
  | nil => exact hr
  | cons x xs ih =>
    simp only [walk] at h
    simp only [List.cons_append, walk]
    split_ifs at h ⊢ <;> exact ih h

/-- The length `add` allocates for a string shorter than `2^32 - 1`. -/
theorem stored_len (str : CStr) (tag : Bool) (h : str.length + 1 < U32_MOD) :
    str.length <
      (if tag && decide ((dStrlen str + 1) % U32_MOD < 7) then 7
        else (dStrlen str + 1) % U32_MOD) := by
  have h0 : (dStrlen str + 1) % U32_MOD = str.length + 1 := by
    unfold dStrlen; exact Nat.mod_eq_of_lt h
  rw [h0]
  split_ifs with h1
  · simp only [Bool.and_eq_true, decide_eq_true_eq] at h1
    omega
  · omega

end CompilerStringTable

/-- C1. Pool dedup, strings: `CompilerStringTable::add(s, caseSens, tag)` called
twice in a row on any table returns the same offset both times, and the second
call leaves the entry list and `totalLen` as the first call left them.  The
string is one whose length plus terminator fits the `U32 len` of the source. -/
theorem CompilerStringTable.string_add_twice (t : CompilerStringTable) (s : CStr)
    (caseSens tag : Bool) (hs : s.length + 1 < U32_MOD) :
    ((t.add s caseSens tag).1.add s caseSens tag).2 = (t.add s caseSens tag).2 ∧
    ((t.add s caseSens tag).1.add s caseSens tag).1.list = (t.add s caseSens tag).1.list ∧
    ((t.add s caseSens tag).1.add s caseSens tag).1.totalLen
      = (t.add s caseSens tag).1.totalLen := by
  cases hw : walk s caseSens tag t.list with
  | some e => simp [add, hw]
  | none =>
    have hcopy := dStrcpy_full s _ (stored_len s tag hs)
    have hfound : walk s caseSens tag
        (t.list ++ [{ string := s, start := t.totalLen,
                      len := (if tag && decide ((dStrlen s + 1) % U32_MOD < 7) then 7
                        else (dStrlen s + 1) % U32_MOD), tag := tag }])
        = some { string := s, start := t.totalLen,
                 len := (if tag && decide ((dStrlen s + 1) % U32_MOD < 7) then 7
                   else (dStrlen s + 1) % U32_MOD), tag := tag } := by
      rw [string_walk_append _ _ _ _ _ hw]
      cases caseSens <;> simp [walk, strCompare_self, dStricmp_self]
    simp only [add, hw, hcopy, hfound, and_self]

/-- C1, at the empty table and the string `ab`. -/
theorem CompilerStringTable.string_add_twice_witness :
    ['a', 'b'].length + 1 < U32_MOD ∧
    (((⟨[], 0⟩ : CompilerStringTable).add ['a', 'b'] false true).1.add ['a', 'b'] false true).2
      = ((⟨[], 0⟩ : CompilerStringTable).add ['a', 'b'] false true).2 :=
  ⟨by decide,
   (CompilerStringTable.string_add_twice ⟨[], 0⟩ ['a', 'b'] false true (by decide)).1⟩

namespace CompilerFloatTable

theorem float_walk_append (v : F64) (hv : F64.eq v v = true) (l : List F64) (i : Nat)
    (hi : i < U32_MOD) (h : walk v l i = none) :
    walk v (l ++ [v]) i = some ((i + l.length) % U32_MOD) := by
  induction l generalizing i with
  | nil => simp [walk, hv, Nat.mod_eq_of_lt hi]
  | cons x xs ih =>
    simp only [walk] at h
    split_ifs at h with hx
    have hlt : (i + 1) % U32_MOD < U32_MOD := Nat.mod_lt _ (by decide)
    rw [List.cons_append, walk, if_neg hx, ih _ hlt h, List.length_cons]
    congr 1
    unfold U32_MOD at *
    omega

theorem add_count (t : CompilerFloatTable) (v : F64)
    (h : t.count = t.list.length % U32_MOD) :
    (t.add v).1.count = (t.add v).1.list.length % U32_MOD := by
  unfold add
  cases walk v t.list 0 with
  | some i => exact h
  | none =>
    simp only [List.length_append, List.length_singleton, h]
    unfold U32_MOD
    omega

theorem addAll_count (vs : List F64) (t : CompilerFloatTable)
    (h : t.count = t.list.length % U32_MOD) :
    (addAll t vs).count = (addAll t vs).list.length % U32_MOD := by
  induction vs generalizing t with
  | nil => exact h
  | cons v vs ih => exact ih _ (add_count t v h)

end CompilerFloatTable

/-- C2, as stated, fails on a NaN: on the reset table the first
`add(NaN)` returns index 0 and the second returns index 1, and `count` grows on
both calls. -/
theorem CompilerFloatTable.float_add_twice_nan :
    ¬ ((((⟨[], 0⟩ : CompilerFloatTable).add F64.qNaN).1.add F64.qNaN).2
          = ((⟨[], 0⟩ : CompilerFloatTable).add F64.qNaN).2 ∧
       (((⟨[], 0⟩ : CompilerFloatTable).add F64.qNaN).1.add F64.qNaN).1.count
          = ((⟨[], 0⟩ : CompilerFloatTable).add F64.qNaN).1.count) := by
  decide

/-- C2, amended. Pool dedup, floats: on every table reached from a reset table
by `add` calls, and for every value that is not a NaN (signed zeros included),
`CompilerFloatTable::add(v)` called twice in a row returns the same index both
times and the second call changes neither `count` nor the entry list. -/
theorem CompilerFloatTable.float_add_twice (t0 : CompilerFloatTable) (vs : List F64) (v : F64)
    (hv : v.isNaN = false) :
    (((addAll (reset t0) vs).add v).1.add v).2 = ((addAll (reset t0) vs).add v).2 ∧
    (((addAll (reset t0) vs).add v).1.add v).1.count
      = ((addAll (reset t0) vs).add v).1.count ∧
    (((addAll (reset t0) vs).add v).1.add v).1.list
      = ((addAll (reset t0) vs).add v).1.list := by
  have hinv := addAll_count vs (reset t0) rfl
  generalize addAll (reset t0) vs = t at hinv
  have hvv : F64.eq v v = true := by simp [F64.eq, hv]
  cases hw : walk v t.list 0 with
  | some i => simp [add, hw]
  | none =>
    have hfound := float_walk_append v hvv t.list 0 (by decide) hw
    have hidx : ((t.count + 1) % U32_MOD + (U32_MOD - 1)) % U32_MOD
        = (0 + t.list.length) % U32_MOD := by
      rw [hinv]; unfold U32_MOD; omega
    simp only [add, hw, hfound, hidx, and_self]

/-- C2 amended, at negative zero after positive zero was added. -/
theorem CompilerFloatTable.float_add_twice_witness :
    (⟨2 ^ 63⟩ : F64).isNaN = false ∧
    (((addAll (reset ⟨[], 0⟩) [⟨0⟩]).add ⟨2 ^ 63⟩).1.add ⟨2 ^ 63⟩).2
      = ((addAll (reset ⟨[], 0⟩) [⟨0⟩]).add ⟨2 ^ 63⟩).2 :=
  ⟨by decide, (CompilerFloatTable.float_add_twice ⟨[], 0⟩ [⟨0⟩] ⟨2 ^ 63⟩ (by decide)).1⟩

/-! ## Theorems: FuncVars -/

theorem mapFind_mapSet_self {κ β : Type} [DecidableEq κ] (k : κ) (v : β) (m : List (κ × β)) :
    mapFind k (mapSet k v m) = some v := by
  induction m with
  | nil => simp [mapSet, mapFind]
  | cons p rest ih =>
    obtain ⟨k', v'⟩ := p
    by_cases h : k' = k <;> simp [mapSet, mapFind, h, ih]

theorem mapFind_mapSet_ne {κ β : Type} [DecidableEq κ] (k x : κ) (v : β) (m : List (κ × β))
    (hne : k ≠ x) : mapFind x (mapSet k v m) = mapFind x m := by
  induction m with
  | nil => simp [mapSet, mapFind, hne]
  | cons p rest ih =>
    obtain ⟨k', v'⟩ := p
    by_cases h : k' = k
    · subst h; simp [mapSet, mapFind, hne]
    · by_cases h2 : k' = x
      · subst h2; simp [mapSet, mapFind, h]
      · simp [mapSet, mapFind, h, h2, ih]

namespace FuncVars

theorem storedType_mapSet_self (fv : FuncVars) (x : StringTableEntry) (v : Var) :
    Option.map Var.currentType (mapFind x (mapSet x v fv.vars)) = some v.currentType := by
  rw [mapFind_mapSet_self]; rfl

theorem assign_storedType (a : Bool) (fv : FuncVars) (var : StringTableEntry) (ty : TypeReq)
    (line : Int) (c : Bool) (id : Int) (fv1 : FuncVars) (ws : List ScriptMessage)
    (h : assign a fv var ty line c = Outcome.returned id fv1 ws) (x : StringTableEntry) :
    storedType fv1 x
      = if var = x then some (degrade (storedType fv x) ty) else storedType fv x := by
  unfold assign at h
  cases hf : mapFind var fv.vars with
  | none =>
    rw [hf] at h
    simp only [Outcome.returned.injEq] at h
    obtain ⟨-, rfl, -⟩ := h
    by_cases hx : var = x
    · subst hx
      simp [storedType, mapFind_mapSet_self, hf, degrade]
    · simp [storedType, mapFind_mapSet_ne _ _ _ _ hx, hx]
  | some found =>
    rw [hf] at h
    simp only at h
    have key : fv1.vars = mapSet var
        (if ty ≠ found.currentType ∧ found.currentType ≠ TypeReq.TypeReqNone then
          { found with currentType := TypeReq.TypeReqNone } else found) fv.vars := by
      split_ifs at h with h1 h2
      all_goals first
        | (cases hs : scriptErrorHandler a (ScriptMessage.reassignConstant var line) with
            | none => rw [hs] at h; cases h
            | some w =>
              rw [hs] at h
              simp only [Outcome.returned.injEq] at h
              obtain ⟨-, rfl, -⟩ := h
              simp [h1])
        | (simp only [Outcome.returned.injEq] at h
           obtain ⟨-, rfl, -⟩ := h
           simp [h1])
    by_cases hx : var = x
    · subst hx
      unfold storedType
      rw [key, mapFind_mapSet_self, hf]
      simp only [Option.map_some', degrade, if_true]
      split_ifs <;> rfl
    · simp [storedType, key, mapFind_mapSet_ne _ _ _ _ hx, hx]

theorem assign_returns (fv : FuncVars) (var : StringTableEntry) (ty : TypeReq)
    (line : Int) (c : Bool) :
    ∃ id fv1 ws, assign false fv var ty line c = Outcome.returned id fv1 ws := by
  unfold assign
  cases mapFind var fv.vars with
  | none => exact ⟨_, _, _, rfl⟩
  | some found =>
    simp only [scriptErrorHandler, Bool.false_eq_true, if_false]
    split_ifs <;> exact ⟨_, _, _, rfl⟩

theorem assignAll_storedType (a : Bool) (calls : List AssignCall) (fv : FuncVars)
    (ids : List Int) (fv1 : FuncVars) (ws : List ScriptMessage)
    (h : assignAll a fv calls = Outcome.returned ids fv1 ws) (x : StringTableEntry) :
    storedType fv1 x = typeAfter (storedType fv x) (requests x calls) := by
  induction calls generalizing fv ids ws with
  | nil =>
    simp only [assignAll, Outcome.returned.injEq] at h
    obtain ⟨-, rfl, -⟩ := h
    rfl
  | cons c cs ih =>
    simp only [assignAll] at h
    cases h1 : assign a fv c.var c.currentType c.lineNumber c.isConstant with
    | aborted m => rw [h1] at h; cases h
    | returned id fv2 w2 =>
      rw [h1] at h
      simp only at h
      cases h2 : assignAll a fv2 cs with
      | aborted m => rw [h2] at h; cases h
      | returned ids2 fv3 w3 =>
        rw [h2] at h
        simp only [Outcome.returned.injEq] at h
        obtain ⟨-, rfl, -⟩ := h
        rw [ih fv2 ids2 w3 h2, assign_storedType a fv c.var c.currentType _ _ _ _ _ h1 x]
        by_cases hx : c.var = x <;> simp [requests, typeAfter, hx]

theorem assignAll_returns (calls : List AssignCall) (fv : FuncVars) :
    ∃ ids fv1 ws, assignAll false fv calls = Outcome.returned ids fv1 ws := by
  induction calls generalizing fv with
  | nil => exact ⟨_, _, _, rfl⟩
  | cons c cs ih =>
    obtain ⟨id, fv2, w2, h1⟩ := assign_returns fv c.var c.currentType c.lineNumber c.isConstant
    obtain ⟨ids, fv3, w3, h2⟩ := ih fv2
    exact ⟨id :: ids, fv3, w2 ++ w3, by simp only [assignAll, h1, h2]⟩

theorem typeAfter_none (tys : List TypeReq) :
    typeAfter (some TypeReq.TypeReqNone) tys = some TypeReq.TypeReqNone := by
  induction tys with
  | nil => rfl
  | cons u rest ih =>
    have : degrade (some TypeReq.TypeReqNone) u = TypeReq.TypeReqNone := by simp [degrade]
    simpa [typeAfter, this] using ih

theorem typeAfter_some (t : TypeReq) (ts : List TypeReq) :
    typeAfter (some t) ts = some (if ∀ u ∈ ts, u = t then t else TypeReq.TypeReqNone) := by
  induction ts with
  | nil => simp [typeAfter]
  | cons u rest ih =>
    by_cases hu : u = t
    · subst hu
      have : degrade (some u) u = u := by simp [degrade]
      have h2 : typeAfter (some u) (u :: rest) = typeAfter (some u) rest := by
        simp [typeAfter, this]
      rw [h2, ih]
      simp
    · by_cases ht : t = TypeReq.TypeReqNone
      · subst ht
        rw [typeAfter_none]
        simp
      · have : degrade (some t) u = TypeReq.TypeReqNone := by simp [degrade, hu, ht]
        have h2 : typeAfter (some t) (u :: rest) = typeAfter (some TypeReq.TypeReqNone) rest := by
          simp [typeAfter, this]
        rw [h2, typeAfter_none]
        simp [hu]

theorem lookupType_of_stored (a : Bool) (fv : FuncVars) (x : StringTableEntry) (line : Int)
    (t : TypeReq) (h : storedType fv x = some t) :
    lookupType a fv x line = Outcome.returned t fv [] := by
  unfold storedType at h
  unfold lookupType
  cases hf : mapFind x fv.vars with
  | none => rw [hf] at h; cases h
  | some found =>
    rw [hf] at h
    simp only [Option.map_some', Option.some.injEq] at h
    simp [h]

end FuncVars

/-- C10. Type degradation: on a scope in which `x` is unseen, `assign(x, t1)`
followed by `assign(x, t2)` with `t1 ≠ t2` makes `lookupType(x)` return
`TypeReqNone`; after any sequence of `assign` calls (to `x` and to other names)
in which `x` is requested at least once, `lookupType(x)` returns `t` when every
request for `x` asked for the same class `t` and `TypeReqNone` otherwise; and a
stored `TypeReqNone` stays `TypeReqNone` under every later `assign`.  With
warnings as warnings every call returns; with warnings as asserts the same
holds of every run that the assert on a constant does not end. -/
theorem FuncVars.type_degradation (x : StringTableEntry) :
    (∀ (fv : FuncVars) (t1 t2 : TypeReq) (l1 l2 l3 : Int) (c1 c2 : Bool),
      mapFind x fv.vars = none → t1 ≠ t2 →
      ∃ r1 fv1 ws1 r2 fv2 ws2,
        FuncVars.assign false fv x t1 l1 c1 = Outcome.returned r1 fv1 ws1 ∧
        FuncVars.assign false fv1 x t2 l2 c2 = Outcome.returned r2 fv2 ws2 ∧
        FuncVars.lookupType false fv2 x l3
          = Outcome.returned TypeReq.TypeReqNone fv2 []) ∧
    (∀ (fv : FuncVars) (calls : List FuncVars.AssignCall) (t : TypeReq) (ts : List TypeReq)
        (l3 : Int),
      mapFind x fv.vars = none → FuncVars.requests x calls = t :: ts →
      (∃ ids fv1 ws, FuncVars.assignAll false fv calls = Outcome.returned ids fv1 ws ∧
        FuncVars.lookupType false fv1 x l3
          = Outcome.returned (if ∀ u ∈ ts, u = t then t else TypeReq.TypeReqNone) fv1 []) ∧
      (∀ ids fv1 ws, FuncVars.assignAll true fv calls = Outcome.returned ids fv1 ws →
        FuncVars.lookupType true fv1 x l3
          = Outcome.returned (if ∀ u ∈ ts, u = t then t else TypeReq.TypeReqNone) fv1 [])) ∧
    (∀ (a : Bool) (fv : FuncVars) (var : StringTableEntry) (t : TypeReq) (l : Int) (c : Bool)
        (id : Int) (fv1 : FuncVars) (ws : List ScriptMessage),
      FuncVars.storedType fv x = some TypeReq.TypeReqNone →
      FuncVars.assign a fv var t l c = Outcome.returned id fv1 ws →
      FuncVars.storedType fv1 x = some TypeReq.TypeReqNone) := by
  refine ⟨?_, ?_, ?_⟩
  · intro fv t1 t2 l1 l2 l3 c1 c2 hx hne
    obtain ⟨r1, fv1, ws1, h1⟩ := FuncVars.assign_returns fv x t1 l1 c1
    obtain ⟨r2, fv2, ws2, h2⟩ := FuncVars.assign_returns fv1 x t2 l2 c2
    refine ⟨r1, fv1, ws1, r2, fv2, ws2, h1, h2, ?_⟩
    apply FuncVars.lookupType_of_stored
    rw [FuncVars.assign_storedType _ _ _ _ _ _ _ _ _ h2 x,
      FuncVars.assign_storedType _ _ _ _ _ _ _ _ _ h1 x]
    have hs : FuncVars.storedType fv x = none := by simp [FuncVars.storedType, hx]
    simp only [if_true, hs, FuncVars.degrade]
    by_cases h0 : t1 = TypeReq.TypeReqNone
    · simp [h0]
    · simp [h0, Ne.symm hne]
  · intro fv calls t ts l3 hx hreq
    have hs : FuncVars.storedType fv x = none := by simp [FuncVars.storedType, hx]
    have hty : FuncVars.typeAfter none (t :: ts)
        = some (if ∀ u ∈ ts, u = t then t else TypeReq.TypeReqNone) := by
      rw [← FuncVars.typeAfter_some]
      simp [FuncVars.typeAfter, FuncVars.degrade]
    constructor
    · obtain ⟨ids, fv1, ws, h⟩ := FuncVars.assignAll_returns calls fv
      refine ⟨ids, fv1, ws, h, ?_⟩
      apply FuncVars.lookupType_of_stored
      rw [FuncVars.assignAll_storedType _ _ _ _ _ _ h x, hs, hreq, hty]
    · intro ids fv1 ws h
      apply FuncVars.lookupType_of_stored
      rw [FuncVars.assignAll_storedType _ _ _ _ _ _ h x, hs, hreq, hty]
  · intro a fv var t l c id fv1 ws hs h
    rw [FuncVars.assign_storedType _ _ _ _ _ _ _ _ _ h x, hs]
    split_ifs
    · simp [FuncVars.degrade]
    · rfl

/-- C10, on the empty scope: `assign(x, UInt)` then `assign(x, String)`. -/
theorem FuncVars.type_degradation_witness :
    ∃ r1 fv1 ws1 r2 fv2 ws2,
      FuncVars.assign false ⟨[], [], 0⟩ "x" TypeReq.TypeReqUInt 1 false
        = Outcome.returned r1 fv1 ws1 ∧
      FuncVars.assign false fv1 "x" TypeReq.TypeReqString 2 false
        = Outcome.returned r2 fv2 ws2 ∧
      FuncVars.lookupType false fv2 "x" 3 = Outcome.returned TypeReq.TypeReqNone fv2 [] :=
  (FuncVars.type_degradation "x").1 ⟨[], [], 0⟩ TypeReq.TypeReqUInt TypeReq.TypeReqString
    1 2 3 false false rfl (by decide)

/-! ## Theorems: CompilerIdentTable -/

namespace CompilerIdentTable

theorem link_of_not_mem (o ip : Nat) (l : List IdentEntry)
    (h : o ∉ l.map IdentEntry.offset) : link o ip l = none := by
  induction l with
  | nil => rfl
  | cons w rest ih =>
    simp only [List.map_cons, List.mem_cons, not_or] at h
    simp [link, Ne.symm h.1, ih h.2]

theorem link_of_mem (o ip : Nat) (l : List IdentEntry)
    (hnd : (l.map IdentEntry.offset).Nodup) (h : o ∈ l.map IdentEntry.offset) :
    link o ip l = some (l.map (fun w =>
      if w.offset = o then { w with nextIdent := ip :: w.nextIdent } else w)) := by
  induction l with
  | nil => simp at h
  | cons w rest ih =>
    simp only [List.map_cons, List.nodup_cons] at hnd
    by_cases hw : w.offset = o
    · have hrest : rest.map (fun w =>
          if w.offset = o then { w with nextIdent := ip :: w.nextIdent } else w) = rest := by
        conv_rhs => rw [← List.map_id rest]
        apply List.map_congr_left
        intro e he
        have : e.offset ≠ o := by
          intro heq
          apply hnd.1
          rw [hw, ← heq]
          exact List.mem_map_of_mem _ he
        simp [this]
      simp [link, hw, hrest]
    · have hmem : o ∈ rest.map IdentEntry.offset := by
        simp only [List.map_cons, List.mem_cons] at h
        rcases h with h | h
        · exact absurd h.symm hw
        · exact h
      simp [link, hw, ih hnd.2 hmem]

theorem recorded_append (o o' ip : Nat) (tr : List (Nat × Nat)) :
    recorded o (tr ++ [(o', ip)])
      = if o' = o then recorded o tr ++ [ip] else recorded o tr := by
  unfold recorded
  by_cases h : o' = o <;> simp [List.filter_append, h]

theorem recorded_eq_nil (o : Nat) (tr : List (Nat × Nat)) (h : o ∉ tr.map Prod.fst) :
    recorded o tr = [] := by
  unfold recorded
  simp only [List.map_eq_nil_iff, List.filter_eq_nil_iff, decide_eq_true_eq]
  intro p hp heq
  exact h (heq ▸ List.mem_map_of_mem _ hp)

theorem chainOrder_append (ips : List Nat) (ip : Nat) (hne : ips ≠ []) :
    chainOrder (ips ++ [ip]) = (chainOrder ips).head! :: ip :: (chainOrder ips).tail := by
  cases ips with
  | nil => exact absurd rfl hne
  | cons a rest => simp [chainOrder, List.reverse_append]

/-- What a trace of recorded `(offset, ip)` pairs leaves in a reset table. -/
theorem record_trace (tr : List (Nat × Nat)) :
    ((tr.foldl (fun acc p => record p.1 p.2 acc) ⟨[]⟩).list.map IdentEntry.offset).Nodup ∧
    (∀ o, o ∈ (tr.foldl (fun acc p => record p.1 p.2 acc) ⟨[]⟩).list.map IdentEntry.offset
        ↔ o ∈ tr.map Prod.fst) ∧
    (∀ e ∈ (tr.foldl (fun acc p => record p.1 p.2 acc) ⟨[]⟩).list,
        e.addresses = chainOrder (recorded e.offset tr)) := by
  induction tr using List.reverseRecOn with
  | nil => simp
  | append_singleton tr p ih =>
    obtain ⟨o, ip⟩ := p
    rw [List.foldl_append]
    simp only [List.foldl_cons, List.foldl_nil]
    generalize tr.foldl (fun acc p => record p.1 p.2 acc) ⟨[]⟩ = t at ih ⊢
    obtain ⟨hnd, hmem, haddr⟩ := ih
    by_cases ho : o ∈ t.list.map IdentEntry.offset
    · have hl := link_of_mem o ip t.list hnd ho
      have hoffs : (t.list.map (fun w =>
          if w.offset = o then { w with nextIdent := ip :: w.nextIdent } else w)).map
            IdentEntry.offset = t.list.map IdentEntry.offset := by
        rw [List.map_map]
        apply List.map_congr_left
        intro e _
        simp only [Function.comp]
        split_ifs <;> rfl
      simp only [record, hl, hoffs]
      refine ⟨hnd, ?_, ?_⟩
      · intro o'
        rw [hmem o']
        simp only [List.map_append, List.map_cons, List.map_nil, List.mem_append,
          List.mem_singleton]
        constructor
        · exact Or.inl
        · rintro (h | h)
          · exact h
          · rw [h]; exact (hmem o).1 ho
      · intro e' he'
        rw [List.mem_map] at he'
        obtain ⟨e, he, rfl⟩ := he'
        have hae := haddr e he
        by_cases heo : e.offset = o
        · have hne : recorded o tr ≠ [] := by
            intro hnil
            rw [heo, hnil] at hae
            simp [IdentEntry.addresses, chainOrder] at hae
          simp only [heo, if_true, recorded_append, chainOrder_append _ _ hne]
          rw [heo] at hae
          rw [← hae]
          simp [IdentEntry.addresses]
        · simp only [heo, if_false, recorded_append, Ne.symm heo]
          exact hae
    · have hl := link_of_not_mem o ip t.list ho
      simp only [record, hl]
      refine ⟨?_, ?_, ?_⟩
      · simp only [List.map_cons, List.nodup_cons]
        exact ⟨ho, hnd⟩
      · intro o'
        simp only [List.map_cons, List.mem_cons, List.map_append, List.map_nil,
          List.mem_append, List.mem_singleton, hmem o']
        tauto
      · intro e he
        simp only [List.mem_cons] at he
        rcases he with rfl | he
        · have hnil := recorded_eq_nil o tr (fun h => ho ((hmem o).2 h))
          simp [recorded_append, hnil, chainOrder, IdentEntry.addresses]
        · have hne : o ≠ e.offset := by
            intro heq
            exact ho (heq ▸ List.mem_map_of_mem _ he)
          simp only [recorded_append, hne, if_false]
          exact haddr e he

theorem addAll_list (td : Bool) (calls : List (CStr × Nat)) (gst : CompilerStringTable)
    (t : CompilerIdentTable) :
    (addAll td gst t calls).2.1
      = (addAll td gst t calls).2.2.foldl (fun acc p => record p.1 p.2 acc) t := by
  induction calls generalizing gst t with
  | nil => rfl
  | cons c calls ih =>
    obtain ⟨ste, ip⟩ := c
    simp only [addAll, List.foldl_cons]
    rw [ih]
    rfl

end CompilerIdentTable

/-- C6, as stated, fails on three references to one string: recorded in the
order 1, 2, 3, the addresses of the entry are chained in the order 1, 3, 2. -/
theorem CompilerIdentTable.add_order_counterexample :
    ¬ (∀ e ∈ (CompilerIdentTable.addAll false ⟨[], 0⟩ (CompilerIdentTable.reset ⟨[]⟩)
                [(['a'], 1), (['a'], 2), (['a'], 3)]).2.1.list,
        e.addresses = CompilerIdentTable.recorded e.offset
          (CompilerIdentTable.addAll false ⟨[], 0⟩ (CompilerIdentTable.reset ⟨[]⟩)
                [(['a'], 1), (['a'], 2), (['a'], 3)]).2.2) := by
  decide

/-- C6, amended. After any sequence of `CompilerIdentTable::add(ste, ip)` calls
made after `reset()`, on any global string table, the table has exactly one
entry per distinct string offset computed by the calls, and the address list
`write()` traverses for an entry holds exactly the `ip`s recorded for its
offset: the first one recorded, followed by the later ones from the last
recorded to the second recorded. -/
theorem CompilerIdentTable.add_entries (tagDefault : Bool) (gst : CompilerStringTable)
    (t0 : CompilerIdentTable) (calls : List (CStr × Nat)) :
    ((CompilerIdentTable.addAll tagDefault gst (CompilerIdentTable.reset t0) calls).2.1.list.map
        IdentEntry.offset).Nodup ∧
    (∀ o, o ∈ (CompilerIdentTable.addAll tagDefault gst (CompilerIdentTable.reset t0)
                calls).2.1.list.map IdentEntry.offset
        ↔ o ∈ (CompilerIdentTable.addAll tagDefault gst (CompilerIdentTable.reset t0)
                calls).2.2.map Prod.fst) ∧
    (∀ e ∈ (CompilerIdentTable.addAll tagDefault gst (CompilerIdentTable.reset t0)
              calls).2.1.list,
        e.addresses = CompilerIdentTable.chainOrder (CompilerIdentTable.recorded e.offset
          (CompilerIdentTable.addAll tagDefault gst (CompilerIdentTable.reset t0)
            calls).2.2) ∧
        e.addresses.Perm (CompilerIdentTable.recorded e.offset
          (CompilerIdentTable.addAll tagDefault gst (CompilerIdentTable.reset t0)
            calls).2.2)) := by
  rw [CompilerIdentTable.addAll_list]
  generalize (CompilerIdentTable.addAll tagDefault gst (CompilerIdentTable.reset t0)
    calls).2.2 = tr
  obtain ⟨h1, h2, h3⟩ := CompilerIdentTable.record_trace tr
  refine ⟨h1, h2, fun e he => ⟨h3 e he, ?_⟩⟩
  rw [h3 e he]
  cases CompilerIdentTable.recorded e.offset tr with
  | nil => exact List.Perm.refl _
  | cons a rest =>
    simp only [CompilerIdentTable.chainOrder, List.perm_cons]
    exact List.reverse_perm rest

/-! ## Theorems: byte buffers -/

theorem writeBytes_eq (buf : List Nat) (off : Nat) (bs : List Nat)
    (h : off + bs.length ≤ buf.length) :
    writeBytes buf off bs = buf.take off ++ bs ++ buf.drop (off + bs.length) := by
  unfold writeBytes
  have e : List.take (buf.length - off) bs = bs := List.take_of_length_le (by omega)
  rw [e]

theorem length_writeBytes (buf : List Nat) (off : Nat) (bs : List Nat) :
    (writeBytes buf off bs).length = buf.length := by
  unfold writeBytes
  simp only [List.length_append, List.length_take, List.length_drop]
  omega

theorem take_writeBytes_of_le (buf : List Nat) (off n : Nat) (bs : List Nat)
    (hn : n ≤ off) (h : off ≤ buf.length) :
    (writeBytes buf off bs).take n = buf.take n := by
  unfold writeBytes
  rw [List.append_assoc, List.take_append_eq_append_take, List.take_take]
  have h1 : (List.take off buf).length = off := by simp; omega
  rw [h1, Nat.min_eq_left hn, Nat.sub_eq_zero_of_le hn]
  simp

theorem take_writeBytes_zero (buf bs : List Nat) (h : bs.length ≤ buf.length) :
    (writeBytes buf 0 bs).take bs.length = bs := by
  rw [writeBytes_eq buf 0 bs (by omega)]
  simp

theorem writeBytes_append (buf : List Nat) (p : Nat) (a b : List Nat)
    (h : p + a.length + b.length ≤ buf.length) :
    writeBytes (writeBytes buf p a) (p + a.length) b = writeBytes buf p (a ++ b) := by
  rw [writeBytes_eq (writeBytes buf p a) _ b (by rw [length_writeBytes]; omega),
    writeBytes_eq buf p a (by omega),
    writeBytes_eq buf p (a ++ b) (by simp only [List.length_append]; omega)]
  have hT : (List.take p buf).length = p := by simp; omega
  have h1 : List.take (p + a.length) (List.take p buf ++ a ++ List.drop (p + a.length) buf)
      = List.take p buf ++ a :=
    List.take_left' (by simp only [List.length_append, hT])
  have h2 : List.drop (p + a.length + b.length)
      (List.take p buf ++ a ++ List.drop (p + a.length) buf)
      = List.drop (p + (a ++ b).length) buf := by
    have hl : (List.take p buf ++ a).length = p + a.length := by
      simp only [List.length_append, hT]
    rw [← hl, List.drop_append, List.drop_drop, hl, List.length_append, Nat.add_assoc]
  rw [h1, h2]
  simp only [List.append_assoc]

theorem getD_writeBytes (buf : List Nat) (off : Nat) (bs : List Nat) (i : Nat)
    (h : off + bs.length ≤ buf.length) :
    (writeBytes buf off bs).getD i 0
      = if off ≤ i ∧ i < off + bs.length then bs.getD (i - off) 0 else buf.getD i 0 := by
  rw [writeBytes_eq buf off bs h]
  have hT : (List.take off buf).length = off := by simp; omega
  simp only [List.getD_eq_getElem?_getD, List.getElem?_append, List.length_append, hT,
    List.getElem?_take, List.getElem?_drop]
  by_cases h1 : i < off
  · have h0 : ¬ off ≤ i := by omega
    have h2 : i < off + bs.length := by omega
    simp [h1, h0, h2]
  · by_cases h2 : i < off + bs.length
    · have : off ≤ i ∧ i < off + bs.length := by omega
      simp [h1, h2, this]
    · have : ¬ (off ≤ i ∧ i < off + bs.length) := by omega
      have h3 : off + bs.length + (i - (off + bs.length)) = i := by omega
      simp [h1, h2, this, h3]

theorem readU32_writeBytes_same (buf : List Nat) (a v : Nat) (h : 4 * a + 4 ≤ buf.length) :
    readU32 (writeBytes buf (4 * a) (u32Bytes v)) a = v % U32_MOD := by
  have hl : (u32Bytes v).length = 4 := rfl
  unfold readU32
  rw [getD_writeBytes _ _ _ _ (by rw [hl]; omega), getD_writeBytes _ _ _ _ (by rw [hl]; omega),
    getD_writeBytes _ _ _ _ (by rw [hl]; omega), getD_writeBytes _ _ _ _ (by rw [hl]; omega)]
  rw [if_pos (by rw [hl]; omega), if_pos (by rw [hl]; omega), if_pos (by rw [hl]; omega),
    if_pos (by rw [hl]; omega)]
  have e0 : 4 * a - 4 * a = 0 := by omega
  have e1 : 4 * a + 1 - 4 * a = 1 := by omega
  have e2 : 4 * a + 2 - 4 * a = 2 := by omega
  have e3 : 4 * a + 3 - 4 * a = 3 := by omega
  rw [e0, e1, e2, e3]
  simp only [u32Bytes, List.getD_cons_zero, List.getD_cons_succ, U32_MOD]
  omega

theorem readU32_writeBytes_other (buf : List Nat) (a b : Nat) (bs : List Nat)
    (hb : bs.length = 4) (hne : a ≠ b) (h : 4 * b + 4 ≤ buf.length) :
    readU32 (writeBytes buf (4 * b) bs) a = readU32 buf a := by
  unfold readU32
  rw [getD_writeBytes _ _ _ _ (by omega), getD_writeBytes _ _ _ _ (by omega),
    getD_writeBytes _ _ _ _ (by omega), getD_writeBytes _ _ _ _ (by omega)]
  rw [if_neg (by omega), if_neg (by omega), if_neg (by omega), if_neg (by omega)]

theorem readU32_writeBytes_above (buf : List Nat) (a off : Nat) (bs : List Nat)
    (ha : 4 * a + 4 ≤ off) (h : off + bs.length ≤ buf.length) :
    readU32 (writeBytes buf off bs) a = readU32 buf a := by
  unfold readU32
  rw [getD_writeBytes _ _ _ _ h, getD_writeBytes _ _ _ _ h,
    getD_writeBytes _ _ _ _ h, getD_writeBytes _ _ _ _ h]
  rw [if_neg (by omega), if_neg (by omega), if_neg (by omega), if_neg (by omega)]

/-! ## Theorems: CodeStream, allocation and loop fixups -/

namespace CodeStream

theorem allocCode_concat (BlockSize : Nat) (s : CodeStream) (init : List CodeData)
    (head : CodeData) (sz : Nat) (hchain : s.mCode = init ++ [head]) :
    allocCode BlockSize s sz
      = if (BlockSize + (U32_MOD - head.size % U32_MOD)) % U32_MOD > sz then
          ({ s with mCode := init ++ [{ head with size := (head.size + sz) % U32_MOD }] },
           { block := init.length, offset := head.size })
        else
          ({ s with mCode := init ++ [head, newBlock BlockSize sz] },
           { block := init.length + 1, offset := 0 }) := by
  unfold allocCode
  rw [hchain, List.getLast?_concat, List.dropLast_concat]
  simp

theorem allocCode_nil (BlockSize : Nat) (s : CodeStream) (sz : Nat) (hchain : s.mCode = []) :
    allocCode BlockSize s sz
      = ({ s with mCode := [newBlock BlockSize sz] }, { block := 0, offset := 0 }) := by
  unfold allocCode
  rw [hchain]
  rfl

theorem bytesLeft_eq (BlockSize size : Nat) (hsize : size ≤ BlockSize)
    (hB : BlockSize < U32_MOD) :
    (BlockSize + (U32_MOD - size % U32_MOD)) % U32_MOD = BlockSize - size := by
  unfold U32_MOD at *
  omega

theorem fixFrom_pairs (l b c : Nat) (pairs : List (Nat × Nat)) (acc : List PatchEntry) :
    fixFrom l b c (flatPairs pairs) acc = some (acc ++ pairs.filterMap (resolve l b c)) := by
  induction pairs generalizing acc with
  | nil => simp [flatPairs, fixFrom]
  | cons p rest ih =>
    obtain ⟨a, k⟩ := p
    have hfl : flatPairs ((a, k) :: rest) = a :: k :: flatPairs rest := by
      simp [flatPairs]
    rw [hfl, fixFrom, ih]
    simp only [fixOne, resolve, List.filterMap_cons]
    split_ifs <;> simp

theorem fixLoop_eq (s : CodeStream) (l b c mark : Nat) (below : List Nat)
    (pairs : List (Nat × Nat)) (hstack : s.mFixStack.getLast? = some mark)
    (hlist : s.mFixList = below ++ flatPairs pairs) (hmark : below.length = mark) :
    fixLoop s l b c
      = some { s with mPatchList := s.mPatchList ++ pairs.filterMap (resolve l b c) } := by
  subst hmark
  have hd : s.mFixList.drop below.length = flatPairs pairs := by
    rw [hlist, List.drop_left]
  unfold fixLoop
  simp only [hstack, hd, fixFrom_pairs]

end CodeStream

/-- C7, as stated, fails on an exact fit: with `BlockSize = 16384` and a tail
block filled to 16380, `allocCode(4)` does not return the region at the fill
position of the tail; it allocates a second block. -/
theorem CodeStream.allocCode_exact_fit :
    ¬ ((CodeStream.allocCode 16384
          { CodeStream.fresh with mCode := [{ data := List.replicate 16384 0, size := 16380 }] }
          4).2 = { block := 0, offset := 16380 } ∧
       (CodeStream.allocCode 16384
          { CodeStream.fresh with mCode := [{ data := List.replicate 16384 0, size := 16380 }] }
          4).1.mCode.length = 1) := by
  rw [CodeStream.allocCode_concat 16384 _ [] { data := List.replicate 16384 0, size := 16380 } 4
    rfl]
  decide

/-- C7, amended. On a stream whose tail block has strictly more room than the
request (`BlockSize - size > sz`), `allocCode(sz)` returns the region at the
fill position of the tail block, advances its `size` by `sz` and allocates no
block; when the room is `sz` or less (an exact fit included) a new block with
`size = sz` is linked behind the tail and its start is returned; and on a
stream that has no block yet a new block with `size = sz` becomes the whole
chain and its start is returned. -/
theorem CodeStream.allocCode_tail (BlockSize : Nat) (s : CodeStream) (sz : Nat)
    (hB : BlockSize < U32_MOD) :
    (∀ (init : List CodeData) (head : CodeData),
      s.mCode = init ++ [head] → head.size ≤ BlockSize →
      (sz < BlockSize - head.size →
        CodeStream.allocCode BlockSize s sz
          = ({ s with mCode := init ++ [{ head with size := head.size + sz }] },
             { block := init.length, offset := head.size })) ∧
      (BlockSize - head.size ≤ sz →
        CodeStream.allocCode BlockSize s sz
          = ({ s with mCode := init ++ [head, CodeStream.newBlock BlockSize sz] },
             { block := init.length + 1, offset := 0 }))) ∧
    (s.mCode = [] →
      CodeStream.allocCode BlockSize s sz
        = ({ s with mCode := [CodeStream.newBlock BlockSize sz] },
           { block := 0, offset := 0 })) := by
  constructor
  · intro init head hchain hsize
    rw [CodeStream.allocCode_concat BlockSize s init head sz hchain,
      CodeStream.bytesLeft_eq BlockSize head.size hsize hB]
    constructor
    · intro h
      have hmod : (head.size + sz) % U32_MOD = head.size + sz :=
        Nat.mod_eq_of_lt (by omega)
      rw [if_pos h, hmod]
    · intro h
      rw [if_neg (by omega)]
  · intro hnil
    exact CodeStream.allocCode_nil BlockSize s sz hnil

/-- C7 amended, with `BlockSize = 16`: on a tail block filled to 4 a request
of 8 bytes is served from the tail and a request of 12 bytes from a new block,
and on a stream without a block a request of 8 bytes is served from a new
block that is the whole chain. -/
theorem CodeStream.allocCode_tail_witness :
    (CodeStream.allocCode 16
        { CodeStream.fresh with mCode := [{ data := List.replicate 16 0, size := 4 }] } 8).2
      = { block := 0, offset := 4 } ∧
    (CodeStream.allocCode 16
        { CodeStream.fresh with mCode := [{ data := List.replicate 16 0, size := 4 }] } 12).2
      = { block := 1, offset := 0 } ∧
    CodeStream.allocCode 16 CodeStream.fresh 8
      = ({ CodeStream.fresh with mCode := [CodeStream.newBlock 16 8] },
         { block := 0, offset := 0 }) :=
  ⟨congrArg Prod.snd (((CodeStream.allocCode_tail 16
      { CodeStream.fresh with mCode := [{ data := List.replicate 16 0, size := 4 }] } 8
      (by decide)).1 [] { data := List.replicate 16 0, size := 4 } rfl (by decide)).1
      (by decide)),
   congrArg Prod.snd (((CodeStream.allocCode_tail 16
      { CodeStream.fresh with mCode := [{ data := List.replicate 16 0, size := 4 }] } 12
      (by decide)).1 [] { data := List.replicate 16 0, size := 4 } rfl (by decide)).2
      (by decide)),
   (CodeStream.allocCode_tail 16 CodeStream.fresh 8 (by decide)).2 rfl⟩

/-- C8, as stated, fails: `fixLoop` does not pop the scope stack.  On a stream
with two nested scopes open, resolving what should be the inner loop and then
the outer loop leaves `mFixStack` at two marks, patches the inner placeholder
(address 1) twice, the second time with the outer break target, and never
patches the outer placeholder (address 0). -/
theorem CodeStream.fixLoop_no_pop :
    (¬ ∃ s1, CodeStream.fixLoop CodeStream.twoScopes 10 20 30 = some s1 ∧
        s1.mFixStack.length + 1 = CodeStream.twoScopes.mFixStack.length) ∧
    ((CodeStream.fixLoop CodeStream.twoScopes 10 20 30).bind
        (fun s1 => CodeStream.fixLoop s1 40 50 60)).map
        (fun s2 => (s2.mFixStack, s2.mPatchList))
      = some ([0, 2], [{ addr := 1, value := 20 }, { addr := 1, value := 50 }]) := by
  constructor
  · rintro ⟨s1, h1, h2⟩
    have h : CodeStream.fixLoop CodeStream.twoScopes 10 20 30
        = some { CodeStream.twoScopes with mPatchList := [{ addr := 1, value := 20 }] } := by
      decide
    rw [h] at h1
    cases h1
    revert h2
    decide
  · decide

/-- C8, amended. `fixLoop` leaves `mFixStack` and `mFixList` as they are and
only appends patches; a second `fixLoop` therefore resolves the same innermost
scope again, with its own targets, and no call patches a placeholder that lies
below the top-of-stack mark.  Closing a scope is not done by `fixLoop`. -/
theorem CodeStream.fixLoop_keeps_scope (s : CodeStream) (mark : Nat) (below : List Nat)
    (pairs : List (Nat × Nat)) (hstack : s.mFixStack.getLast? = some mark)
    (hlist : s.mFixList = below ++ CodeStream.flatPairs pairs) (hmark : below.length = mark)
    (l b c l' b' c' : Nat) :
    ∃ s1 s2, CodeStream.fixLoop s l b c = some s1 ∧
      s1.mFixStack = s.mFixStack ∧ s1.mFixList = s.mFixList ∧
      s1.mPatchList = s.mPatchList ++ pairs.filterMap (CodeStream.resolve l b c) ∧
      CodeStream.fixLoop s1 l' b' c' = some s2 ∧
      s2.mFixStack = s.mFixStack ∧ s2.mFixList = s.mFixList ∧
      s2.mPatchList = s.mPatchList ++ pairs.filterMap (CodeStream.resolve l b c)
        ++ pairs.filterMap (CodeStream.resolve l' b' c') := by
  refine ⟨_, _, CodeStream.fixLoop_eq s l b c mark below pairs hstack hlist hmark, rfl, rfl,
    rfl, CodeStream.fixLoop_eq _ l' b' c' mark below pairs hstack hlist hmark, rfl, rfl, rfl⟩

/-- C8 amended, on the stream with two nested scopes. -/
theorem CodeStream.fixLoop_keeps_scope_witness :
    ∃ s1 s2, CodeStream.fixLoop CodeStream.twoScopes 10 20 30 = some s1 ∧
      s1.mFixStack = [0, 2] ∧ s1.mFixList = CodeStream.twoScopes.mFixList ∧
      s1.mPatchList = [] ++ [(1, FIXTYPE_BREAK)].filterMap (CodeStream.resolve 10 20 30) ∧
      CodeStream.fixLoop s1 40 50 60 = some s2 ∧
      s2.mFixStack = [0, 2] ∧ s2.mFixList = CodeStream.twoScopes.mFixList ∧
      s2.mPatchList = [] ++ [(1, FIXTYPE_BREAK)].filterMap (CodeStream.resolve 10 20 30)
        ++ [(1, FIXTYPE_BREAK)].filterMap (CodeStream.resolve 40 50 60) :=
  CodeStream.fixLoop_keeps_scope CodeStream.twoScopes 2 [0, FIXTYPE_BREAK]
    [(1, FIXTYPE_BREAK)] rfl rfl rfl 10 20 30 40 50 60

/-- C9 fails on the code: `reset()` clears the position, the fixup list, the
scope stacks and the line breaks and keeps only the first block, emptied, but
it leaves `mPatchList` as it is.  On a stream that recorded the patch (0, 7),
a reset followed by the write of the word 5 and `emitCodeStream` yields the
word 7: the patch recorded before the reset is applied. -/
theorem CodeStream.reset_keeps_patches :
    (∀ s : CodeStream, (CodeStream.reset s).mPatchList = s.mPatchList ∧
      (CodeStream.reset s).mCodePos = 0 ∧ (CodeStream.reset s).mFixList = [] ∧
      (CodeStream.reset s).mFixStack = [] ∧ (CodeStream.reset s).mFixLoopStack = [] ∧
      (CodeStream.reset s).mBreakLines = [] ∧
      (CodeStream.reset s).mCode = (s.mCode.take 1).map (fun c => { c with size := 0 })) ∧
    (CodeStream.reset CodeStream.patchedOnce).mPatchList = [{ addr := 0, value := 7 }] ∧
    CodeStream.emitCodeStream
        { CodeStream.writeCode 16 (CodeStream.reset CodeStream.patchedOnce) (u32Bytes 5) with
          mCodePos := 1 }
      = some { size := 1, stream := u32Bytes 7, lineBreaks := 1 } := by
  refine ⟨fun s => ⟨rfl, rfl, rfl, rfl, rfl, rfl, ?_⟩, by decide, by decide⟩
  cases h : s.mCode <;> simp [CodeStream.reset, h]

/-! ## Theorems: CodeStream, flattening -/

namespace CodeStream

theorem writeBytes_nil (buf : List Nat) (p : Nat) : writeBytes buf p [] = buf := by
  simp [writeBytes]

theorem content_cons (c : CodeData) (l : List CodeData) :
    content (c :: l) = c.data.take c.size ++ content l := by
  simp [content]

theorem content_append (l1 l2 : List CodeData) :
    content (l1 ++ l2) = content l1 ++ content l2 := by
  simp [content]

theorem copyChunks_eq (l : List CodeData) (buf : List Nat) (p ob : Nat)
    (hsz : ∀ c ∈ l, c.size ≤ c.data.length)
    (hfit : p + min ob (content l).length ≤ buf.length) :
    copyChunks l buf p ob = some (writeBytes buf p ((content l).take ob)) := by
  induction l generalizing buf p ob with
  | nil => simp [copyChunks, content, writeBytes_nil]
  | cons c rest ih =>
    have hc : c.size ≤ c.data.length := hsz c (List.mem_cons_self _ _)
    have hrest : ∀ d ∈ rest, d.size ≤ d.data.length :=
      fun d hd => hsz d (List.mem_cons_of_mem _ hd)
    have hlen : (content (c :: rest)).length = c.size + (content rest).length := by
      rw [content_cons, List.length_append, List.length_take, Nat.min_eq_left hc]
    rw [hlen] at hfit
    by_cases h : c.size > ob
    · have hA : (List.take ob c.data).length = ob := by
        rw [List.length_take]; omega
      have hguard : ob ≤ c.data.length ∧ p + ob ≤ buf.length := by
        constructor <;> omega
      have htake : List.take ob (content (c :: rest)) = List.take ob c.data := by
        rw [content_cons, List.take_append_eq_append_take, List.take_take, List.length_take,
          Nat.min_eq_left hc, Nat.min_eq_left (by omega), Nat.sub_eq_zero_of_le (by omega)]
        simp
      simp only [copyChunks, h, if_true, hguard, and_self, Nat.sub_self]
      rw [ih _ _ _ hrest (by rw [length_writeBytes]; omega), List.take_zero, writeBytes_nil,
        htake]
    · have hA : (List.take c.size c.data).length = c.size := by
        rw [List.length_take]; omega
      have hguard : c.size ≤ c.data.length ∧ p + c.size ≤ buf.length := by
        constructor <;> omega
      have htake : List.take ob (content (c :: rest))
          = List.take c.size c.data ++ List.take (ob - c.size) (content rest) := by
        rw [content_cons, List.take_append_eq_append_take, hA,
          List.take_of_length_le (by omega)]
      simp only [copyChunks, h, if_false, hguard, and_self, if_true]
      rw [ih _ _ _ hrest (by rw [length_writeBytes]; omega), htake]
      congr 1
      have := writeBytes_append buf p (List.take c.size c.data)
        (List.take (ob - c.size) (content rest))
        (by rw [hA, List.length_take]; omega)
      rw [hA] at this
      exact this

theorem applyPatches_eq (ps : List PatchEntry) (buf : List Nat)
    (h : ∀ q ∈ ps, 4 * q.addr + 4 ≤ buf.length) :
    applyPatches ps buf = some (patched ps buf) := by
  induction ps generalizing buf with
  | nil => rfl
  | cons e rest ih =>
    have he := h e (List.mem_cons_self _ _)
    simp only [applyPatches, he, if_true, patched, List.foldl_cons]
    exact ih _ (fun q hq => by
      rw [length_writeBytes]; exact h q (List.mem_cons_of_mem _ hq))

theorem length_patched (ps : List PatchEntry) (buf : List Nat) :
    (patched ps buf).length = buf.length := by
  induction ps generalizing buf with
  | nil => rfl
  | cons e rest ih =>
    simp only [patched, List.foldl_cons]
    exact (ih _).trans (length_writeBytes _ _ _)

theorem patched_concat (ps : List PatchEntry) (e : PatchEntry) (buf : List Nat) :
    patched (ps ++ [e]) buf = writeBytes (patched ps buf) (4 * e.addr) (u32Bytes e.value) := by
  simp [patched, List.foldl_append]

theorem readU32_patched_other (ps : List PatchEntry) (buf : List Nat) (a : Nat)
    (hb : ∀ q ∈ ps, 4 * q.addr + 4 ≤ buf.length) (hne : ∀ q ∈ ps, q.addr ≠ a) :
    readU32 (patched ps buf) a = readU32 buf a := by
  induction ps generalizing buf with
  | nil => rfl
  | cons e rest ih =>
    simp only [patched, List.foldl_cons]
    have he := hb e (List.mem_cons_self _ _)
    have := ih (writeBytes buf (4 * e.addr) (u32Bytes e.value))
      (fun q hq => by rw [length_writeBytes]; exact hb q (List.mem_cons_of_mem _ hq))
      (fun q hq => hne q (List.mem_cons_of_mem _ hq))
    simp only [patched] at this
    rw [this]
    exact readU32_writeBytes_other buf a e.addr _ rfl
      (Ne.symm (hne e (List.mem_cons_self _ _))) he

theorem readU32_patched_last (before after : List PatchEntry) (p : PatchEntry)
    (buf : List Nat)
    (hb : ∀ q ∈ before ++ p :: after, 4 * q.addr + 4 ≤ buf.length)
    (hlast : ∀ q ∈ after, q.addr ≠ p.addr) :
    readU32 (patched (before ++ p :: after) buf) p.addr = p.value % U32_MOD := by
  have hsplit : patched (before ++ p :: after) buf
      = patched after (patched (before ++ [p]) buf) := by
    simp [patched, List.foldl_append]
  rw [hsplit, readU32_patched_other after _ p.addr
    (fun q hq => by
      rw [length_patched]
      exact hb q (List.mem_append_right _ (List.mem_cons_of_mem _ hq))) hlast,
    patched_concat]
  exact readU32_writeBytes_same _ _ _ (by
    rw [length_patched]
    exact hb p (List.mem_append_right _ (List.mem_cons_self _ _)))

theorem length_unpatched (s : CodeStream) :
    (unpatched s).length = 4 * (s.mCodePos + s.mBreakLines.length) := by
  simp [unpatched, length_writeBytes]

theorem length_flatMap_u32Bytes (l : List Nat) : (l.flatMap u32Bytes).length = 4 * l.length := by
  induction l with
  | nil => rfl
  | cons a rest ih => simp [List.flatMap_cons, u32Bytes, ih]; omega

/-- On a safe stream `emitCodeStream` returns, `*size` is `mCodePos`, and the
array is the unpatched array with the patches applied in list order. -/
theorem emitCodeStream_eq (s : CodeStream) (h : EmitSafe s) :
    emitCodeStream s
      = some { size := s.mCodePos, stream := patched s.mPatchList (unpatched s),
               lineBreaks := s.mCodePos } := by
  obtain ⟨hsz, heven, hwrap, hpatch⟩ := h
  have hel : (s.mCodePos + getNumLineBreaks s * 2) % U32_MOD
      = s.mCodePos + s.mBreakLines.length := by
    unfold getNumLineBreaks
    have : s.mBreakLines.length / 2 * 2 = s.mBreakLines.length := by omega
    rw [this]
    exact Nat.mod_eq_of_lt hwrap
  have hob : (s.mCodePos * 4) % U32_MOD ≤ s.mCodePos * 4 := Nat.mod_le _ _
  unfold emitCodeStream
  simp only [hel]
  rw [copyChunks_eq s.mCode _ 0 _ hsz (by
    rw [List.length_replicate]
    have := Nat.min_le_left ((s.mCodePos * 4) % U32_MOD) (content s.mCode).length
    omega)]
  simp only [length_writeBytes, List.length_replicate]
  rw [if_pos (by omega)]
  have hp : ∀ q ∈ s.mPatchList, 4 * q.addr + 4 ≤ (unpatched s).length := by
    intro q hq
    rw [length_unpatched]
    have := hpatch q hq
    omega
  have := applyPatches_eq s.mPatchList (unpatched s) hp
  unfold unpatched at this ⊢
  rw [this]

end CodeStream

/-- C5. Generic patch ordering: on every stream on which `emitCodeStream` stays
inside its buffers, the flattened array holds, at the address of a recorded
patch, the value of the last patch recorded for that address, whatever block
the word was written in; this holds of every patch, those with
`addr < mCodePos` in particular. -/
theorem CodeStream.emit_patch_value (s : CodeStream) (before after : List PatchEntry)
    (p : PatchEntry) (hsafe : CodeStream.EmitSafe s)
    (hlist : s.mPatchList = before ++ p :: after)
    (hlast : ∀ q ∈ after, q.addr ≠ p.addr) (hval : p.value < U32_MOD) :
    ∃ out, CodeStream.emitCodeStream s = some out ∧ out.size = s.mCodePos ∧
      readU32 out.stream p.addr = p.value := by
  refine ⟨_, CodeStream.emitCodeStream_eq s hsafe, rfl, ?_⟩
  have hb : ∀ q ∈ before ++ p :: after, 4 * q.addr + 4 ≤ (CodeStream.unpatched s).length := by
    intro q hq
    rw [CodeStream.length_unpatched]
    have := hsafe.2.2.2 q (hlist ▸ hq)
    omega
  show readU32 (CodeStream.patched s.mPatchList (CodeStream.unpatched s)) p.addr = p.value
  rw [hlist, CodeStream.readU32_patched_last before after p _ hb hlast]
  exact Nat.mod_eq_of_lt hval

/-- C5, on a stream of two blocks of 8 bytes whose word 2, in the second
block, is patched twice: the array holds the value of the second patch. -/
theorem CodeStream.emit_patch_value_witness :
    ∃ out, CodeStream.emitCodeStream
        { CodeStream.fresh with
          mCode := [{ data := List.replicate 8 1, size := 8 },
                    { data := List.replicate 8 2, size := 4 }]
          mCodePos := 3
          mPatchList := [{ addr := 2, value := 9 }, { addr := 0, value := 5 },
                         { addr := 2, value := 300 }] } = some out ∧
      out.size = 3 ∧ readU32 out.stream 2 = 300 :=
  CodeStream.emit_patch_value
    { CodeStream.fresh with
      mCode := [{ data := List.replicate 8 1, size := 8 },
                { data := List.replicate 8 2, size := 4 }]
      mCodePos := 3
      mPatchList := [{ addr := 2, value := 9 }, { addr := 0, value := 5 },
                     { addr := 2, value := 300 }] }
    [{ addr := 2, value := 9 }, { addr := 0, value := 5 }] [] { addr := 2, value := 300 }
    (by decide) rfl (by decide) (by decide)

/-! ## Theorems: CodeStream, written bytes -/

theorem modifyAt_append {α : Type} (f : α → α) (init rest : List α) (n : Nat) :
    modifyAt f (init.length + n) (init ++ rest) = init ++ modifyAt f n rest := by
  induction init with
  | nil => simp
  | cons x xs ih =>
    have : (x :: xs).length + n = (xs.length + n) + 1 := by simp; omega
    rw [this, List.cons_append, modifyAt, ih]
    rfl

theorem take_writeBytes_end (buf : List Nat) (off : Nat) (bs : List Nat)
    (h : off + bs.length ≤ buf.length) :
    (writeBytes buf off bs).take (off + bs.length) = buf.take off ++ bs := by
  rw [writeBytes_eq buf off bs h]
  exact List.take_left' (by simp; omega)

namespace CodeStream

/-- One write on a chain of well-formed blocks: the chain stays well formed and
its bytes in use grow by exactly the bytes written. -/
theorem writeCode_content (BlockSize : Nat) (s : CodeStream) (bytes : List Nat)
    (hB : BlockSize < U32_MOD)
    (hblk : ∀ c ∈ s.mCode, c.data.length = BlockSize ∧ c.size ≤ BlockSize)
    (hlen : bytes.length ≤ BlockSize) :
    (∀ c ∈ (writeCode BlockSize s bytes).mCode,
        c.data.length = BlockSize ∧ c.size ≤ BlockSize) ∧
    content (writeCode BlockSize s bytes).mCode = content s.mCode ++ bytes := by
  have hnew : (writeBytes (List.replicate BlockSize 0) 0 bytes).take bytes.length = bytes :=
    take_writeBytes_zero _ _ (by simpa using hlen)
  rcases List.eq_nil_or_concat s.mCode with h | ⟨init, head, h⟩
  · unfold writeCode
    rw [allocCode_nil BlockSize s _ h]
    simp only [store, newBlock, modifyAt, h]
    constructor
    · intro c hc
      simp only [List.mem_singleton] at hc
      subst hc
      simp [length_writeBytes, hlen]
    · simp [content, hnew]
  · rw [List.concat_eq_append] at h
    have hhead := hblk head (by rw [h]; simp)
    have hinit : ∀ c ∈ init, c.data.length = BlockSize ∧ c.size ≤ BlockSize :=
      fun c hc => hblk c (by rw [h]; exact List.mem_append_left _ hc)
    unfold writeCode
    rw [allocCode_concat BlockSize s init head _ h, bytesLeft_eq BlockSize head.size hhead.2 hB]
    by_cases hfit : BlockSize - head.size > bytes.length
    · have hmod : (head.size + bytes.length) % U32_MOD = head.size + bytes.length :=
        Nat.mod_eq_of_lt (by omega)
      rw [if_pos hfit, hmod]
      have hm := modifyAt_append
        (fun c : CodeData => { c with data := writeBytes c.data head.size bytes }) init
        [{ head with size := head.size + bytes.length }] 0
      simp only [Nat.add_zero] at hm
      simp only [store]
      rw [hm]
      simp only [modifyAt]
      constructor
      · intro c hc
        simp only [List.mem_append, List.mem_singleton] at hc
        rcases hc with hc | hc
        · exact hinit c hc
        · subst hc
          simp only [length_writeBytes]
          exact ⟨hhead.1, by omega⟩
      · rw [h, content_append, content_append, List.append_assoc]
        congr 1
        simp only [content, List.flatMap_cons, List.flatMap_nil, List.append_nil]
        exact take_writeBytes_end head.data head.size bytes (by omega)
    · rw [if_neg hfit]
      have hm := modifyAt_append
        (fun c : CodeData => { c with data := writeBytes c.data 0 bytes }) init
        [head, newBlock BlockSize bytes.length] 1
      simp only [store]
      rw [hm]
      simp only [modifyAt, newBlock]
      constructor
      · intro c hc
        simp only [List.mem_append, List.mem_cons, List.mem_singleton, List.not_mem_nil,
          or_false] at hc
        rcases hc with hc | hc | hc
        · exact hinit c hc
        · subst hc; exact hhead
        · subst hc
          simp [length_writeBytes, hlen]
      · have hsplit : ∀ x : CodeData, init ++ [head, x] = (init ++ [head]) ++ [x] :=
          fun x => by simp
        rw [h, hsplit, content_append]
        congr 1
        simp only [content, List.flatMap_cons, List.flatMap_nil, List.append_nil, hnew]

theorem writeAll_content (BlockSize : Nat) (writes : List (List Nat)) (s : CodeStream)
    (hB : BlockSize < U32_MOD)
    (hblk : ∀ c ∈ s.mCode, c.data.length = BlockSize ∧ c.size ≤ BlockSize)
    (hlen : ∀ w ∈ writes, w.length ≤ BlockSize) :
    (∀ c ∈ (writeAll BlockSize s writes).mCode,
        c.data.length = BlockSize ∧ c.size ≤ BlockSize) ∧
    content (writeAll BlockSize s writes).mCode = content s.mCode ++ writes.flatten := by
  induction writes generalizing s with
  | nil => simpa [writeAll] using hblk
  | cons w rest ih =>
    obtain ⟨h1, h2⟩ := writeCode_content BlockSize s w hB hblk
      (hlen w (List.mem_cons_self _ _))
    obtain ⟨h3, h4⟩ := ih (writeCode BlockSize s w) h1
      (fun x hx => hlen x (List.mem_cons_of_mem _ hx))
    refine ⟨h3, ?_⟩
    have : writeAll BlockSize s (w :: rest) = writeAll BlockSize (writeCode BlockSize s w) rest :=
      rfl
    rw [this, h4, h2]
    simp

theorem reset_content (BlockSize : Nat) (s : CodeStream) (h : Blocks BlockSize s) :
    (∀ c ∈ (reset s).mCode, c.data.length = BlockSize ∧ c.size ≤ BlockSize) ∧
    content (reset s).mCode = [] := by
  unfold reset
  cases hc : s.mCode with
  | nil => simp [content]
  | cons first rest =>
    have := h first (by rw [hc]; exact List.mem_cons_self _ _)
    simp [content, this]

end CodeStream

/-- C3. Chunked write/flatten round trip: after any sequence of writes on a
fresh or reset stream, each an `allocCode(sz)` with `sz ≤ BlockSize` whose
region the caller fills, with `mCodePos * 4` the number of bytes written and
no patch recorded, `emitCodeStream` returns `size = mCodePos` and an
instruction array that is exactly the written regions concatenated in write
order, whether or not a write opened a new block.  `BlockSize`, `mCodePos * 4`
and the element count of the array are in the range of a `U32`, and the
line-break list holds (line, ip) pairs. -/
theorem CodeStream.write_emit_roundtrip (BlockSize : Nat) (start : CodeStream)
    (writes : List (List Nat)) (pos : Nat) (breakLines : List Nat)
    (hstart : start = CodeStream.fresh ∨
      ∃ s, CodeStream.Blocks BlockSize s ∧ start = CodeStream.reset s)
    (hB : BlockSize < U32_MOD) (hsz : ∀ w ∈ writes, w.length ≤ BlockSize)
    (hpos : pos * 4 = (writes.map List.length).sum)
    (hrange : pos * 4 < U32_MOD ∧ pos + breakLines.length < U32_MOD ∧
      breakLines.length % 2 = 0) :
    ∃ out, CodeStream.emitCodeStream
        { CodeStream.writeAll BlockSize start writes with
          mCodePos := pos, mPatchList := [], mBreakLines := breakLines } = some out ∧
      out.size = pos ∧ out.stream.take (4 * pos) = writes.flatten := by
  have hinit : (∀ c ∈ start.mCode, c.data.length = BlockSize ∧ c.size ≤ BlockSize) ∧
      CodeStream.content start.mCode = [] := by
    rcases hstart with h | ⟨s, hs, h⟩
    · subst h; simp [CodeStream.fresh, CodeStream.content]
    · subst h; exact CodeStream.reset_content BlockSize s hs
  obtain ⟨hblk, hcont⟩ := CodeStream.writeAll_content BlockSize writes start hB hinit.1 hsz
  rw [hinit.2, List.nil_append] at hcont
  have hlen : (writes.flatten).length = pos * 4 := by
    rw [List.length_flatten, hpos]
  have hsafe : CodeStream.EmitSafe
      { CodeStream.writeAll BlockSize start writes with
        mCodePos := pos, mPatchList := [], mBreakLines := breakLines } := by
    refine ⟨fun c hc => ?_, hrange.2.2, hrange.2.1, fun q hq => ?_⟩
    · have := hblk c hc
      omega
    · simp at hq
  refine ⟨_, CodeStream.emitCodeStream_eq _ hsafe, rfl, ?_⟩
  show (CodeStream.patched [] (CodeStream.unpatched _)).take (4 * pos) = _
  simp only [CodeStream.patched, List.foldl_nil, CodeStream.unpatched, hcont]
  rw [take_writeBytes_of_le _ _ _ _ (Nat.le_refl _)
    (by rw [length_writeBytes, List.length_replicate]; omega),
    Nat.mod_eq_of_lt hrange.1, List.take_of_length_le (Nat.le_of_eq hlen)]
  have h4 : 4 * pos = (writes.flatten).length := by omega
  rw [h4]
  exact take_writeBytes_zero _ _ (by rw [List.length_replicate]; omega)

/-- C3, with `BlockSize = 8`: three writes of 4, 6 and 2 bytes, the second of
which does not fit the 4 bytes left in the first block and opens a second
block; flattening gives back the 12 bytes in write order. -/
theorem CodeStream.write_emit_roundtrip_witness :
    ∃ out, CodeStream.emitCodeStream
        { CodeStream.writeAll 8 CodeStream.fresh [[1, 2, 3, 4], [5, 6, 7, 8, 9, 10], [11, 12]]
          with mCodePos := 3, mPatchList := [], mBreakLines := [] } = some out ∧
      out.size = 3 ∧
      out.stream.take (4 * 3) = [[1, 2, 3, 4], [5, 6, 7, 8, 9, 10], [11, 12]].flatten :=
  CodeStream.write_emit_roundtrip 8 CodeStream.fresh
    [[1, 2, 3, 4], [5, 6, 7, 8, 9, 10], [11, 12]] 3 [] (Or.inl rfl) (by decide) (by decide)
    (by decide) (by decide)

/-! ## Theorems: CodeStream, loop fixups read back -/

namespace CodeStream

theorem resolve_addr (l b c : Nat) (p : Nat × Nat) (q : PatchEntry)
    (h : resolve l b c p = some q) : q.addr = p.1 := by
  unfold resolve at h
  split_ifs at h <;> simp only [Option.some.injEq] at h <;> rw [← h]

theorem resolve_none_addr (l b c : Nat) (pairs : List (Nat × Nat)) (a : Nat)
    (h : ∀ p ∈ pairs, p.1 = a → resolve l b c p = none) :
    ∀ q ∈ pairs.filterMap (resolve l b c), q.addr ≠ a := by
  intro q hq heq
  rw [List.mem_filterMap] at hq
  obtain ⟨p, hp, hr⟩ := hq
  have := h p hp (by rw [← resolve_addr l b c p q hr, heq])
  rw [this] at hr
  cases hr

theorem patched_append (ps qs : List PatchEntry) (buf : List Nat) :
    patched (ps ++ qs) buf = patched qs (patched ps buf) := by
  simp [patched, List.foldl_append]

end CodeStream

/-- C4. Loop fixup scoping: with a non-empty fix stack whose top mark is
`mark`, `fixLoop(loopStart, breakPoint, continuePoint)` appends to the patch
list, for each (address, kind) pair of `mFixList` from the mark on and in list
order, the patch of the address to the target of its kind, nothing for a pair
of another kind and nothing for the pairs below the mark; every other field is
left as it is.  Hence, the placeholders being distinct addresses of emitted
words, after `emitCodeStream` each placeholder of the scope reads back as the
target of its kind, and an address that no resolved pair names (a placeholder
of an outer scope) reads as it does without the resolution — the value written
there when no earlier patch names it either. -/
theorem CodeStream.fixLoop_resolves (s : CodeStream) (mark : Nat) (below : List Nat)
    (pairs : List (Nat × Nat)) (l b c : Nat)
    (hstack : s.mFixStack.getLast? = some mark)
    (hlist : s.mFixList = below ++ CodeStream.flatPairs pairs) (hmark : below.length = mark) :
    CodeStream.fixLoop s l b c
      = some { s with mPatchList := s.mPatchList ++ pairs.filterMap (CodeStream.resolve l b c) } ∧
    (CodeStream.EmitSafe s → (∀ p ∈ pairs, p.1 < s.mCodePos) → (pairs.map Prod.fst).Nodup →
      l < U32_MOD → b < U32_MOD → c < U32_MOD →
      ∃ out out0,
        CodeStream.emitCodeStream
          { s with mPatchList := s.mPatchList ++ pairs.filterMap (CodeStream.resolve l b c) }
          = some out ∧
        CodeStream.emitCodeStream s = some out0 ∧
        (∀ p ∈ pairs,
          (p.2 = FIXTYPE_LOOPBLOCKSTART → readU32 out.stream p.1 = l) ∧
          (p.2 = FIXTYPE_BREAK → readU32 out.stream p.1 = b) ∧
          (p.2 = FIXTYPE_CONTINUE → readU32 out.stream p.1 = c)) ∧
        (∀ a, a < s.mCodePos + s.mBreakLines.length →
          (∀ p ∈ pairs, p.1 = a → CodeStream.resolve l b c p = none) →
          readU32 out.stream a = readU32 out0.stream a ∧
          ((∀ q ∈ s.mPatchList, q.addr ≠ a) →
            readU32 out.stream a = readU32 (CodeStream.unpatched s) a))) := by
  refine ⟨CodeStream.fixLoop_eq s l b c mark below pairs hstack hlist hmark, ?_⟩
  intro hsafe haddr hnd hl hb hc
  have hnew : ∀ q ∈ pairs.filterMap (CodeStream.resolve l b c), q.addr < s.mCodePos := by
    intro q hq
    rw [List.mem_filterMap] at hq
    obtain ⟨p, hp, hr⟩ := hq
    rw [CodeStream.resolve_addr l b c p q hr]
    exact haddr p hp
  have hsafe1 : CodeStream.EmitSafe
      { s with mPatchList := s.mPatchList ++ pairs.filterMap (CodeStream.resolve l b c) } := by
    refine ⟨hsafe.1, hsafe.2.1, hsafe.2.2.1, fun q hq => ?_⟩
    rcases List.mem_append.1 hq with h | h
    · exact hsafe.2.2.2 q h
    · have := hnew q h
      show q.addr < s.mCodePos + s.mBreakLines.length
      omega
  have hbound : ∀ q ∈ s.mPatchList ++ pairs.filterMap (CodeStream.resolve l b c),
      4 * q.addr + 4 ≤ (CodeStream.unpatched s).length := by
    intro q hq
    rw [CodeStream.length_unpatched]
    have := hsafe1.2.2.2 q hq
    have e : ({ s with mPatchList := s.mPatchList
      ++ pairs.filterMap (CodeStream.resolve l b c) } : CodeStream).mCodePos = s.mCodePos := rfl
    have e2 : ({ s with mPatchList := s.mPatchList
      ++ pairs.filterMap (CodeStream.resolve l b c) } : CodeStream).mBreakLines
        = s.mBreakLines := rfl
    rw [e, e2] at this
    omega
  refine ⟨_, _, CodeStream.emitCodeStream_eq _ hsafe1, CodeStream.emitCodeStream_eq s hsafe,
    ?_, ?_⟩
  · -- the placeholders of the scope
    have key : ∀ p ∈ pairs, ∀ v, v < U32_MOD →
        CodeStream.resolve l b c p = some { addr := p.1, value := v } →
        readU32 (CodeStream.patched
          (s.mPatchList ++ pairs.filterMap (CodeStream.resolve l b c))
          (CodeStream.unpatched s)) p.1 = v := by
      intro p hp v hv hr
      obtain ⟨A, B, hAB⟩ := List.append_of_mem hp
      have hB : ∀ q ∈ B.filterMap (CodeStream.resolve l b c),
          q.addr ≠ ({ addr := p.1, value := v } : PatchEntry).addr := by
        intro q hq heq
        rw [List.mem_filterMap] at hq
        obtain ⟨p2, hp2, hr2⟩ := hq
        rw [CodeStream.resolve_addr l b c p2 q hr2] at heq
        rw [hAB, List.map_append, List.map_cons, List.nodup_append] at hnd
        have h1 := (List.nodup_cons.1 hnd.2.1).1
        apply h1
        show p.1 ∈ B.map Prod.fst
        have : p2.1 = p.1 := heq
        rw [← this]
        exact List.mem_map_of_mem _ hp2
      have hsplit : s.mPatchList ++ pairs.filterMap (CodeStream.resolve l b c)
          = (s.mPatchList ++ A.filterMap (CodeStream.resolve l b c))
            ++ { addr := p.1, value := v } :: B.filterMap (CodeStream.resolve l b c) := by
        rw [hAB, List.filterMap_append, List.filterMap_cons, hr, List.append_assoc]
      have hbound2 := hbound
      rw [hsplit] at hbound2 ⊢
      have := CodeStream.readU32_patched_last _ _ { addr := p.1, value := v } _ hbound2 hB
      rw [this]
      exact Nat.mod_eq_of_lt hv
    intro p hp
    refine ⟨fun hk => key p hp l hl ?_, fun hk => key p hp b hb ?_, fun hk => key p hp c hc ?_⟩
    · simp [CodeStream.resolve, hk]
    · simp [CodeStream.resolve, hk, FIXTYPE_BREAK, FIXTYPE_LOOPBLOCKSTART]
    · simp [CodeStream.resolve, hk, FIXTYPE_BREAK, FIXTYPE_LOOPBLOCKSTART, FIXTYPE_CONTINUE]
  · -- every other address
    intro a ha hnone
    have hother := CodeStream.resolve_none_addr l b c pairs a hnone
    have hold : ∀ q ∈ s.mPatchList, 4 * q.addr + 4 ≤ (CodeStream.unpatched s).length :=
      fun q hq => hbound q (List.mem_append_left _ hq)
    have h1 : readU32 (CodeStream.patched
          (s.mPatchList ++ pairs.filterMap (CodeStream.resolve l b c))
          (CodeStream.unpatched s)) a
        = readU32 (CodeStream.patched s.mPatchList (CodeStream.unpatched s)) a := by
      rw [CodeStream.patched_append]
      exact CodeStream.readU32_patched_other _ _ a
        (fun q hq => by
          rw [CodeStream.length_patched]
          exact hbound q (List.mem_append_right _ hq)) hother
    refine ⟨h1, fun hfree => ?_⟩
    exact h1.trans (CodeStream.readU32_patched_other _ _ a hold hfree)

/-- C4, on the stream inside a nested loop: resolved with (10, 20, 30), the
break and the continue placeholder of the inner scope read back as 20 and 30
after `emitCodeStream`, and the break placeholder of the outer scope still
reads the kind written there. -/
theorem CodeStream.fixLoop_resolves_witness :
    ∃ s1 out, CodeStream.fixLoop CodeStream.loopScopes 10 20 30 = some s1 ∧
      CodeStream.emitCodeStream s1 = some out ∧
      readU32 out.stream 1 = 20 ∧ readU32 out.stream 2 = 30 ∧
      readU32 out.stream 0 = FIXTYPE_BREAK := by
  obtain ⟨h1, h2⟩ := CodeStream.fixLoop_resolves CodeStream.loopScopes 2 [0, FIXTYPE_BREAK]
    [(1, FIXTYPE_BREAK), (2, FIXTYPE_CONTINUE)] 10 20 30 rfl rfl rfl
  obtain ⟨out, out0, he, -, hp, hu⟩ := h2 (by decide) (by decide) (by decide) (by decide)
    (by decide) (by decide)
  refine ⟨_, out, h1, he, (hp (1, FIXTYPE_BREAK) (by simp)).2.1 rfl,
    (hp (2, FIXTYPE_CONTINUE) (by simp)).2.2 rfl, ?_⟩
  rw [(hu 0 (by decide) (by decide)).2 (by decide)]
  decide

/-! ## Theorems: FuncVars, names already in the scope and unseen names -/

theorem length_mapSet_of_found {κ β : Type} [DecidableEq κ] (k : κ) (v w : β)
    (m : List (κ × β)) (h : mapFind k m = some w) : (mapSet k v m).length = m.length := by
  induction m with
  | nil => simp [mapFind] at h
  | cons p rest ih =>
    obtain ⟨k', v'⟩ := p
    by_cases hk : k' = k
    · simp [mapSet, hk]
    · simp only [mapFind, hk, if_false] at h
      simp [mapSet, hk, ih h]

theorem keys_mapSet_of_found {κ β : Type} [DecidableEq κ] (k : κ) (v w : β)
    (m : List (κ × β)) (h : mapFind k m = some w) :
    (mapSet k v m).map Prod.fst = m.map Prod.fst := by
  induction m with
  | nil => simp [mapFind] at h
  | cons p rest ih =>
    obtain ⟨k', v'⟩ := p
    by_cases hk : k' = k
    · simp [mapSet, hk]
    · simp only [mapFind, hk, if_false] at h
      simp [mapSet, hk, ih h]

namespace FuncVars

/-- The entry `assign` leaves for a name found with the entry `found`: only the
type class can change. -/
theorem assign_found (a : Bool) (fv : FuncVars) (x : StringTableEntry) (found : Var)
    (hx : mapFind x fv.vars = some found) (t : TypeReq) (line : Int) (c : Bool) :
    assign a fv x t line c
      = if found.isConstant then
          (if a then Outcome.aborted (ScriptMessage.reassignConstant x line)
           else Outcome.returned found.reg
             { fv with vars := (mapSet x (retyped found t) fv.vars) }
             [ScriptMessage.reassignConstant x line])
        else Outcome.returned found.reg
          { fv with vars := (mapSet x (retyped found t) fv.vars) } [] := by
  obtain ⟨reg, ty0, name, isC⟩ := found
  unfold assign
  rw [hx]
  simp only [retyped, degrade, scriptErrorHandler]
  by_cases hd : t ≠ ty0 ∧ ty0 ≠ TypeReq.TypeReqNone <;> cases isC <;> cases a <;> simp [hd]

theorem assign_unseen (a : Bool) (fv : FuncVars) (x : StringTableEntry)
    (hx : mapFind x fv.vars = none) (t : TypeReq) (line : Int) (c : Bool) :
    assign a fv x t line c
      = Outcome.returned fv.counter (declare fv x t c) [] := by
  unfold assign
  rw [hx]
  rfl

end FuncVars

/-- C11. Single register per name: `assign(x, t, isConstant)` on a scope that
holds `x` returns the register id of `x` and leaves the number of variables,
their names, the register counter and the id-to-name map as they were, for
every `t` and `isConstant`; with warnings as asserts the same holds of every
call that returns.  In particular `assign(x, t)` on a scope without `x`
followed by a second `assign(x, t)` returns the same id both times. -/
theorem FuncVars.assign_single_register (x : StringTableEntry) :
    (∀ (fv : FuncVars) (found : Var) (t : TypeReq) (line : Int) (c : Bool),
      mapFind x fv.vars = some found →
      (∃ fv1 ws, FuncVars.assign false fv x t line c = Outcome.returned found.reg fv1 ws ∧
        fv1.vars.length = fv.vars.length ∧
        fv1.vars.map Prod.fst = fv.vars.map Prod.fst ∧
        fv1.counter = fv.counter ∧ fv1.variableNameMap = fv.variableNameMap) ∧
      (∀ id fv1 ws, FuncVars.assign true fv x t line c = Outcome.returned id fv1 ws →
        id = found.reg ∧ fv1.vars.length = fv.vars.length ∧ fv1.counter = fv.counter)) ∧
    (∀ (fv : FuncVars) (t : TypeReq) (l1 l2 : Int) (c1 c2 : Bool),
      mapFind x fv.vars = none →
      ∃ fv1 fv2 ws,
        FuncVars.assign false fv x t l1 c1 = Outcome.returned fv.counter fv1 [] ∧
        FuncVars.assign false fv1 x t l2 c2 = Outcome.returned fv.counter fv2 ws ∧
        fv2.vars.length = fv1.vars.length ∧ fv2.counter = fv1.counter) := by
  constructor
  · intro fv found t line c hx
    have hlen := length_mapSet_of_found x (FuncVars.retyped found t) found fv.vars hx
    have hkeys := keys_mapSet_of_found x (FuncVars.retyped found t) found fv.vars hx
    constructor
    · rw [FuncVars.assign_found false fv x found hx t line c]
      cases found.isConstant
      · exact ⟨_, _, rfl, hlen, hkeys, rfl, rfl⟩
      · exact ⟨_, _, rfl, hlen, hkeys, rfl, rfl⟩
    · intro id fv1 ws h
      rw [FuncVars.assign_found true fv x found hx t line c] at h
      cases hc : found.isConstant
      · rw [hc] at h
        simp only [Bool.false_eq_true, if_false, Outcome.returned.injEq] at h
        obtain ⟨rfl, rfl, -⟩ := h
        exact ⟨rfl, hlen, rfl⟩
      · rw [hc] at h
        simp at h
  · intro fv t l1 l2 c1 c2 hx
    have hfound : mapFind x (FuncVars.declare fv x t c1).vars
        = some { reg := fv.counter, currentType := t, name := x, isConstant := c1 } :=
      mapFind_mapSet_self _ _ _
    refine ⟨FuncVars.declare fv x t c1,
      { FuncVars.declare fv x t c1 with
        vars := (mapSet x (FuncVars.retyped
          { reg := fv.counter, currentType := t, name := x, isConstant := c1 } t)
          (FuncVars.declare fv x t c1).vars) },
      (if c1 then [ScriptMessage.reassignConstant x l2] else []),
      FuncVars.assign_unseen false fv x hx t l1 c1, ?_,
      length_mapSet_of_found x _ _ _ hfound, rfl⟩
    rw [FuncVars.assign_found false _ x _ hfound t l2 c2]
    cases c1 <;> rfl

/-- C11, on a scope that holds `x` in register 0: a second `assign` with
another type returns 0 and leaves one variable and the counter at 1. -/
theorem FuncVars.assign_single_register_witness :
    ∃ fv1 ws,
      FuncVars.assign false
          ⟨[("x", ⟨0, TypeReq.TypeReqUInt, "x", false⟩)], [(0, "x")], 1⟩
          "x" TypeReq.TypeReqString 7 true = Outcome.returned 0 fv1 ws ∧
      fv1.vars.length = 1 ∧ fv1.vars.map Prod.fst = ["x"] ∧ fv1.counter = 1 ∧
      fv1.variableNameMap = [(0, "x")] :=
  ((FuncVars.assign_single_register "x").1
    ⟨[("x", ⟨0, TypeReq.TypeReqUInt, "x", false⟩)], [(0, "x")], 1⟩
    { reg := 0, currentType := TypeReq.TypeReqUInt, name := "x", isConstant := false }
    TypeReq.TypeReqString 7 true (by decide)).1

/-- C12. Implicit declaration: on a scope without `y`, `lookup(y)` sends the
referenced-before-used warning, returns the current counter as the new register
id and leaves the scope exactly as `assign(y, TypeReqString, false)` leaves it,
so that a following `lookupType(y)` returns `TypeReqString` and a following
`lookup(y)` returns the same id, both without a warning; `lookupType(y)` on the
scope without `y` makes the same declaration and returns `TypeReqString`; on a
cleared scope the id is 0.  With warnings as asserts both calls end in the
assert instead. -/
theorem FuncVars.lookup_implicit (fv : FuncVars) (y : StringTableEntry) (line l2 : Int)
    (hy : mapFind y fv.vars = none) :
    FuncVars.assign false fv y TypeReq.TypeReqString line false
      = Outcome.returned fv.counter (FuncVars.declare fv y TypeReq.TypeReqString false) [] ∧
    FuncVars.lookup false fv y line
      = Outcome.returned fv.counter (FuncVars.declare fv y TypeReq.TypeReqString false)
          [ScriptMessage.referencedBeforeUsed y line] ∧
    FuncVars.lookupType false fv y line
      = Outcome.returned TypeReq.TypeReqString
          (FuncVars.declare fv y TypeReq.TypeReqString false)
          [ScriptMessage.referencedBeforeUsed y line] ∧
    FuncVars.lookupType false (FuncVars.declare fv y TypeReq.TypeReqString false) y l2
      = Outcome.returned TypeReq.TypeReqString
          (FuncVars.declare fv y TypeReq.TypeReqString false) [] ∧
    FuncVars.lookup false (FuncVars.declare fv y TypeReq.TypeReqString false) y l2
      = Outcome.returned fv.counter (FuncVars.declare fv y TypeReq.TypeReqString false) [] ∧
    FuncVars.lookup false (FuncVars.clear fv) y line
      = Outcome.returned 0 (FuncVars.declare (FuncVars.clear fv) y TypeReq.TypeReqString false)
          [ScriptMessage.referencedBeforeUsed y line] ∧
    FuncVars.lookup true fv y line
      = Outcome.aborted (ScriptMessage.referencedBeforeUsed y line) ∧
    FuncVars.lookupType true fv y line
      = Outcome.aborted (ScriptMessage.referencedBeforeUsed y line) := by
  have ha := FuncVars.assign_unseen false fv y hy TypeReq.TypeReqString line false
  have hfound : mapFind y (FuncVars.declare fv y TypeReq.TypeReqString false).vars
      = some { reg := fv.counter, currentType := TypeReq.TypeReqString, name := y,
               isConstant := false } :=
    mapFind_mapSet_self _ _ _
  refine ⟨ha, ?_, ?_, ?_, ?_, ?_, ?_, ?_⟩
  · simp only [FuncVars.lookup, hy, scriptErrorHandler, ha]
    rfl
  · simp only [FuncVars.lookupType, hy, scriptErrorHandler, ha, hfound]
    rfl
  · simp only [FuncVars.lookupType, hfound]
  · simp only [FuncVars.lookup, hfound]
  · have hc : mapFind y (FuncVars.clear fv).vars = none := rfl
    have hac := FuncVars.assign_unseen false (FuncVars.clear fv) y hc TypeReq.TypeReqString
      line false
    simp only [FuncVars.lookup, hc, scriptErrorHandler, hac]
    rfl
  · simp [FuncVars.lookup, hy, scriptErrorHandler]
  · simp [FuncVars.lookupType, hy, scriptErrorHandler]

/-- C12, on the empty scope: `lookup(y)` returns register 0 with the warning. -/
theorem FuncVars.lookup_implicit_witness :
    FuncVars.lookup false ⟨[], [], 0⟩ "y" 3
      = Outcome.returned 0
          ⟨[("y", ⟨0, TypeReq.TypeReqString, "y", false⟩)], [(0, "y")], 1⟩
          [ScriptMessage.referencedBeforeUsed "y" 3] :=
  (FuncVars.lookup_implicit ⟨[], [], 0⟩ "y" 3 4 rfl).2.1

/-- C13. Constant reassignment: on a scope that holds `x`, `assign(x, t, c)`
sends the reassigning-a-constant warning exactly when the entry of `x` is
marked constant; with warnings as warnings it returns the register id of `x`
either way and the entry keeps its register and its constant flag, whatever
the `isConstant` argument `c` of the call. -/
theorem FuncVars.assign_constant_warning (fv : FuncVars) (x : StringTableEntry) (found : Var)
    (t : TypeReq) (line : Int) (c : Bool) (hx : mapFind x fv.vars = some found) :
    ∃ fv1 ws v1, FuncVars.assign false fv x t line c = Outcome.returned found.reg fv1 ws ∧
      ws = (if found.isConstant then [ScriptMessage.reassignConstant x line] else []) ∧
      (ScriptMessage.reassignConstant x line ∈ ws ↔ found.isConstant = true) ∧
      mapFind x fv1.vars = some v1 ∧ v1.isConstant = found.isConstant ∧ v1.reg = found.reg := by
  rw [FuncVars.assign_found false fv x found hx t line c]
  have hv : mapFind x (mapSet x (FuncVars.retyped found t) fv.vars)
      = some (FuncVars.retyped found t) := mapFind_mapSet_self _ _ _
  cases hc : found.isConstant
  · exact ⟨_, _, _, rfl, rfl, by simp, hv, hc, rfl⟩
  · exact ⟨_, _, _, rfl, rfl, by simp, hv, hc, rfl⟩

/-- C13, on a scope that holds the constant `x`: the call passes
`isConstant = false`, the warning is sent, register 0 is returned and the entry
stays constant. -/
theorem FuncVars.assign_constant_warning_witness :
    ∃ fv1 ws v1,
      FuncVars.assign false
          ⟨[("x", ⟨0, TypeReq.TypeReqUInt, "x", true⟩)], [(0, "x")], 1⟩
          "x" TypeReq.TypeReqUInt 9 false = Outcome.returned 0 fv1 ws ∧
      ws = [ScriptMessage.reassignConstant "x" 9] ∧
      (ScriptMessage.reassignConstant "x" 9 ∈ ws ↔ true = true) ∧
      mapFind "x" fv1.vars = some v1 ∧ v1.isConstant = true ∧ v1.reg = 0 :=
  FuncVars.assign_constant_warning
    ⟨[("x", ⟨0, TypeReq.TypeReqUInt, "x", true⟩)], [(0, "x")], 1⟩
    "x" { reg := 0, currentType := TypeReq.TypeReqUInt, name := "x", isConstant := true }
    TypeReq.TypeReqUInt 9 false (by decide)

/-! ## Theorems: the local-variable table -/

theorem mapFind_append_ne {κ β : Type} [DecidableEq κ] (k x : κ) (v : β) (m : List (κ × β))
    (hne : k ≠ x) : mapFind x (m ++ [(k, v)]) = mapFind x m := by
  induction m with
  | nil => simp [mapFind, hne]
  | cons p rest ih =>
    obtain ⟨k', v'⟩ := p
    by_cases h : k' = x <;> simp [mapFind, h, ih]

namespace CompilerLocalVariableToRegisterMappingTable

theorem add_find (t : CompilerLocalVariableToRegisterMappingTable)
    (fn ns v k : StringTableEntry) :
    mapFind k (add t fn ns v).localVarToRegister
      = if funcLookupTableName ns fn = k then
          some ((mapFind k t.localVarToRegister).getD [] ++ [v])
        else mapFind k t.localVarToRegister := by
  unfold add mapIndex
  by_cases hk : funcLookupTableName ns fn = k
  · subst hk
    simp only [if_true]
    rw [mapFind_mapSet_self]
    cases mapFind (funcLookupTableName ns fn) t.localVarToRegister <;> rfl
  · simp only [hk, if_false]
    rw [mapFind_mapSet_ne _ _ _ _ hk]
    cases mapFind (funcLookupTableName ns fn) t.localVarToRegister with
    | some l => rfl
    | none => exact mapFind_append_ne _ _ _ _ hk

theorem namesFor_concat (k : StringTableEntry) (calls : List AddCall) (c : AddCall) :
    namesFor k (calls ++ [c])
      = namesFor k calls
        ++ (if funcLookupTableName c.namespaceName c.functionName = k then [c.varName]
            else []) := by
  unfold namesFor
  by_cases h : funcLookupTableName c.namespaceName c.functionName = k <;>
    simp [List.filter_append, h]

/-- What a key maps to after a sequence of `add` calls on a reset table. -/
theorem addAll_find (calls : List AddCall) (k : StringTableEntry) :
    mapFind k (addAll ⟨[]⟩ calls).localVarToRegister
      = if namesFor k calls = [] then none else some (namesFor k calls) := by
  induction calls using List.reverseRecOn with
  | nil => rfl
  | append_singleton calls c ih =>
    have hstep : addAll ⟨[]⟩ (calls ++ [c])
        = add (addAll ⟨[]⟩ calls) c.functionName c.namespaceName c.varName := by
      simp [addAll, List.foldl_append]
    rw [hstep, add_find, namesFor_concat, ih]
    by_cases hk : funcLookupTableName c.namespaceName c.functionName = k
    · simp only [hk, if_true]
      by_cases hn : namesFor k calls = [] <;> simp [hn]
    · simp [hk]

theorem position_none (v : StringTableEntry) (l : List StringTableEntry) :
    position v l = none ↔ v ∉ l := by
  induction l with
  | nil => simp [position]
  | cons x rest ih =>
    by_cases h : x = v
    · simp [position, h]
    · simp [position, h, ih, Ne.symm h]

theorem position_some (v : StringTableEntry) (l : List StringTableEntry) (i : Nat)
    (h : position v l = some i) :
    l[i]? = some v ∧ (∀ j, j < i → l[j]? ≠ some v) ∧ i < l.length := by
  induction l generalizing i with
  | nil => simp [position] at h
  | cons x rest ih =>
    by_cases hx : x = v
    · simp only [position, hx, if_true, Option.some.injEq] at h
      subst h
      simp [hx]
    · simp only [position, hx, if_false, Option.map_eq_some'] at h
      obtain ⟨i', hi', rfl⟩ := h
      obtain ⟨h1, h2, h3⟩ := ih i' hi'
      refine ⟨by simpa using h1, ?_, by simpa using h3⟩
      intro j hj
      cases j with
      | zero => simp [hx]
      | succ j' =>
        simp only [List.getElem?_cons_succ]
        exact h2 j' (by omega)

theorem toS32_small (n : Nat) (h : n < 2147483648) : toS32 n = (n : Int) := by
  unfold toS32 U32_MOD
  omega

/-- What `lookup` does on a table in which the key maps to `names`, or to
nothing when `names` is empty. -/
theorem lookup_eq (a : Bool) (t : CompilerLocalVariableToRegisterMappingTable)
    (ns fn v : StringTableEntry) (names : List StringTableEntry)
    (h : mapFind (funcLookupTableName ns fn) t.localVarToRegister
      = if names = [] then none else some names) :
    lookup a t ns fn v
      = (t, match position v names with
            | some i => Run.returned (toS32 i) []
            | none => Run.returned (-1)
                [ConsoleLine.localVariableNotFound v (funcLookupTableName ns fn)]) := by
  unfold lookup mapIndex
  by_cases hn : names = []
  · subst hn
    simp only [if_true] at h
    simp [h, position]
  · simp only [hn, if_false] at h
    simp only [h]
    cases position v names <;> rfl

end CompilerLocalVariableToRegisterMappingTable

/-- C15. Persisted table lookup: after any sequence of `add(fn, ns, v)` calls
since `reset()`, `lookup(ns, fn, v)` leaves the table as it is (so it cannot
change what a later lookup returns); it returns the zero-based position of the
first occurrence of `v` in the list of names added under the key `ns::fn`, and
it returns -1, with the not-found error sent to the console, exactly when `v`
was never added under that key.  The list of the key has fewer than `2^31`
names, the positions an `S32` can return. -/
theorem CompilerLocalVariableToRegisterMappingTable.lookup_position (a : Bool)
    (t0 : CompilerLocalVariableToRegisterMappingTable)
    (calls : List CompilerLocalVariableToRegisterMappingTable.AddCall)
    (ns fn v : StringTableEntry)
    (hlen : (CompilerLocalVariableToRegisterMappingTable.namesFor
      (CompilerLocalVariableToRegisterMappingTable.funcLookupTableName ns fn) calls).length
        < 2147483648) :
    (CompilerLocalVariableToRegisterMappingTable.lookup a
        (CompilerLocalVariableToRegisterMappingTable.addAll
          (CompilerLocalVariableToRegisterMappingTable.reset t0) calls) ns fn v).1
      = CompilerLocalVariableToRegisterMappingTable.addAll
          (CompilerLocalVariableToRegisterMappingTable.reset t0) calls ∧
    (v ∉ CompilerLocalVariableToRegisterMappingTable.namesFor
          (CompilerLocalVariableToRegisterMappingTable.funcLookupTableName ns fn) calls →
      (CompilerLocalVariableToRegisterMappingTable.lookup a
        (CompilerLocalVariableToRegisterMappingTable.addAll
          (CompilerLocalVariableToRegisterMappingTable.reset t0) calls) ns fn v).2
        = Run.returned (-1)
            [ConsoleLine.localVariableNotFound v
              (CompilerLocalVariableToRegisterMappingTable.funcLookupTableName ns fn)]) ∧
    (v ∈ CompilerLocalVariableToRegisterMappingTable.namesFor
          (CompilerLocalVariableToRegisterMappingTable.funcLookupTableName ns fn) calls →
      ∃ i : Nat,
        (CompilerLocalVariableToRegisterMappingTable.namesFor
          (CompilerLocalVariableToRegisterMappingTable.funcLookupTableName ns fn) calls)[i]?
          = some v ∧
        (∀ j, j < i →
          (CompilerLocalVariableToRegisterMappingTable.namesFor
            (CompilerLocalVariableToRegisterMappingTable.funcLookupTableName ns fn) calls)[j]?
            ≠ some v) ∧
        (CompilerLocalVariableToRegisterMappingTable.lookup a
          (CompilerLocalVariableToRegisterMappingTable.addAll
            (CompilerLocalVariableToRegisterMappingTable.reset t0) calls) ns fn v).2
          = Run.returned (i : Int) []) := by
  have hfind := CompilerLocalVariableToRegisterMappingTable.addAll_find calls
    (CompilerLocalVariableToRegisterMappingTable.funcLookupTableName ns fn)
  have heq := CompilerLocalVariableToRegisterMappingTable.lookup_eq a _ ns fn v _ hfind
  have hreset : CompilerLocalVariableToRegisterMappingTable.reset t0 = ⟨[]⟩ := rfl
  rw [hreset, heq]
  refine ⟨rfl, ?_, ?_⟩
  · intro hv
    rw [(CompilerLocalVariableToRegisterMappingTable.position_none v _).2 hv]
  · intro hv
    cases hp : CompilerLocalVariableToRegisterMappingTable.position v
        (CompilerLocalVariableToRegisterMappingTable.namesFor
          (CompilerLocalVariableToRegisterMappingTable.funcLookupTableName ns fn) calls) with
    | none => exact absurd hv ((CompilerLocalVariableToRegisterMappingTable.position_none v _).1 hp)
    | some i =>
      obtain ⟨h1, h2, h3⟩ := CompilerLocalVariableToRegisterMappingTable.position_some v _ i hp
      refine ⟨i, h1, h2, ?_⟩
      simp only
      rw [toS32_small i (by omega)]

/-- C15, on the example of the specification: after `add(main, Game, a)` and
`add(main, Game, b)`, `lookup(Game, main, b)` returns 1 and leaves the table as
it is. -/
theorem CompilerLocalVariableToRegisterMappingTable.lookup_position_witness :
    ∃ i : Nat,
      (CompilerLocalVariableToRegisterMappingTable.namesFor
        (CompilerLocalVariableToRegisterMappingTable.funcLookupTableName "Game" "main")
        [⟨"main", "Game", "a"⟩, ⟨"main", "Game", "b"⟩])[i]? = some "b" ∧
      (∀ j, j < i →
        (CompilerLocalVariableToRegisterMappingTable.namesFor
          (CompilerLocalVariableToRegisterMappingTable.funcLookupTableName "Game" "main")
          [⟨"main", "Game", "a"⟩, ⟨"main", "Game", "b"⟩])[j]? ≠ some "b") ∧
      (CompilerLocalVariableToRegisterMappingTable.lookup false
        (CompilerLocalVariableToRegisterMappingTable.addAll
          (CompilerLocalVariableToRegisterMappingTable.reset ⟨[]⟩)
          [⟨"main", "Game", "a"⟩, ⟨"main", "Game", "b"⟩]) "Game" "main" "b").2
        = Run.returned (i : Int) [] ∧
      (CompilerLocalVariableToRegisterMappingTable.lookup false
        (CompilerLocalVariableToRegisterMappingTable.addAll
          (CompilerLocalVariableToRegisterMappingTable.reset ⟨[]⟩)
          [⟨"main", "Game", "a"⟩, ⟨"main", "Game", "b"⟩]) "Game" "main" "b").2
        = Run.returned 1 [] ∧
      (CompilerLocalVariableToRegisterMappingTable.lookup false
        (CompilerLocalVariableToRegisterMappingTable.addAll
          (CompilerLocalVariableToRegisterMappingTable.reset ⟨[]⟩)
          [⟨"main", "Game", "a"⟩, ⟨"main", "Game", "b"⟩]) "Game" "main" "z").2
        = Run.returned (-1) [ConsoleLine.localVariableNotFound "z" "Game::main"] := by
  obtain ⟨i, h1, h2, h3⟩ :=
    (CompilerLocalVariableToRegisterMappingTable.lookup_position false ⟨[]⟩
      [⟨"main", "Game", "a"⟩, ⟨"main", "Game", "b"⟩] "Game" "main" "b" (by decide)).2.2
      (by decide)
  exact ⟨i, h1, h2, h3, by decide, by decide⟩

/-! ## Theorems: diagnostics and the warnings-as-asserts switch -/

/-- C14, as stated, fails: with `Con::scriptWarningsAsAsserts` enabled neither
the unresolved-local-variable error of the table `lookup` nor the
always-zero-literal warning of `consoleStringToNumber` aborts; both calls
return, the one with -1 and the other with 0, after writing to the console. -/
theorem diagnostics_not_all_escalated :
    (¬ ∃ m, (CompilerLocalVariableToRegisterMappingTable.lookup true
        (CompilerLocalVariableToRegisterMappingTable.reset ⟨[]⟩) "Game" "main" "z").2
          = Run.aborted m) ∧
    (CompilerLocalVariableToRegisterMappingTable.lookup true
        (CompilerLocalVariableToRegisterMappingTable.reset ⟨[]⟩) "Game" "main" "z").2
      = Run.returned (-1) [ConsoleLine.localVariableNotFound "z" "Game::main"] ∧
    (¬ ∃ m, consoleStringToNumber (fun _ => ⟨0⟩) true ['a', 'b', 'c'] (some "main.cs") 3
        = Run.aborted m) ∧
    consoleStringToNumber (fun _ => ⟨0⟩) true ['a', 'b', 'c'] (some "main.cs") 3
      = Run.returned ⟨0⟩ [ConsoleLine.alwaysZero "main.cs" 3] := by
  have h1 : (CompilerLocalVariableToRegisterMappingTable.lookup true
        (CompilerLocalVariableToRegisterMappingTable.reset ⟨[]⟩) "Game" "main" "z").2
      = Run.returned (-1) [ConsoleLine.localVariableNotFound "z" "Game::main"] := by decide
  have h2 : consoleStringToNumber (fun _ => ⟨0⟩) true ['a', 'b', 'c'] (some "main.cs") 3
      = Run.returned ⟨0⟩ [ConsoleLine.alwaysZero "main.cs" 3] := by decide
  refine ⟨?_, h1, ?_, h2⟩
  · rintro ⟨m, hm⟩
    rw [h1] at hm
    cases hm
  · rintro ⟨m, hm⟩
    rw [h2] at hm
    cases hm

/-- C14, amended. With `Con::scriptWarningsAsAsserts` enabled the diagnostics
that go through `scriptErrorHandler` abort at their first occurrence: the
reassignment of a constant in `FuncVars::assign` and the use of an undeclared
variable in `FuncVars::lookup` and `FuncVars::lookupType`; with the switch
disabled the same calls return with the warning.  The always-zero-literal
warning of `consoleStringToNumber` and the unresolved-local-variable error of
the table `lookup` are written to the console and never abort, whatever the
switch. -/
theorem diagnostics_escalation :
    (∀ (fv : FuncVars) (x : StringTableEntry) (found : Var) (t : TypeReq) (line : Int)
        (c : Bool),
      mapFind x fv.vars = some found → found.isConstant = true →
      FuncVars.assign true fv x t line c
        = Outcome.aborted (ScriptMessage.reassignConstant x line) ∧
      ∃ fv1, FuncVars.assign false fv x t line c
        = Outcome.returned found.reg fv1 [ScriptMessage.reassignConstant x line]) ∧
    (∀ (fv : FuncVars) (y : StringTableEntry) (line : Int),
      mapFind y fv.vars = none →
      FuncVars.lookup true fv y line
        = Outcome.aborted (ScriptMessage.referencedBeforeUsed y line) ∧
      FuncVars.lookupType true fv y line
        = Outcome.aborted (ScriptMessage.referencedBeforeUsed y line) ∧
      (∃ r fv1, FuncVars.lookup false fv y line
        = Outcome.returned r fv1 [ScriptMessage.referencedBeforeUsed y line]) ∧
      (∃ r fv1, FuncVars.lookupType false fv y line
        = Outcome.returned r fv1 [ScriptMessage.referencedBeforeUsed y line])) ∧
    (∀ (dAtof : CStr → F64) (a : Bool) (str : CStr) (file : Option StringTableEntry)
        (line : Nat),
      ∃ v log, consoleStringToNumber dAtof a str file line = Run.returned v log) ∧
    (∀ (a : Bool) (t : CompilerLocalVariableToRegisterMappingTable)
        (ns fn v : StringTableEntry),
      ∃ r log, (CompilerLocalVariableToRegisterMappingTable.lookup a t ns fn v).2
        = Run.returned r log) := by
  refine ⟨?_, ?_, ?_, ?_⟩
  · intro fv x found t line c hx hc
    constructor
    · rw [FuncVars.assign_found true fv x found hx t line c, hc]
      rfl
    · rw [FuncVars.assign_found false fv x found hx t line c, hc]
      exact ⟨_, rfl⟩
  · intro fv y line hy
    have ha := FuncVars.assign_unseen false fv y hy TypeReq.TypeReqString line false
    have hfound : mapFind y (FuncVars.declare fv y TypeReq.TypeReqString false).vars
        = some ⟨fv.counter, TypeReq.TypeReqString, y, false⟩ :=
      mapFind_mapSet_self _ _ _
    refine ⟨?_, ?_, ⟨fv.counter, FuncVars.declare fv y TypeReq.TypeReqString false, ?_⟩,
      ⟨TypeReq.TypeReqString, FuncVars.declare fv y TypeReq.TypeReqString false, ?_⟩⟩
    · simp [FuncVars.lookup, hy, scriptErrorHandler]
    · simp [FuncVars.lookupType, hy, scriptErrorHandler]
    · simp only [FuncVars.lookup, hy, scriptErrorHandler, ha]
      rfl
    · simp only [FuncVars.lookupType, hy, scriptErrorHandler, ha, hfound]
      rfl
  · intro dAtof a str file line
    unfold consoleStringToNumber
    split_ifs
    · exact ⟨_, _, rfl⟩
    · exact ⟨_, _, rfl⟩
    · exact ⟨_, _, rfl⟩
    · cases file <;> exact ⟨_, _, rfl⟩
  · intro a t ns fn v
    unfold CompilerLocalVariableToRegisterMappingTable.lookup
    cases mapFind (CompilerLocalVariableToRegisterMappingTable.funcLookupTableName ns fn)
        t.localVarToRegister with
    | none => exact ⟨_, _, rfl⟩
    | some l =>
      simp only
      cases CompilerLocalVariableToRegisterMappingTable.position v
        (mapIndex (CompilerLocalVariableToRegisterMappingTable.funcLookupTableName ns fn) []
          t.localVarToRegister).2 <;> exact ⟨_, _, rfl⟩

/-- C14 amended, on a scope that holds the constant `x`: with the switch
enabled `assign` ends in the assert, with the switch disabled it returns
register 0 with the warning. -/
theorem diagnostics_escalation_witness :
    FuncVars.assign true ⟨[("x", ⟨0, TypeReq.TypeReqUInt, "x", true⟩)], [(0, "x")], 1⟩
        "x" TypeReq.TypeReqUInt 9 false
      = Outcome.aborted (ScriptMessage.reassignConstant "x" 9) ∧
    ∃ fv1, FuncVars.assign false
        ⟨[("x", ⟨0, TypeReq.TypeReqUInt, "x", true⟩)], [(0, "x")], 1⟩
        "x" TypeReq.TypeReqUInt 9 false
      = Outcome.returned 0 fv1 [ScriptMessage.reassignConstant "x" 9] :=
  diagnostics_escalation.1 ⟨[("x", ⟨0, TypeReq.TypeReqUInt, "x", true⟩)], [(0, "x")], 1⟩
    "x" ⟨0, TypeReq.TypeReqUInt, "x", true⟩ TypeReq.TypeReqUInt 9 false (by decide) rfl

/-! ## Theorems: constant pools, lengths and reset -/

/-- C16. Tag padding: when no entry of the pool matches `s`, `add(s, caseSens,
tag)` appends one entry that starts at the old `totalLen`; for a tagged string
with `strlen(s) + 1 < 7` the entry has length exactly 7 and `totalLen` grows by
exactly 7, and in every other case (untagged, or `strlen(s) + 1 ≥ 7`, the
length fitting a `U32`) the entry has length `strlen(s) + 1` and `totalLen`
grows by exactly that; the growth is that of the `U32` addition, the plain sum
when the sum fits a `U32`. -/
theorem CompilerStringTable.add_miss_length (t : CompilerStringTable) (s : CStr)
    (caseSens tag : Bool) (hmiss : CompilerStringTable.walk s caseSens tag t.list = none) :
    (tag = true → s.length + 1 < 7 →
      t.add s caseSens tag
        = ({ list := t.list ++ [{ string := s, start := t.totalLen, len := 7, tag := true }],
             totalLen := (t.totalLen + 7) % U32_MOD }, t.totalLen) ∧
      (t.totalLen + 7 < U32_MOD → (t.add s caseSens tag).1.totalLen = t.totalLen + 7)) ∧
    (¬ (tag = true ∧ s.length + 1 < 7) → s.length + 1 < U32_MOD →
      t.add s caseSens tag
        = ({ list := t.list ++ [{ string := s, start := t.totalLen, len := s.length + 1,
                                  tag := tag }],
             totalLen := (t.totalLen + (s.length + 1)) % U32_MOD }, t.totalLen) ∧
      (t.totalLen + (s.length + 1) < U32_MOD →
        (t.add s caseSens tag).1.totalLen = t.totalLen + (s.length + 1))) := by
  constructor
  · intro htag hlen
    subst htag
    have h0 : (dStrlen s + 1) % U32_MOD = s.length + 1 :=
      Nat.mod_eq_of_lt (by unfold dStrlen U32_MOD; omega)
    have hcopy : dStrcpy s 7 = s := dStrcpy_full s 7 (by omega)
    have hadd : t.add s caseSens true
        = ({ list := t.list ++ [{ string := s, start := t.totalLen, len := 7, tag := true }],
             totalLen := (t.totalLen + 7) % U32_MOD }, t.totalLen) := by
      simp only [CompilerStringTable.add, hmiss, h0, hlen, decide_True, Bool.and_self,
        if_true, hcopy]
    refine ⟨hadd, fun hfit => ?_⟩
    rw [hadd]
    exact Nat.mod_eq_of_lt hfit
  · intro hcase hlen
    have h0 : (dStrlen s + 1) % U32_MOD = s.length + 1 := Nat.mod_eq_of_lt hlen
    have hcopy : dStrcpy s (s.length + 1) = s := dStrcpy_full s _ (by omega)
    have hcond : (tag && decide (s.length + 1 < 7)) = false := by
      cases tag
      · rfl
      · simp only [true_and, not_lt] at hcase
        simp only [Bool.true_and, decide_eq_false_iff_not, not_lt]
        exact hcase
    have hadd : t.add s caseSens tag
        = ({ list := t.list ++ [{ string := s, start := t.totalLen, len := s.length + 1,
                                  tag := tag }],
             totalLen := (t.totalLen + (s.length + 1)) % U32_MOD }, t.totalLen) := by
      simp only [CompilerStringTable.add, hmiss, h0, hcond, Bool.false_eq_true, if_false, hcopy]
    refine ⟨hadd, fun hfit => ?_⟩
    rw [hadd]
    exact Nat.mod_eq_of_lt hfit

/-- C16, on the empty pool: the tagged string `ab` gets an entry of length 7
and the untagged string `ab` an entry of length 3. -/
theorem CompilerStringTable.add_miss_length_witness :
    (CompilerStringTable.fresh.add ['a', 'b'] true true
      = ({ list := [] ++ [{ string := ['a', 'b'], start := 0, len := 7, tag := true }],
           totalLen := (0 + 7) % U32_MOD }, 0)) ∧
    (CompilerStringTable.fresh.add ['a', 'b'] true false
      = ({ list := [] ++ [{ string := ['a', 'b'], start := 0, len := 2 + 1, tag := false }],
           totalLen := (0 + (2 + 1)) % U32_MOD }, 0)) :=
  ⟨((CompilerStringTable.add_miss_length CompilerStringTable.fresh ['a', 'b'] true true
      rfl).1 rfl (by decide)).1,
   ((CompilerStringTable.add_miss_length CompilerStringTable.fresh ['a', 'b'] true false
      rfl).2 (by decide) (by decide)).1⟩

/-- C17. Reset idempotence: after `reset()` on any string pool `totalLen` is 0
and the entry list is empty, and every sequence of `add` calls then returns the
offsets and reaches the table that the same calls return and reach on a
freshly constructed pool; likewise `count`, the indices and the table of a
float pool. -/
theorem pools_reset_as_fresh :
    (∀ (t : CompilerStringTable) (calls : List CompilerStringTable.AddCall),
      (CompilerStringTable.reset t).totalLen = 0 ∧ (CompilerStringTable.reset t).list = [] ∧
      (CompilerStringTable.addAll (CompilerStringTable.reset t) calls).2
        = (CompilerStringTable.addAll CompilerStringTable.fresh calls).2 ∧
      (CompilerStringTable.addAll (CompilerStringTable.reset t) calls).1.totalLen
        = (CompilerStringTable.addAll CompilerStringTable.fresh calls).1.totalLen ∧
      (CompilerStringTable.addAll (CompilerStringTable.reset t) calls).1
        = (CompilerStringTable.addAll CompilerStringTable.fresh calls).1) ∧
    (∀ (t : CompilerFloatTable) (vs : List F64),
      (CompilerFloatTable.reset t).count = 0 ∧ (CompilerFloatTable.reset t).list = [] ∧
      (CompilerFloatTable.addAllIndices (CompilerFloatTable.reset t) vs).2
        = (CompilerFloatTable.addAllIndices CompilerFloatTable.fresh vs).2 ∧
      (CompilerFloatTable.addAllIndices (CompilerFloatTable.reset t) vs).1.count
        = (CompilerFloatTable.addAllIndices CompilerFloatTable.fresh vs).1.count ∧
      (CompilerFloatTable.addAllIndices (CompilerFloatTable.reset t) vs).1
        = (CompilerFloatTable.addAllIndices CompilerFloatTable.fresh vs).1) := by
  constructor
  · intro t calls
    have h : CompilerStringTable.reset t = CompilerStringTable.fresh := rfl
    rw [h]
    exact ⟨rfl, rfl, rfl, rfl, rfl⟩
  · intro t vs
    have h : CompilerFloatTable.reset t = CompilerFloatTable.fresh := rfl
    rw [h]
    exact ⟨rfl, rfl, rfl, rfl, rfl⟩

/-! ## Theorems: FuncVars, register numbering -/

theorem mapFind_none_iff {κ β : Type} [DecidableEq κ] (k : κ) (m : List (κ × β)) :
    mapFind k m = none ↔ k ∉ m.map Prod.fst := by
  induction m with
  | nil => simp [mapFind]
  | cons p rest ih =>
    obtain ⟨k', v'⟩ := p
    by_cases h : k' = k
    · simp [mapFind, h]
    · simp [mapFind, h, ih, Ne.symm h]

theorem mapSet_of_not_found {κ β : Type} [DecidableEq κ] (k : κ) (v : β) (m : List (κ × β))
    (h : mapFind k m = none) : mapSet k v m = m ++ [(k, v)] := by
  induction m with
  | nil => rfl
  | cons p rest ih =>
    obtain ⟨k', v'⟩ := p
    by_cases hk : k' = k
    · simp [mapFind, hk] at h
    · simp only [mapFind, hk, if_false] at h
      simp [mapSet, hk, ih h]

namespace FuncVars

theorem numbered_update (fv : FuncVars) (names : List StringTableEntry)
    (h : Numbered fv names) (x : StringTableEntry) (found : Var)
    (hx : mapFind x fv.vars = some found) (t : TypeReq) :
    Numbered { fv with vars := (mapSet x (retyped found t) fv.vars) } names := by
  obtain ⟨hkeys, hnd, hcount, hpt⟩ := h
  refine ⟨?_, hnd, hcount, ?_⟩
  · show (mapSet x (retyped found t) fv.vars).map Prod.fst = names
    rw [keys_mapSet_of_found x _ found fv.vars hx]
    exact hkeys
  · intro k name hk
    obtain ⟨⟨v, hv, hreg⟩, hmap⟩ := hpt k name hk
    refine ⟨?_, hmap⟩
    show ∃ v, mapFind name (mapSet x (retyped found t) fv.vars) = some v ∧ v.reg = (k : Int)
    by_cases hname : x = name
    · subst hname
      rw [hx] at hv
      cases hv
      exact ⟨_, mapFind_mapSet_self _ _ _, hreg⟩
    · rw [mapFind_mapSet_ne _ _ _ _ hname]
      exact ⟨v, hv, hreg⟩

theorem numbered_declare (fv : FuncVars) (names : List StringTableEntry)
    (h : Numbered fv names) (x : StringTableEntry) (hx : mapFind x fv.vars = none)
    (t : TypeReq) (c : Bool) : Numbered (declare fv x t c) (names ++ [x]) := by
  obtain ⟨hkeys, hnd, hcount, hpt⟩ := h
  have hnot : x ∉ names := by
    rw [← hkeys]
    exact (mapFind_none_iff x fv.vars).1 hx
  refine ⟨?_, ?_, ?_, ?_⟩
  · show (mapSet x _ fv.vars).map Prod.fst = names ++ [x]
    rw [mapSet_of_not_found x _ fv.vars hx, List.map_append, hkeys]
    rfl
  · rw [List.nodup_append]
    refine ⟨hnd, List.nodup_singleton x, ?_⟩
    intro a ha hb
    simp only [List.mem_singleton] at hb
    subst hb
    exact hnot ha
  · show fv.counter + 1 = ((names ++ [x]).length : Int)
    rw [hcount]
    simp
  · intro k name hk
    by_cases hlt : k < names.length
    · rw [List.getElem?_append_left hlt] at hk
      obtain ⟨⟨v, hv, hreg⟩, hmap⟩ := hpt k name hk
      have hmem : name ∈ names := List.mem_iff_getElem?.2 ⟨k, hk⟩
      have hne : x ≠ name := fun e => hnot (e ▸ hmem)
      have hkne : fv.counter ≠ (k : Int) := by
        rw [hcount]
        intro e
        have : names.length = k := by exact_mod_cast e
        omega
      constructor
      · show ∃ v, mapFind name (mapSet x _ fv.vars) = some v ∧ v.reg = (k : Int)
        rw [mapFind_mapSet_ne _ _ _ _ hne]
        exact ⟨v, hv, hreg⟩
      · show mapFind (k : Int) (mapSet fv.counter x fv.variableNameMap) = some name
        rw [mapFind_mapSet_ne _ _ _ _ hkne]
        exact hmap
    · rw [List.getElem?_append_right (by omega)] at hk
      have hk0 : k - names.length = 0 := by
        by_contra hne
        have : 1 ≤ k - names.length := by omega
        rw [List.getElem?_eq_none (by simpa using this)] at hk
        cases hk
      rw [hk0] at hk
      simp only [List.getElem?_cons_zero, Option.some.injEq] at hk
      subst hk
      have hkeq : (k : Int) = fv.counter := by
        rw [hcount]
        have : k = names.length := by omega
        exact_mod_cast this
      constructor
      · show ∃ v, mapFind x (mapSet x _ fv.vars) = some v ∧ v.reg = (k : Int)
        exact ⟨_, mapFind_mapSet_self _ _ _, hkeq.symm⟩
      · show mapFind (k : Int) (mapSet fv.counter x fv.variableNameMap) = some x
        rw [hkeq]
        exact mapFind_mapSet_self _ _ _

/-- The scope a call that returns leaves: a new name is declared, a name of the
scope keeps its entry or has its type class changed. -/
theorem step_cases (a : Bool) (fv fv1 : FuncVars) (c : Call) (h : step a fv c = some fv1) :
    (mapFind c.var fv.vars = none ∧ ∃ t k, fv1 = declare fv c.var t k) ∨
    (∃ found, mapFind c.var fv.vars = some found ∧
      (fv1 = fv ∨ ∃ t, fv1 = { fv with vars := (mapSet c.var (retyped found t) fv.vars) })) := by
  cases c with
  | assign v t l k =>
    simp only [step, Call.var] at h ⊢
    cases hf : mapFind v fv.vars with
    | none =>
      rw [assign_unseen a fv v hf t l k] at h
      simp only [Option.some.injEq] at h
      exact Or.inl ⟨rfl, t, k, h.symm⟩
    | some found =>
      rw [assign_found a fv v found hf t l k] at h
      refine Or.inr ⟨found, rfl, Or.inr ⟨t, ?_⟩⟩
      cases hc : found.isConstant <;> cases a <;> simp [hc] at h <;> exact h.symm
  | lookup v l =>
    simp only [step, Call.var, lookup] at h ⊢
    cases hf : mapFind v fv.vars with
    | none =>
      rw [hf] at h
      cases a
      · simp only [scriptErrorHandler, Bool.false_eq_true, if_false,
          assign_unseen false fv v hf TypeReq.TypeReqString l false, Option.some.injEq] at h
        exact Or.inl ⟨rfl, _, _, h.symm⟩
      · simp [scriptErrorHandler] at h
    | some found =>
      rw [hf] at h
      simp only [Option.some.injEq] at h
      exact Or.inr ⟨found, rfl, Or.inl h.symm⟩
  | lookupType v l =>
    simp only [step, Call.var, lookupType] at h ⊢
    cases hf : mapFind v fv.vars with
    | none =>
      rw [hf] at h
      cases a
      · have hfound : mapFind v (declare fv v TypeReq.TypeReqString false).vars
            = some ⟨fv.counter, TypeReq.TypeReqString, v, false⟩ :=
          mapFind_mapSet_self _ _ _
        simp only [scriptErrorHandler, Bool.false_eq_true, if_false,
          assign_unseen false fv v hf TypeReq.TypeReqString l false, hfound,
          Option.some.injEq] at h
        exact Or.inl ⟨rfl, _, _, h.symm⟩
      · simp [scriptErrorHandler] at h
    | some found =>
      rw [hf] at h
      simp only [Option.some.injEq] at h
      exact Or.inr ⟨found, rfl, Or.inl h.symm⟩

theorem step_returns (fv : FuncVars) (c : Call) : ∃ fv1, step false fv c = some fv1 := by
  cases c with
  | assign v t l k =>
    obtain ⟨id, fv1, ws, h⟩ := assign_returns fv v t l k
    exact ⟨fv1, by simp only [step, h]⟩
  | lookup v l =>
    cases hf : mapFind v fv.vars with
    | none =>
      exact ⟨declare fv v TypeReq.TypeReqString false, by
        simp only [step, lookup, hf, scriptErrorHandler, Bool.false_eq_true, if_false,
          assign_unseen false fv v hf TypeReq.TypeReqString l false]⟩
    | some found => exact ⟨fv, by simp only [step, lookup, hf]⟩
  | lookupType v l =>
    cases hf : mapFind v fv.vars with
    | none =>
      have hfound : mapFind v (declare fv v TypeReq.TypeReqString false).vars
          = some ⟨fv.counter, TypeReq.TypeReqString, v, false⟩ :=
        mapFind_mapSet_self _ _ _
      exact ⟨declare fv v TypeReq.TypeReqString false, by
        simp only [step, lookupType, hf, scriptErrorHandler, Bool.false_eq_true, if_false,
          assign_unseen false fv v hf TypeReq.TypeReqString l false, hfound]⟩
    | some found => exact ⟨fv, by simp only [step, lookupType, hf]⟩

theorem run_numbered (a : Bool) (calls : List Call) (fv fv1 : FuncVars)
    (names : List StringTableEntry) (h : run a fv calls = some fv1) (hn : Numbered fv names) :
    Numbered fv1 (firstSeen names (calls.map Call.var)) := by
  induction calls generalizing fv names with
  | nil =>
    simp only [run, Option.some.injEq] at h
    subst h
    exact hn
  | cons c cs ih =>
    simp only [run] at h
    cases hs : step a fv c with
    | none => rw [hs] at h; cases h
    | some fv2 =>
      rw [hs] at h
      simp only at h
      simp only [List.map_cons, firstSeen]
      rcases step_cases a fv fv2 c hs with ⟨hnone, t, k, rfl⟩ | ⟨found, hfound, hfv⟩
      · have hnot : c.var ∉ names := by
          rw [← hn.1]
          exact (mapFind_none_iff _ _).1 hnone
        rw [if_neg hnot]
        exact ih _ _ h (numbered_declare fv names hn c.var hnone t k)
      · have hmem : c.var ∈ names := by
          rw [← hn.1]
          by_contra hcon
          rw [(mapFind_none_iff _ _).2 hcon] at hfound
          cases hfound
        rw [if_pos hmem]
        rcases hfv with rfl | ⟨t, rfl⟩
        · exact ih _ _ h hn
        · exact ih _ _ h (numbered_update fv names hn c.var found hfound t)

theorem run_returns (calls : List Call) (fv : FuncVars) :
    ∃ fv1, run false fv calls = some fv1 := by
  induction calls generalizing fv with
  | nil => exact ⟨fv, rfl⟩
  | cons c cs ih =>
    obtain ⟨fv2, h2⟩ := step_returns fv c
    obtain ⟨fv3, h3⟩ := ih fv2
    exact ⟨fv3, by simp only [run, h2, h3]⟩

theorem numbered_clear (fv : FuncVars) : Numbered (clear fv) [] := by
  refine ⟨rfl, List.nodup_nil, rfl, ?_⟩
  intro k name hk
  simp at hk

theorem numbered_distinct (fv : FuncVars) (names : List StringTableEntry)
    (h : Numbered fv names) (x y : StringTableEntry) (vx vy : Var) (hne : x ≠ y)
    (hx : mapFind x fv.vars = some vx) (hy : mapFind y fv.vars = some vy) :
    vx.reg ≠ vy.reg := by
  obtain ⟨hkeys, hnd, -, hpt⟩ := h
  have hxm : x ∈ names := by
    rw [← hkeys]
    by_contra hcon
    rw [(mapFind_none_iff _ _).2 hcon] at hx
    cases hx
  have hym : y ∈ names := by
    rw [← hkeys]
    by_contra hcon
    rw [(mapFind_none_iff _ _).2 hcon] at hy
    cases hy
  obtain ⟨i, hi⟩ := List.mem_iff_getElem?.1 hxm
  obtain ⟨j, hj⟩ := List.mem_iff_getElem?.1 hym
  obtain ⟨⟨v1, hv1, hr1⟩, -⟩ := hpt i x hi
  obtain ⟨⟨v2, hv2, hr2⟩, -⟩ := hpt j y hj
  rw [hx] at hv1
  rw [hy] at hv2
  cases hv1
  cases hv2
  rw [hr1, hr2]
  intro e
  have hij : i = j := by exact_mod_cast e
  subst hij
  rw [hi] at hj
  cases hj
  exact hne rfl

end FuncVars

/-- C19. Register numbering: from a cleared scope, every sequence of `assign`,
`lookup` and `lookupType` calls returns (warnings being warnings) and leaves a
scope that holds exactly the distinct names referenced, in the order of their
first reference; the `k`-th of them, counting from 0, is in register `k` and
`variableNameMap` maps the id `k` back to it, `counter` is the number of
distinct names, and two different names never share a register id.  With
warnings as asserts the same holds of every run that no assert ends.  After
`clear()` the next new name is given register 0. -/
theorem FuncVars.registers_numbered (fv0 : FuncVars) (calls : List FuncVars.Call) :
    (∃ fv1, FuncVars.run false (FuncVars.clear fv0) calls = some fv1 ∧
      fv1.vars.map Prod.fst = FuncVars.firstSeen [] (calls.map FuncVars.Call.var) ∧
      fv1.counter = ((FuncVars.firstSeen [] (calls.map FuncVars.Call.var)).length : Int) ∧
      (∀ (k : Nat) (name : StringTableEntry),
        (FuncVars.firstSeen [] (calls.map FuncVars.Call.var))[k]? = some name →
        (∃ v, mapFind name fv1.vars = some v ∧ v.reg = (k : Int)) ∧
        mapFind (k : Int) fv1.variableNameMap = some name) ∧
      (∀ (x y : StringTableEntry) (vx vy : Var), x ≠ y →
        mapFind x fv1.vars = some vx → mapFind y fv1.vars = some vy → vx.reg ≠ vy.reg)) ∧
    (∀ fv1, FuncVars.run true (FuncVars.clear fv0) calls = some fv1 →
      FuncVars.Numbered fv1 (FuncVars.firstSeen [] (calls.map FuncVars.Call.var))) ∧
    (∀ (a : Bool) (x : StringTableEntry) (t : TypeReq) (l : Int) (c : Bool),
      FuncVars.assign a (FuncVars.clear fv0) x t l c
        = Outcome.returned 0 (FuncVars.declare (FuncVars.clear fv0) x t c) []) := by
  refine ⟨?_, ?_, ?_⟩
  · obtain ⟨fv1, h⟩ := FuncVars.run_returns calls (FuncVars.clear fv0)
    have hn := FuncVars.run_numbered false calls _ fv1 [] h (FuncVars.numbered_clear fv0)
    exact ⟨fv1, h, hn.1, hn.2.2.1, hn.2.2.2,
      fun x y vx vy hne hx hy => FuncVars.numbered_distinct fv1 _ hn x y vx vy hne hx hy⟩
  · intro fv1 h
    exact FuncVars.run_numbered true calls _ fv1 [] h (FuncVars.numbered_clear fv0)
  · intro a x t l c
    exact FuncVars.assign_unseen a (FuncVars.clear fv0) x rfl t l c

/-- C19, on the calls `assign(a)`, `lookup(b)`, `assign(a)`, `lookupType(c)`
made on a cleared scope: the names `a`, `b`, `c` are in the registers 0, 1, 2
and the counter is 3. -/
theorem FuncVars.registers_numbered_witness :
    ∃ fv1, FuncVars.run false (FuncVars.clear ⟨[], [], 5⟩)
        [FuncVars.Call.assign "a" TypeReq.TypeReqUInt 1 false, FuncVars.Call.lookup "b" 2,
         FuncVars.Call.assign "a" TypeReq.TypeReqFloat 3 false,
         FuncVars.Call.lookupType "c" 4] = some fv1 ∧
      fv1.vars.map (fun p => (p.1, p.2.reg)) = [("a", 0), ("b", 1), ("c", 2)] ∧
      fv1.variableNameMap = [(0, "a"), (1, "b"), (2, "c")] ∧ fv1.counter = 3 := by
  obtain ⟨fv1, h, -⟩ := (FuncVars.registers_numbered ⟨[], [], 5⟩
    [FuncVars.Call.assign "a" TypeReq.TypeReqUInt 1 false, FuncVars.Call.lookup "b" 2,
     FuncVars.Call.assign "a" TypeReq.TypeReqFloat 3 false,
     FuncVars.Call.lookupType "c" 4]).1
  refine ⟨fv1, h, ?_⟩
  have hval : FuncVars.run false (FuncVars.clear ⟨[], [], 5⟩)
      [FuncVars.Call.assign "a" TypeReq.TypeReqUInt 1 false, FuncVars.Call.lookup "b" 2,
       FuncVars.Call.assign "a" TypeReq.TypeReqFloat 3 false,
       FuncVars.Call.lookupType "c" 4]
      = some ⟨[("a", ⟨0, TypeReq.TypeReqNone, "a", false⟩),
               ("b", ⟨1, TypeReq.TypeReqString, "b", false⟩),
               ("c", ⟨2, TypeReq.TypeReqString, "c", false⟩)],
              [(0, "a"), (1, "b"), (2, "c")], 3⟩ := by decide
  rw [hval] at h
  cases h
  decide

/-! ## Theorems: CodeStream, regions -/

namespace CodeStream

/-- One `allocCode` on a chain of well-formed blocks: the chain stays well
formed, the regions handed out before stay placed, the new region is placed
and shares no byte with an earlier one. -/
theorem allocCode_region (BlockSize : Nat) (s : CodeStream) (sz : Nat) (prev : List Region)
    (hB : BlockSize < U32_MOD)
    (hblk : ∀ c ∈ s.mCode, c.data.length = BlockSize ∧ c.size ≤ BlockSize)
    (hprev : Placed s.mCode prev) (hsz : sz ≤ BlockSize) :
    (∀ c ∈ (allocCode BlockSize s sz).1.mCode,
        c.data.length = BlockSize ∧ c.size ≤ BlockSize) ∧
    Placed (allocCode BlockSize s sz).1.mCode
      (prev ++ [{ ptr := (allocCode BlockSize s sz).2, sz := sz }]) ∧
    (∀ p ∈ prev, Region.Disjoint p { ptr := (allocCode BlockSize s sz).2, sz := sz }) := by
  rcases List.eq_nil_or_concat s.mCode with h | ⟨init, head, h⟩
  · rw [allocCode_nil BlockSize s sz h]
    have hempty : prev = [] := by
      cases prev with
      | nil => rfl
      | cons r rest =>
        obtain ⟨c, hc, -⟩ := hprev r (List.mem_cons_self _ _)
        rw [h] at hc
        simp at hc
    subst hempty
    refine ⟨?_, ?_, ?_⟩
    · intro c hc
      simp only [List.mem_singleton] at hc
      subst hc
      simp [newBlock, hsz]
    · intro r hr
      simp only [List.nil_append, List.mem_singleton] at hr
      subst hr
      exact ⟨newBlock BlockSize sz, rfl, by simp [newBlock]⟩
    · intro p hp
      simp at hp
  · rw [List.concat_eq_append] at h
    have hhead := hblk head (by rw [h]; simp)
    have hinit : ∀ c ∈ init, c.data.length = BlockSize ∧ c.size ≤ BlockSize :=
      fun c hc => hblk c (by rw [h]; exact List.mem_append_left _ hc)
    rw [allocCode_concat BlockSize s init head sz h, bytesLeft_eq BlockSize head.size hhead.2 hB]
    by_cases hfit : BlockSize - head.size > sz
    · have hmod : (head.size + sz) % U32_MOD = head.size + sz :=
        Nat.mod_eq_of_lt (by omega)
      rw [if_pos hfit, hmod]
      refine ⟨?_, ?_, ?_⟩
      · intro c hc
        simp only [List.mem_append, List.mem_singleton] at hc
        rcases hc with hc | hc
        · exact hinit c hc
        · subst hc
          exact ⟨hhead.1, by show head.size + sz ≤ BlockSize; omega⟩
      · intro r hr
        simp only [List.mem_append, List.mem_singleton] at hr
        rcases hr with hr | hr
        · obtain ⟨c, hc, hle⟩ := hprev r hr
          rw [h, List.getElem?_append] at hc
          show ∃ c, (init ++ [_])[r.ptr.block]? = some c ∧ _
          rw [List.getElem?_append]
          by_cases hlt : r.ptr.block < init.length
          · rw [if_pos hlt] at hc ⊢
            exact ⟨c, hc, hle⟩
          · rw [if_neg hlt] at hc ⊢
            cases hidx : r.ptr.block - init.length with
            | zero =>
              rw [hidx] at hc
              simp only [List.getElem?_cons_zero, Option.some.injEq] at hc
              subst hc
              exact ⟨_, rfl, by show r.ptr.offset + r.sz ≤ head.size + sz; omega⟩
            | succ n =>
              rw [hidx] at hc
              simp at hc
        · subst hr
          show ∃ c, (init ++ [_])[init.length]? = some c ∧ _
          rw [List.getElem?_append_right (Nat.le_refl _), Nat.sub_self]
          exact ⟨_, rfl, Nat.le_refl _⟩
      · intro p hp
        obtain ⟨c, hc, hle⟩ := hprev p hp
        rw [h, List.getElem?_append] at hc
        by_cases hlt : p.ptr.block < init.length
        · exact Or.inl (by show p.ptr.block ≠ init.length; omega)
        · rw [if_neg hlt] at hc
          cases hidx : p.ptr.block - init.length with
          | zero =>
            rw [hidx] at hc
            simp only [List.getElem?_cons_zero, Option.some.injEq] at hc
            subst hc
            exact Or.inr (Or.inl hle)
          | succ n =>
            rw [hidx] at hc
            simp at hc
    · rw [if_neg hfit]
      have hold : ∀ i c, (init ++ [head])[i]? = some c →
          (init ++ [head, newBlock BlockSize sz])[i]? = some c ∧ i < init.length + 1 := by
        intro i c hc
        have hlt : i < (init ++ [head]).length := by
          by_contra hge
          rw [List.getElem?_eq_none (by omega)] at hc
          cases hc
        have hsplit : init ++ [head, newBlock BlockSize sz]
            = (init ++ [head]) ++ [newBlock BlockSize sz] := by simp
        rw [hsplit, List.getElem?_append_left hlt]
        exact ⟨hc, by simpa using hlt⟩
      refine ⟨?_, ?_, ?_⟩
      · intro c hc
        simp only [List.mem_append, List.mem_cons, List.mem_singleton, List.not_mem_nil,
          or_false] at hc
        rcases hc with hc | hc | hc
        · exact hinit c hc
        · subst hc; exact hhead
        · subst hc
          simp [newBlock, hsz]
      · intro r hr
        simp only [List.mem_append, List.mem_singleton] at hr
        rcases hr with hr | hr
        · obtain ⟨c, hc, hle⟩ := hprev r hr
          rw [h] at hc
          exact ⟨c, (hold _ c hc).1, hle⟩
        · subst hr
          have hsplit : init ++ [head, newBlock BlockSize sz]
              = (init ++ [head]) ++ [newBlock BlockSize sz] := by simp
          show ∃ c, (init ++ [head, newBlock BlockSize sz])[init.length + 1]? = some c ∧ _
          rw [hsplit, List.getElem?_append_right (by simp)]
          simp [newBlock]
      · intro p hp
        obtain ⟨c, hc, -⟩ := hprev p hp
        rw [h] at hc
        have := (hold _ c hc).2
        exact Or.inl (by show p.ptr.block ≠ init.length + 1; omega)

theorem allocAll_regions (BlockSize : Nat) (sizes : List Nat) (s : CodeStream)
    (prev : List Region) (hB : BlockSize < U32_MOD)
    (hblk : ∀ c ∈ s.mCode, c.data.length = BlockSize ∧ c.size ≤ BlockSize)
    (hprev : Placed s.mCode prev) (hsz : ∀ sz ∈ sizes, sz ≤ BlockSize) :
    (∀ c ∈ (allocAll BlockSize s sizes).1.mCode,
        c.data.length = BlockSize ∧ c.size ≤ BlockSize) ∧
    Placed (allocAll BlockSize s sizes).1.mCode (prev ++ (allocAll BlockSize s sizes).2) ∧
    (allocAll BlockSize s sizes).2.Pairwise Region.Disjoint ∧
    (∀ p ∈ prev, ∀ r ∈ (allocAll BlockSize s sizes).2, Region.Disjoint p r) := by
  induction sizes generalizing s prev with
  | nil =>
    simp only [allocAll, List.append_nil]
    exact ⟨hblk, hprev, List.Pairwise.nil, fun _ _ r hr => by simp at hr⟩
  | cons sz rest ih =>
    obtain ⟨h1, h2, h3⟩ := allocCode_region BlockSize s sz prev hB hblk hprev
      (hsz sz (List.mem_cons_self _ _))
    obtain ⟨i1, i2, i3, i4⟩ := ih (allocCode BlockSize s sz).1
      (prev ++ [{ ptr := (allocCode BlockSize s sz).2, sz := sz }]) h1 h2
      (fun x hx => hsz x (List.mem_cons_of_mem _ hx))
    simp only [allocAll]
    refine ⟨i1, ?_, ?_, ?_⟩
    · rw [List.append_assoc] at i2
      exact i2
    · rw [List.pairwise_cons]
      exact ⟨fun r hr => i4 _ (by simp) r hr, i3⟩
    · intro p hp r hr
      simp only [List.mem_cons] at hr
      rcases hr with rfl | hr
      · exact h3 p hp
      · exact i4 p (List.mem_append_left _ hp) r hr

end CodeStream

/-- C20. Allocation safety: for every sequence of `allocCode(sz)` calls with
`sz ≤ BlockSize` on a fresh or reset stream, after every call each block has
`size ≤ BlockSize`, so the `U32` subtraction `BlockSize - size` is the true
difference and never wraps; every region returned lies in a block of the chain
and inside the `BlockSize` bytes of its buffer, and no two regions returned
share a byte. -/
theorem CodeStream.allocCode_safe (BlockSize : Nat) (start : CodeStream) (sizes : List Nat)
    (hstart : start = CodeStream.fresh ∨
      ∃ s, CodeStream.Blocks BlockSize s ∧ start = CodeStream.reset s)
    (hB : BlockSize < U32_MOD) (hsz : ∀ sz ∈ sizes, sz ≤ BlockSize) :
    (∀ n, ∀ c ∈ (CodeStream.allocAll BlockSize start (sizes.take n)).1.mCode,
      c.size ≤ BlockSize ∧
      (BlockSize + (U32_MOD - c.size % U32_MOD)) % U32_MOD = BlockSize - c.size) ∧
    (∀ r ∈ (CodeStream.allocAll BlockSize start sizes).2,
      ∃ c, (CodeStream.allocAll BlockSize start sizes).1.mCode[r.ptr.block]? = some c ∧
        c.data.length = BlockSize ∧ r.ptr.offset + r.sz ≤ c.data.length) ∧
    (CodeStream.allocAll BlockSize start sizes).2.Pairwise CodeStream.Region.Disjoint := by
  have hinit : ∀ c ∈ start.mCode, c.data.length = BlockSize ∧ c.size ≤ BlockSize := by
    rcases hstart with h | ⟨s, hs, h⟩
    · subst h; simp [CodeStream.fresh]
    · subst h; exact (CodeStream.reset_content BlockSize s hs).1
  have hplaced : CodeStream.Placed start.mCode [] := fun r hr => by simp at hr
  refine ⟨?_, ?_, ?_⟩
  · intro n c hc
    have h := (CodeStream.allocAll_regions BlockSize (sizes.take n) start [] hB hinit hplaced
      (fun x hx => hsz x (List.mem_of_mem_take hx))).1 c hc
    exact ⟨h.2, CodeStream.bytesLeft_eq BlockSize c.size h.2 hB⟩
  · obtain ⟨h1, h2, -, -⟩ := CodeStream.allocAll_regions BlockSize sizes start [] hB hinit
      hplaced hsz
    intro r hr
    obtain ⟨c, hc, hle⟩ := h2 r (by simpa using hr)
    have hcm := h1 c (List.mem_iff_getElem?.2 ⟨_, hc⟩)
    exact ⟨c, hc, hcm.1, by omega⟩
  · exact (CodeStream.allocAll_regions BlockSize sizes start [] hB hinit hplaced hsz).2.2.1

/-- C20, with `BlockSize = 8` and requests of 2, 3, 4 and 8 bytes on a fresh
stream: the regions are `[0, 2)` and `[2, 5)` of block 0, `[0, 4)` of block 1
and `[0, 8)` of block 2, and no two of them share a byte. -/
theorem CodeStream.allocCode_safe_witness :
    (CodeStream.allocAll 8 CodeStream.fresh [2, 3, 4, 8]).2.Pairwise
        CodeStream.Region.Disjoint ∧
    (CodeStream.allocAll 8 CodeStream.fresh [2, 3, 4, 8]).2
      = [⟨⟨0, 0⟩, 2⟩, ⟨⟨0, 2⟩, 3⟩, ⟨⟨1, 0⟩, 4⟩, ⟨⟨2, 0⟩, 8⟩] :=
  ⟨(CodeStream.allocCode_safe 8 CodeStream.fresh [2, 3, 4, 8] (Or.inl rfl) (by decide)
      (by decide)).2.2, by decide⟩

/-! ## Theorems: CompilerStringTable, layout of the built buffer -/

theorem strCompare_eq (a b : CStr) (h : strCompare a b = 0) : a = b := by
  induction a generalizing b with
  | nil =>
    cases b with
    | nil => rfl
    | cons y ys => simp [strCompare] at h
  | cons x xs ih =>
    cases b with
    | nil => simp [strCompare] at h
    | cons y ys =>
      simp only [strCompare] at h
      by_cases hxy : x = y
      · rw [if_pos hxy] at h
        rw [hxy, ih ys h]
      · rw [if_neg hxy] at h
        exfalso
        apply hxy
        have hn : x.toNat = y.toNat := by omega
        exact Char.ext (UInt32.ext (by simpa [Char.toNat] using hn))

theorem dStricmp_eq (a b : CStr) (h : dStricmp a b = 0) :
    a.map Char.toLower = b.map Char.toLower := strCompare_eq _ _ h

namespace CompilerStringTable

theorem walk_some (s : CStr) (caseSens tag : Bool) (l : List StringEntry) (e : StringEntry)
    (h : walk s caseSens tag l = some e) :
    e ∈ l ∧ e.tag = tag ∧ (caseSens = true → e.string = s) ∧
      (caseSens = false → e.string.map Char.toLower = s.map Char.toLower) := by
  induction l with
  | nil => simp [walk] at h
  | cons x rest ih =>
    simp only [walk] at h
    have hrec : walk s caseSens tag rest = some e →
        e ∈ x :: rest ∧ e.tag = tag ∧ (caseSens = true → e.string = s) ∧
          (caseSens = false → e.string.map Char.toLower = s.map Char.toLower) := by
      intro h'
      obtain ⟨h1, h2⟩ := ih h'
      exact ⟨List.mem_cons_of_mem _ h1, h2⟩
    split_ifs at h with h1 h2 h3 h4
    · exact hrec h
    · simp only [Option.some.injEq] at h
      subst h
      refine ⟨List.mem_cons_self _ _, by simpa using h1, fun _ => strCompare_eq _ _ h3, ?_⟩
      intro hc
      rw [h2] at hc
      cases hc
    · exact hrec h
    · simp only [Option.some.injEq] at h
      subst h
      refine ⟨List.mem_cons_self _ _, by simpa using h1, ?_, fun _ => dStricmp_eq _ _ h4⟩
      intro hc
      exact absurd hc h2
    · exact hrec h

theorem add_prefix (t : CompilerStringTable) (s : CStr) (caseSens tag : Bool) :
    ∃ extra, (t.add s caseSens tag).1.list = t.list ++ extra := by
  unfold add
  cases walk s caseSens tag t.list with
  | some e => exact ⟨[], by simp⟩
  | none => exact ⟨_, rfl⟩

theorem addAll_prefix (calls : List AddCall) (t : CompilerStringTable) :
    ∃ extra, (addAll t calls).1.list = t.list ++ extra := by
  induction calls generalizing t with
  | nil => exact ⟨[], by simp [addAll]⟩
  | cons c rest ih =>
    obtain ⟨e1, h1⟩ := add_prefix t c.str c.caseSens c.tag
    obtain ⟨e2, h2⟩ := ih (t.add c.str c.caseSens c.tag).1
    exact ⟨e1 ++ e2, by simp only [addAll, h2, h1, List.append_assoc]⟩

/-- One `add` on a packed pool whose entries still fit a `U32`: the pool stays
packed and the offset returned is the start of an entry that holds the string,
byte for byte or up to letter case according to the comparison mode. -/
theorem add_packed (t : CompilerStringTable) (s : CStr) (caseSens tag : Bool)
    (hp : Packed t) (hlen : s.length + 1 < U32_MOD) (hnul : ∀ ch ∈ s, ch.toNat ≠ 0)
    (hsum : ((t.add s caseSens tag).1.list.map StringEntry.len).sum < U32_MOD) :
    Packed (t.add s caseSens tag).1 ∧
    ∃ e ∈ (t.add s caseSens tag).1.list, e.start = (t.add s caseSens tag).2 ∧
      (caseSens = true → e.string = s) ∧
      (caseSens = false → e.string.map Char.toLower = s.map Char.toLower) := by
  cases hw : walk s caseSens tag t.list with
  | some e =>
    obtain ⟨hmem, -, h1, h2⟩ := walk_some s caseSens tag t.list e hw
    simp only [add, hw]
    exact ⟨hp, e, hmem, rfl, h1, h2⟩
  | none =>
    have hstored := stored_len s tag hlen
    have hcopy := dStrcpy_full s _ hstored
    simp only [add, hw, hcopy] at hsum ⊢
    generalize (if tag && decide ((dStrlen s + 1) % U32_MOD < 7) then 7
      else (dStrlen s + 1) % U32_MOD) = len at hstored hsum ⊢
    obtain ⟨hstart, htotal, hstr⟩ := hp
    rw [List.map_append, List.sum_append] at hsum
    simp only [List.map_cons, List.map_nil, List.sum_cons, List.sum_nil, Nat.add_zero] at hsum
    refine ⟨⟨?_, ?_, ?_⟩,
      ⟨{ string := s, start := t.totalLen, len := len, tag := tag }, by simp, rfl,
        fun _ => rfl, fun _ => rfl⟩⟩
    · intro k e hk
      by_cases hlt : k < t.list.length
      · rw [List.getElem?_append_left hlt] at hk
        rw [List.take_append_of_le_length (Nat.le_of_lt hlt)]
        exact hstart k e hk
      · rw [List.getElem?_append_right (by omega)] at hk
        cases hidx : k - t.list.length with
        | zero =>
          rw [hidx] at hk
          simp only [List.getElem?_cons_zero, Option.some.injEq] at hk
          subst hk
          have hk' : k = t.list.length := by omega
          rw [hk', List.take_left' rfl]
          exact htotal
        | succ n =>
          rw [hidx] at hk
          simp at hk
    · show (t.totalLen + len) % U32_MOD = _
      rw [List.map_append, List.sum_append, htotal]
      simp only [List.map_cons, List.map_nil, List.sum_cons, List.sum_nil, Nat.add_zero]
      exact Nat.mod_eq_of_lt hsum
    · intro e he
      simp only [List.mem_append, List.mem_singleton] at he
      rcases he with he | he
      · exact hstr e he
      · subst he
        exact ⟨by show s.length + 1 ≤ len; omega, hnul⟩

theorem sum_len_prefix (l extra : List StringEntry) :
    (l.map StringEntry.len).sum ≤ ((l ++ extra).map StringEntry.len).sum := by
  rw [List.map_append, List.sum_append]
  exact Nat.le_add_right _ _

/-- A sequence of `add` calls on a packed pool whose entries fit a `U32` in the
end: the pool stays packed and every offset returned is the start of an entry
of the final pool that holds the string added. -/
theorem addAll_packed (calls : List AddCall) (t : CompilerStringTable) (hp : Packed t)
    (hlen : ∀ c ∈ calls, c.str.length + 1 < U32_MOD)
    (hnul : ∀ c ∈ calls, ∀ ch ∈ c.str, ch.toNat ≠ 0)
    (hsum : (((addAll t calls).1.list.map StringEntry.len).sum) < U32_MOD) :
    Packed (addAll t calls).1 ∧
    ∀ (i : Nat) (c : AddCall), calls[i]? = some c →
      ∃ o e, (addAll t calls).2[i]? = some o ∧ e ∈ (addAll t calls).1.list ∧ e.start = o ∧
        (c.caseSens = true → e.string = c.str) ∧
        (c.caseSens = false → e.string.map Char.toLower = c.str.map Char.toLower) := by
  induction calls generalizing t with
  | nil =>
    refine ⟨hp, ?_⟩
    intro i c hc
    simp at hc
  | cons c rest ih =>
    obtain ⟨extra, hextra⟩ := addAll_prefix rest (t.add c.str c.caseSens c.tag).1
    have hsum1 : (((t.add c.str c.caseSens c.tag).1.list.map StringEntry.len).sum)
        < U32_MOD := by
      have h := sum_len_prefix (t.add c.str c.caseSens c.tag).1.list extra
      rw [← hextra] at h
      simp only [addAll] at hsum
      omega
    obtain ⟨hp1, e, he, hstart, hcs, hci⟩ := add_packed t c.str c.caseSens c.tag hp
      (hlen c (List.mem_cons_self _ _)) (hnul c (List.mem_cons_self _ _)) hsum1
    obtain ⟨hp2, hrest⟩ := ih (t.add c.str c.caseSens c.tag).1 hp1
      (fun x hx => hlen x (List.mem_cons_of_mem _ hx))
      (fun x hx => hnul x (List.mem_cons_of_mem _ hx))
      (by simpa only [addAll] using hsum)
    simp only [addAll]
    refine ⟨hp2, ?_⟩
    intro i c' hc'
    cases i with
    | zero =>
      simp only [List.getElem?_cons_zero, Option.some.injEq] at hc'
      subst hc'
      refine ⟨(t.add c.str c.caseSens c.tag).2, e, List.getElem?_cons_zero, ?_, hstart, hcs,
        hci⟩
      rw [hextra]
      exact List.mem_append_left _ he
    | succ j =>
      simp only [List.getElem?_cons_succ] at hc' ⊢
      exact hrest j c' hc'

end CompilerStringTable

namespace CompilerStringTable

theorem length_layout (l : List StringEntry) (hstr : ∀ e ∈ l, e.string.length + 1 ≤ e.len) :
    (layout l).length = (l.map StringEntry.len).sum := by
  induction l with
  | nil => rfl
  | cons e rest ih =>
    have he := hstr e (List.mem_cons_self _ _)
    have hcons : layout (e :: rest)
        = (cBytes e.string ++ List.replicate (e.len - e.string.length) 0) ++ layout rest := by
      simp [layout]
    rw [hcons, List.length_append, ih (fun x hx => hstr x (List.mem_cons_of_mem _ hx)),
      List.length_append, List.length_replicate, List.map_cons, List.sum_cons]
    simp only [cBytes, List.length_map]
    omega

theorem layout_concat (l : List StringEntry) (e : StringEntry) :
    layout (l ++ [e])
      = layout l ++ (cBytes e.string ++ List.replicate (e.len - e.string.length) 0) := by
  simp [layout]

/-- The copy loop of `build` over a packed list of entries that fits the
buffer: the entries laid out, then the zero bytes not reached. -/
theorem build_fold (T : Nat) (hT : T < U32_MOD) (l : List StringEntry)
    (hstart : ∀ (k : Nat) (e : StringEntry), l[k]? = some e →
      e.start = ((l.take k).map StringEntry.len).sum)
    (hstr : ∀ e ∈ l, e.string.length + 1 ≤ e.len)
    (hsum : (l.map StringEntry.len).sum ≤ T) :
    l.foldl
        (fun ret walk => writeBytes ret walk.start
          (dStrcpyBytes walk.string ((T + (U32_MOD - walk.start % U32_MOD)) % U32_MOD)))
        (List.replicate T 0)
      = layout l ++ List.replicate (T - (l.map StringEntry.len).sum) 0 := by
  induction l using List.reverseRecOn with
  | nil => simp [layout]
  | append_singleton l e ih =>
    have hstart' : ∀ (k : Nat) (x : StringEntry), l[k]? = some x →
        x.start = ((l.take k).map StringEntry.len).sum := by
      intro k x hk
      have hlt : k < l.length := (List.getElem?_eq_some.1 hk).1
      have := hstart k x (by rw [List.getElem?_append_left hlt]; exact hk)
      rw [List.take_append_of_le_length (Nat.le_of_lt hlt)] at this
      exact this
    have hstr' : ∀ x ∈ l, x.string.length + 1 ≤ x.len :=
      fun x hx => hstr x (List.mem_append_left _ hx)
    have he : e.string.length + 1 ≤ e.len := hstr e (by simp)
    have hsplit : ((l ++ [e]).map StringEntry.len).sum
        = (l.map StringEntry.len).sum + e.len := by
      simp [List.sum_append]
    rw [hsplit] at hsum ⊢
    have hes : e.start = (l.map StringEntry.len).sum := by
      have := hstart l.length e (by simp)
      rw [List.take_left' rfl] at this
      exact this
    have hll := length_layout l hstr'
    rw [List.foldl_append, List.foldl_cons, List.foldl_nil, ih hstart' hstr' (by omega),
      layout_concat, hes]
    generalize (l.map StringEntry.len).sum = S at hsum hll ⊢
    have hsize : (T + (U32_MOD - S % U32_MOD)) % U32_MOD = T - S :=
      CodeStream.bytesLeft_eq T S (by omega) hT
    have hbytes : dStrcpyBytes e.string (T - S) = cBytes e.string ++ [0] := by
      unfold dStrcpyBytes
      rw [if_neg (by omega), dStrcpy_full e.string (T - S) (by omega)]
    have hbl : (cBytes e.string ++ [0]).length = e.string.length + 1 := by
      simp [cBytes]
    rw [hsize, hbytes, writeBytes_eq _ _ _ (by
      simp only [List.length_append, List.length_replicate, hll, List.length_singleton, cBytes,
        List.length_map]
      omega)]
    rw [List.take_left' hll, hbl]
    have hdrop : List.drop (S + (e.string.length + 1)) (layout l ++ List.replicate (T - S) 0)
        = List.replicate (T - S - (e.string.length + 1)) 0 := by
      rw [← hll, List.drop_append, List.drop_replicate]
    rw [hdrop]
    have hz : [0] ++ List.replicate (T - S - (e.string.length + 1)) 0
        = List.replicate (e.len - e.string.length) 0 ++ List.replicate (T - (S + e.len)) 0 := by
      rw [← List.replicate_add]
      have : e.len - e.string.length + (T - (S + e.len))
          = (T - S - (e.string.length + 1)) + 1 := by omega
      rw [this, List.replicate_succ]
      rfl
    simp only [List.append_assoc]
    rw [hz]

theorem build_eq_layout (t : CompilerStringTable) (hp : Packed t)
    (hT : t.totalLen < U32_MOD) : build t = layout t.list := by
  obtain ⟨hstart, htotal, hstr⟩ := hp
  unfold build
  rw [build_fold t.totalLen hT t.list hstart (fun e he => (hstr e he).1) (by omega), htotal,
    Nat.sub_self]
  simp

theorem cstrAt_layout (l : List StringEntry)
    (hstart : ∀ (k : Nat) (e : StringEntry), l[k]? = some e →
      e.start = ((l.take k).map StringEntry.len).sum)
    (hstr : ∀ e ∈ l, e.string.length + 1 ≤ e.len ∧ ∀ ch ∈ e.string, ch.toNat ≠ 0)
    (e : StringEntry) (he : e ∈ l) : cstrAt (layout l) e.start = cBytes e.string := by
  obtain ⟨k, hk⟩ := List.mem_iff_getElem?.1 he
  obtain ⟨hlt, hget⟩ := List.getElem?_eq_some.1 hk
  have hdecomp : l = l.take k ++ e :: l.drop (k + 1) := by
    rw [← hget, List.getElem_cons_drop, List.take_append_drop]
  have hes := hstart k e hk
  have hpre : (layout (l.take k)).length = e.start := by
    rw [length_layout _ (fun x hx => (hstr x (List.mem_of_mem_take hx)).1), hes]
  have hlay : layout l = layout (l.take k)
      ++ ((cBytes e.string ++ List.replicate (e.len - e.string.length) 0)
        ++ layout (l.drop (k + 1))) := by
    conv_lhs => rw [hdecomp]
    simp [layout]
  obtain ⟨hroom, hnul⟩ := hstr e he
  have hrep : List.replicate (e.len - e.string.length) 0
      = 0 :: List.replicate (e.len - e.string.length - 1) 0 := by
    have : e.len - e.string.length = (e.len - e.string.length - 1) + 1 := by omega
    rw [this, List.replicate_succ]
    simp
  unfold cstrAt
  rw [hlay, ← hpre, List.drop_left, List.append_assoc,
    List.takeWhile_append_of_pos (by
      intro b hb
      simp only [cBytes, List.mem_map] at hb
      obtain ⟨ch, hch, rfl⟩ := hb
      simpa using hnul ch hch), hrep]
  simp

end CompilerStringTable

/-- C18. Layout of the string pool: after any sequence of `add` calls since
`reset()`, the strings being NUL-free C strings that fit a `U32` length and the
entries together a `U32` total, the entries are contiguous in insertion order
(the `k`-th entry starts at the sum of the lengths of the entries before it,
the first at 0, and `totalLen` is the sum of all lengths), `build()` returns
exactly `totalLen` bytes, and the NUL-terminated string found at the offset
that `add` returned for a string is the string of an entry of the pool: equal
to the string added when it was added case-sensitively, equal to it up to
letter case otherwise. -/
theorem CompilerStringTable.build_strings (t0 : CompilerStringTable)
    (calls : List CompilerStringTable.AddCall)
    (hlen : ∀ c ∈ calls, c.str.length + 1 < U32_MOD)
    (hnul : ∀ c ∈ calls, ∀ ch ∈ c.str, ch.toNat ≠ 0)
    (hsum : (((CompilerStringTable.addAll (CompilerStringTable.reset t0) calls).1.list.map
      StringEntry.len).sum) < U32_MOD) :
    (∀ (k : Nat) (e : StringEntry),
      (CompilerStringTable.addAll (CompilerStringTable.reset t0) calls).1.list[k]? = some e →
      e.start = (((CompilerStringTable.addAll (CompilerStringTable.reset t0)
        calls).1.list.take k).map StringEntry.len).sum) ∧
    (CompilerStringTable.addAll (CompilerStringTable.reset t0) calls).1.totalLen
      = ((CompilerStringTable.addAll (CompilerStringTable.reset t0) calls).1.list.map
          StringEntry.len).sum ∧
    (CompilerStringTable.build
        (CompilerStringTable.addAll (CompilerStringTable.reset t0) calls).1).length
      = (CompilerStringTable.addAll (CompilerStringTable.reset t0) calls).1.totalLen ∧
    (∀ (i : Nat) (c : CompilerStringTable.AddCall), calls[i]? = some c →
      ∃ o e, (CompilerStringTable.addAll (CompilerStringTable.reset t0) calls).2[i]? = some o ∧
        e ∈ (CompilerStringTable.addAll (CompilerStringTable.reset t0) calls).1.list ∧
        e.start = o ∧
        CompilerStringTable.cstrAt (CompilerStringTable.build
          (CompilerStringTable.addAll (CompilerStringTable.reset t0) calls).1) o
          = CompilerStringTable.cBytes e.string ∧
        (c.caseSens = true → e.string = c.str) ∧
        (c.caseSens = false → e.string.map Char.toLower = c.str.map Char.toLower)) := by
  have hp0 : CompilerStringTable.Packed (CompilerStringTable.reset t0) := by
    refine ⟨?_, rfl, ?_⟩
    · intro k e hk
      simp [CompilerStringTable.reset] at hk
    · intro e he
      simp [CompilerStringTable.reset] at he
  obtain ⟨hp, hoff⟩ := CompilerStringTable.addAll_packed calls _ hp0 hlen hnul hsum
  generalize CompilerStringTable.addAll (CompilerStringTable.reset t0) calls = r at hp hoff hsum ⊢
  have hT : r.1.totalLen < U32_MOD := by rw [hp.2.1]; exact hsum
  have hbuild := CompilerStringTable.build_eq_layout r.1 hp hT
  refine ⟨hp.1, hp.2.1, ?_, ?_⟩
  · rw [hbuild, CompilerStringTable.length_layout _ (fun e he => (hp.2.2 e he).1), hp.2.1]
  · intro i c hc
    obtain ⟨o, e, ho, he, hs, h1, h2⟩ := hoff i c hc
    refine ⟨o, e, ho, he, hs, ?_, h1, h2⟩
    rw [hbuild, ← hs]
    exact CompilerStringTable.cstrAt_layout r.1.list hp.1 hp.2.2 e he

/-- C18, on the calls `add("Hi", caseSens)`, `add("a", tagged)` and
`add("hi", case-insensitive)`: the offsets are 0, 3 and 0 and the buffer holds
`Hi` at 0 and `a` at 3. -/
theorem CompilerStringTable.build_strings_witness :
    (∃ o e, (CompilerStringTable.addAll (CompilerStringTable.reset ⟨[], 0⟩)
          [⟨['H', 'i'], true, false⟩, ⟨['a'], true, true⟩, ⟨['h', 'i'], false, false⟩]).2[2]?
          = some o ∧
        e ∈ (CompilerStringTable.addAll (CompilerStringTable.reset ⟨[], 0⟩)
          [⟨['H', 'i'], true, false⟩, ⟨['a'], true, true⟩, ⟨['h', 'i'], false, false⟩]).1.list ∧
        e.start = o ∧
        CompilerStringTable.cstrAt (CompilerStringTable.build
          (CompilerStringTable.addAll (CompilerStringTable.reset ⟨[], 0⟩)
            [⟨['H', 'i'], true, false⟩, ⟨['a'], true, true⟩,
             ⟨['h', 'i'], false, false⟩]).1) o
          = CompilerStringTable.cBytes e.string ∧
        (false = true → e.string = ['h', 'i']) ∧
        (false = false → e.string.map Char.toLower = ['h', 'i'].map Char.toLower)) ∧
    (CompilerStringTable.addAll (CompilerStringTable.reset ⟨[], 0⟩)
        [⟨['H', 'i'], true, false⟩, ⟨['a'], true, true⟩, ⟨['h', 'i'], false, false⟩]).2
      = [0, 3, 0] ∧
    CompilerStringTable.build
        (CompilerStringTable.addAll (CompilerStringTable.reset ⟨[], 0⟩)
          [⟨['H', 'i'], true, false⟩, ⟨['a'], true, true⟩, ⟨['h', 'i'], false, false⟩]).1
      = [72, 105, 0, 97, 0, 0, 0, 0, 0, 0] :=
  ⟨(CompilerStringTable.build_strings ⟨[], 0⟩
      [⟨['H', 'i'], true, false⟩, ⟨['a'], true, true⟩, ⟨['h', 'i'], false, false⟩]
      (by decide) (by decide) (by decide)).2.2.2 2 ⟨['h', 'i'], false, false⟩ rfl,
   by decide, by decide⟩

end Torque
